import Mathlib

/-! marian-dev: the translation service of `src/server/translation_service.h`, the
validator of `src/training/validator.h` and the integer product of
`src/tensors/cpu/integer.h`.

A shallow embedding of `loadVocabularies` and of the class `TranslationService`
(`push`, `callback_`, `vocab`, `translate`, `start`, `stop`), of
`Validator::updateStalled`, of the constructors of `DotNodeOp` and `AffineNodeOp`
and of `SaturateMult`, followed by theorems about the job counter, the registry
`scheduled_jobs_`, the completion handles, the stalled counter, the shapes of
the nodes and the saturated sums.

Conventions of the embedding

* `Ptr<T>` is `Option T`, the null pointer being `none`.
* `uint64_t` and `size_t` are `Nat` with an explicit `% 2 ^ 64`, `int` is `Int`
  with explicit wrap-around to 32 bits.
* `std::string` is `List Char` where the text is inspected (source text, lines,
  translations) and `String` where it is only stored (paths, error messages).
* A function returns `none` when the C++ code does not return normally: an
  `ABORT_IF`, an exception (`std::out_of_range`, `std::future_error`), the
  dereference of a null pointer or of a pointer to an erased map node, or a
  `future::get` that blocks for ever.
* `std::promise` / `std::future` pairs share one `SharedState`; the states
  created so far are kept in `TranslationService.shared` and a promise or a
  future is the index of its state.
-/

namespace marian
namespace server

/-- Nullable shared pointer `Ptr<T>`; `none` is the null pointer. -/
abbrev Ptr (α : Type) := Option α

/-- Modelled from the spec: the part of `Vocab` (vocab.h is not among the sources)
that `loadVocabularies` determines. `addr` is the identity of the object
made by `New<Vocab>`, `batchIndex` the constructor argument, `file` the path
handed to `load`. -/
structure Vocab where
  addr : Nat
  batchIndex : Nat
  file : Option String
  deriving DecidableEq

/-- Modelled from the spec: `Options` (options.h is not among the sources), reduced
to the entries that the service reads: `vocabs`, `right-left`, `shortlist` and
the device list that `Config::getDevices` derives from the options. -/
structure Options where
  vocabs : List String
  right_left : Bool
  shortlist : List String
  devices : List Nat
  deriving DecidableEq

/-- Modelled from the spec: `Job` (translation_job.h is not among the sources).
The fields are the ones the spec lists and the ones the service touches
(`internal_id`, `translation`, `error`). -/
structure Job where
  internal_id : Nat
  external_id : Nat
  input : List Char
  nbest : Nat
  priority : Nat
  translation : List Char
  error : Option String
  deriving DecidableEq

/-- Modelled from the spec: the constructor `Job(internal_id, ejid, input, nbest,
priority)`; the result fields start out empty. -/
def Job.create (id ejid : Nat) (input : List Char) (nbest priority : Nat) : Job :=
  { internal_id := id, external_id := ejid, input := input, nbest := nbest,
    priority := priority, translation := [], error := none }

/-- Modelled from the spec: the part of `History` (translator/history.h is not among
the sources) that the service reads, `GetLineNum()`, and the content that
`Job::finish` turns into a translation. -/
structure History where
  lineNum : Nat
  text : List Char
  deriving DecidableEq

/-- Shared state of a `std::promise` / `std::future` pair. -/
structure SharedState where
  value : Option Job
  retrieved : Bool
  deriving DecidableEq

/-- The pair `std::pair<Ptr<Job>, std::promise<Ptr<Job const>>>`; the promise is
the index of its shared state. -/
structure JobEntry where
  first : Ptr Job
  second : Nat
  deriving DecidableEq

/-- Modelled from the spec: `data::QueuedInput` (queued_input.h is not among the
sources), reduced to the jobs it has accepted. Whether a `push` is accepted
is decided outside the service and is an argument of `TranslationService.push`. -/
structure QueuedInput where
  jobs : List Job
  deriving DecidableEq

/-- Modelled from the spec: a `TranslationWorker` (translation_worker.h is not among
the sources), reduced to its device and whether `start()` was called. -/
structure Worker where
  device : Nat
  started : Bool
  deriving DecidableEq

/-- Modelled from the spec: `data::LexicalShortlistGenerator` (data/shortlist.h is
not among the sources), reduced to the arguments it is constructed with in
`start`. -/
structure ShortlistGenerator where
  src : Ptr Vocab
  trg : Ptr Vocab
  srcIdx : Nat
  trgIdx : Nat
  sharedVocab : Bool
  deriving DecidableEq

/-- What `start` and `loadVocabularies` do to the outside world, in order. -/
inductive Effect
  | loadVocab (path : String) (batchIndex : Nat)
  | newShortlist
  | newQueue
  | newWorker (device : Nat)
  | startWorker (device : Nat)
  deriving DecidableEq

/-! ## The registry `std::unordered_map<uint64_t, JobEntry>` -/

/-- An `unordered_map` as an association list; keys occur at most once. -/
abbrev Registry := List (Nat × JobEntry)

/-- The call `scheduled_jobs_.find(k)`; `none` stands for `end()`. -/
def Registry.find (r : Registry) (k : Nat) : Option JobEntry :=
  (List.find? (fun e => e.1 == k) r).map Prod.snd

/-- The call `scheduled_jobs_.erase(m)` for `m = find(k)`. -/
def Registry.erase (r : Registry) (k : Nat) : Registry :=
  List.eraseP (fun e => e.1 == k) r

/-- Assignment through a reference to the entry of key `k`: `entry->first = job`. -/
def Registry.setFirst (r : Registry) (k : Nat) (job : Ptr Job) : Registry :=
  r.map (fun e => if e.1 == k then (e.1, { e.2 with first := job }) else e)

/-- The keys of the registry. -/
def Registry.keys (r : Registry) : List Nat := r.map Prod.fst

/-! ## The service -/

/-- The class `TranslationService<Search>`. `shared` holds the shared states of all
promises created by the service, `fulfilled` records every successful
`set_value` (promise, value) in the order of the calls. -/
structure TranslationService where
  options_ : Options
  vocabs_ : List (Ptr Vocab)
  workers_ : List Worker
  jq_ : Ptr QueuedInput
  slgen_ : Ptr ShortlistGenerator
  scheduled_jobs_ : Registry
  keep_going_ : Bool
  job_ctr_ : Nat
  shared : List SharedState
  fulfilled : List (Nat × Job)
  deriving DecidableEq

namespace TranslationService

/-- The constructor `TranslationService(Ptr<Options> options)`. -/
def init (options : Options) : TranslationService :=
  { options_ := options, vocabs_ := [], workers_ := [], jq_ := none, slgen_ := none,
    scheduled_jobs_ := [], keep_going_ := true, job_ctr_ := 0, shared := [],
    fulfilled := [] }

/-- Default construction of a `std::promise`: a fresh shared state. -/
def newPromise (s : TranslationService) : TranslationService × Nat :=
  ({ s with shared := s.shared ++ [{ value := none, retrieved := false }] }, s.shared.length)

/-- The call `promise::set_value`: throws `std::future_error` when the state already
holds a value. -/
def set_value (s : TranslationService) (p : Nat) (job : Job) : Option TranslationService :=
  match s.shared[p]? with
  | some st =>
    match st.value with
    | none =>
      some { s with shared := s.shared.set p { st with value := some job },
                    fulfilled := s.fulfilled ++ [(p, job)] }
    | some _ => none
  | none => none

/-- The call `promise::get_future`: throws `std::future_error` when the future was
already retrieved. -/
def get_future (s : TranslationService) (p : Nat) : Option (TranslationService × Nat) :=
  match s.shared[p]? with
  | some st =>
    if st.retrieved then none
    else some ({ s with shared := s.shared.set p { st with retrieved := true } }, p)
  | none => none

/-- The call `future::get` once the value is there; `none` while it is pending. -/
def future_get (s : TranslationService) (f : Nat) : Option Job :=
  (s.shared[f]?).bind SharedState.value

/-- The access `scheduled_jobs_[k]`: the entry of `k`, default-constructed (null job,
fresh promise) when `k` is not a key yet. Returns the promise of the entry. -/
def index (s : TranslationService) (k : Nat) : TranslationService × Nat :=
  match s.scheduled_jobs_.find k with
  | some e => (s, e.second)
  | none =>
    let (s1, p) := s.newPromise
    ({ s1 with scheduled_jobs_ := s1.scheduled_jobs_ ++ [(k, { first := none, second := p })] }, p)

/-- The option read by `isRight2LeftDecoder()`. -/
def isRight2LeftDecoder (s : TranslationService) : Bool := s.options_.right_left

/-- The method `push(ejid, input, nbest, priority)`. `accepted` is the value returned
by `jq_->push(job)`. The result is the pair (internal id, future). -/
def push (s : TranslationService) (ejid : Nat) (input : List Char) (nbest priority : Nat)
    (accepted : Bool) : Option (TranslationService × (Nat × Nat)) :=
  let s1 := { s with job_ctr_ := (s.job_ctr_ + 1) % 2 ^ 64 }
  let job := Job.create s1.job_ctr_ ejid input nbest priority
  match s1.jq_ with
  | none => none
  | some q =>
    if accepted = false then
      let job1 := { job with error := some "Could not push to Queue." }
      let (s2, prom) := s1.newPromise
      (s2.set_value prom job1).bind fun s3 =>
      (s3.get_future prom).map fun (s4, fut) => (s4, (job1.internal_id, fut))
    else
      let s2 := { s1 with jq_ := some { q with jobs := q.jobs ++ [job] } }
      let (s3, prom) := s2.index job.internal_id
      let s4 := { s3 with scheduled_jobs_ := s3.scheduled_jobs_.setFirst job.internal_id (some job) }
      (s4.get_future prom).map fun (s5, fut) => (s5, (job.internal_id, fut))

/-- The method `callback_(h)`, called by a worker with the history of a finished job.
`finish` stands for `Job::finish(h, isRight2Left, vocab)` (translation_job.h is
not among the sources). -/
def callback_ (finish : Job → History → Bool → Vocab → Job)
    (s : TranslationService) (h : History) : Option TranslationService :=
  match s.scheduled_jobs_.find h.lineNum with
  | none => some s
  | some entry =>
    let s1 := { s with scheduled_jobs_ := s.scheduled_jobs_.erase h.lineNum }
    match entry.first, s1.vocabs_.getLast? with
    | some job, some (some v) =>
      s1.set_value entry.second (finish job h s1.isRight2LeftDecoder v)
    | _, _ => none

end TranslationService

/-! ## Loading the vocabularies and starting the service -/

/-- Local variables of the loop of `loadVocabularies`: the map `vmap`, the vector
`vocabs`, the loads done so far and the number of `Vocab` objects created. -/
structure LoadState where
  vmap : List (String × Ptr Vocab)
  vocabs : List (Ptr Vocab)
  trace : List Effect
  fresh : Nat
  deriving DecidableEq

/-- Body of the loop of `loadVocabularies` for index `i`: `vmap.emplace`, then, for
a new path, `New<Vocab>(options, i)` and `load(vfiles[i])`, then
`vocabs[i] = m.first->second`. -/
def loadBody (vfiles : List String) (st : LoadState) (i : Nat) : LoadState :=
  let path := vfiles.getD i ""
  match List.find? (fun e => e.1 == path) st.vmap with
  | some e => { st with vocabs := st.vocabs.set i e.2 }
  | none =>
    let v : Vocab := { addr := st.fresh, batchIndex := i, file := some path }
    { vmap := st.vmap ++ [(path, some v)],
      vocabs := st.vocabs.set i (some v),
      trace := st.trace ++ [Effect.loadVocab path i],
      fresh := st.fresh + 1 }

/-- The function `loadVocabularies(options)`: the loads it performs and its result,
`none` when `ABORT_IF` fires. -/
def loadVocabularies (options : Options) : List Effect × Option (List (Ptr Vocab)) :=
  let vfiles := options.vocabs
  if vfiles.length < 2 then ([], none)
  else
    let st0 : LoadState :=
      { vmap := [], vocabs := List.replicate vfiles.length none, trace := [], fresh := 0 }
    let st := List.foldl (loadBody vfiles) st0 (List.range vfiles.length)
    (st.trace, some st.vocabs)

namespace TranslationService

/-- The method `start()`: what it does to the outside world and the started
service, `none` when `loadVocabularies` aborts. -/
def start (s : TranslationService) : List Effect × Option TranslationService :=
  let s1 := { s with keep_going_ := true }
  match loadVocabularies s1.options_ with
  | (tr, none) => (tr, none)
  | (tr, some vs) =>
    let s2 := { s1 with vocabs_ := vs }
    let sl : List Effect × TranslationService :=
      if s2.options_.shortlist ≠ [] then
        let slgen : ShortlistGenerator :=
          { src := s2.vocabs_.head?.join, trg := s2.vocabs_.getLast?.join,
            srcIdx := 0, trgIdx := 1,
            sharedVocab := s2.vocabs_.head?.join == s2.vocabs_.getLast?.join }
        ([Effect.newShortlist], { s2 with slgen_ := some slgen })
      else ([], s2)
    let s3 := { sl.2 with jq_ := some { jobs := [] } }
    let devices := s3.options_.devices
    (tr ++ sl.1 ++ [Effect.newQueue]
        ++ devices.flatMap (fun d => [Effect.newWorker d, Effect.startWorker d]),
     some { s3 with workers_ := s3.workers_ ++ devices.map (fun d => { device := d, started := true }) })

/-- Conversion of an `int` to `size_t` (64 bits). -/
def toSizeT (z : Int) : Nat := (z % 2 ^ 64).toNat

/-- Conversion of a `size_t` to `int` (32 bits, two's complement). -/
def toInt32 (n : Nat) : Int :=
  if n % 2 ^ 32 < 2 ^ 31 then ((n % 2 ^ 32 : Nat) : Int) else ((n % 2 ^ 32 : Nat) : Int) - 2 ^ 32

/-- The method `vocab(int i)`: `if (i < 0) i += vocabs_.size(); return vocabs_.at(i);`
with `none` for the `std::out_of_range` thrown by `at`. -/
def vocab (s : TranslationService) (i : Int) : Option (Ptr Vocab) :=
  let i1 : Int := if i < 0 then toInt32 ((toSizeT i + s.vocabs_.length) % 2 ^ 64) else i
  s.vocabs_[toSizeT i1]?

end TranslationService

/-! ## Sequences of operations on one service -/

/-- One call on the service: a `push` with its arguments and the answer of the
queue, or a `callback_` from a worker. -/
inductive Op
  | push (ejid : Nat) (input : List Char) (nbest priority : Nat) (accepted : Bool)
  | callback (h : History)
  deriving DecidableEq

/-- Number of `push` calls in a sequence. -/
def numPushes : List Op → Nat
  | [] => 0
  | Op.push _ _ _ _ _ :: ops => numPushes ops + 1
  | Op.callback _ :: ops => numPushes ops

/-- One call; the value returned by a `push` is passed on. -/
def step (finish : Job → History → Bool → Vocab → Job) (s : TranslationService) :
    Op → Option (TranslationService × List (Nat × Nat))
  | Op.push ejid input nbest priority accepted =>
    (s.push ejid input nbest priority accepted).map fun (s1, r) => (s1, [r])
  | Op.callback h => (s.callback_ finish h).map fun s1 => (s1, [])

/-- The calls of a sequence one after the other; the result holds the pairs
(internal id, future) returned by the `push` calls, in call order. -/
def run (finish : Job → History → Bool → Vocab → Job) :
    TranslationService → List Op → Option (TranslationService × List (Nat × Nat))
  | s, [] => some (s, [])
  | s, op :: ops =>
    (step finish s op).bind fun (s1, r1) =>
    (run finish s1 ops).map fun (s2, r2) => (s2, r1 ++ r2)

/-! ## The convenience wrapper `translate` -/

/-- One call of `std::getline(buf, line)` on the rest `buf` of the stream: `none`
when nothing can be extracted, otherwise the line and the rest after the
newline that ended it. -/
def getline (buf : List Char) : Option (List Char × List Char) :=
  match buf with
  | [] => none
  | _ :: _ => some (buf.takeWhile (fun c => c != '\n'), (buf.dropWhile (fun c => c != '\n')).drop 1)

/-- The lines that successive calls of `getline` return on a text. -/
def getlines : List Char → List (List Char)
  | [] => []
  | c :: cs =>
    if c = '\n' then [] :: getlines cs
    else
      match getlines cs with
      | [] => [[c]]
      | l :: ls => (c :: l) :: ls

namespace TranslationService

/-- The first loop of `translate`: `for (linectr = 0; getline(buf, line); ++linectr)
ftrans.push_back(push(linectr, line).second)`. The other threads are
arguments: `accepted n` is the answer of the queue to the push of line `n`
and `workers n` are the histories that the workers hand to `callback_` after
that push. `fuel` bounds the number of iterations. -/
def submitLoop (finish : Job → History → Bool → Vocab → Job)
    (accepted : Nat → Bool) (workers : Nat → List History) :
    Nat → TranslationService → List Char → Nat → List Nat →
      Option (TranslationService × List Nat)
  | 0, _, _, _, _ => none
  | fuel + 1, s, buf, linectr, ftrans =>
    match getline buf with
    | none => some (s, ftrans)
    | some (line, rest) =>
      (s.push linectr line 1 0 (accepted linectr)).bind fun (s1, r) =>
      (run finish s1 ((workers linectr).map Op.callback)).bind fun (s2, _) =>
      submitLoop finish accepted workers fuel s2 rest (linectr + 1) (ftrans ++ [r.2])

/-- The second loop of `translate`: `t.get()` for every future, in the order of
`ftrans`; `none` when one of them never gets a value. -/
def collect (s : TranslationService) : List Nat → Option (List Job)
  | [] => some []
  | f :: fs => (s.future_get f).bind fun j => (collect s fs).map fun js => j :: js

/-- The text written to `obuf`: every translation followed by `std::endl`. -/
def obuf (jobs : List Job) : List Char :=
  (jobs.map fun j => j.translation ++ ['\n']).flatten

/-- The call `std::string::pop_back`; undefined on the empty string. -/
def pop_back (t : List Char) : Option (List Char) :=
  if t = [] then none else some t.dropLast

/-- The end of `translate`: `if (srcText.size() && srcText.back() != '\n')
translation.pop_back();`. -/
def adjust (srcText translation : List Char) : Option (List Char) :=
  if srcText ≠ [] ∧ srcText.getLast? ≠ some '\n' then pop_back translation else some translation

/-- The method `translate(srcText)`. -/
def translate (finish : Job → History → Bool → Vocab → Job)
    (accepted : Nat → Bool) (workers : Nat → List History)
    (s : TranslationService) (srcText : List Char) : Option (TranslationService × List Char) :=
  (submitLoop finish accepted workers (srcText.length + 1) s srcText 0 []).bind fun (s1, ftrans) =>
  (collect s1 ftrans).bind fun jobs =>
  (adjust srcText (obuf jobs)).map fun t => (s1, t)

end TranslationService

/-! ## Predicates used in the statements -/

/-- Invariant of a started service between two calls: the queue exists, the last
vocabulary is there, the registry has every key once, every key was handed
out by the counter, every entry holds its job and a pending promise of its
own, and every recorded `set_value` is the value of its shared state. -/
structure Inv (s : TranslationService) : Prop where
  queue : s.jq_ ≠ none
  lastVocab : ∃ v, s.vocabs_.getLast? = some (some v)
  keysNodup : s.scheduled_jobs_.keys.Nodup
  keysRange : ∀ e ∈ s.scheduled_jobs_, 1 ≤ e.1 ∧ e.1 ≤ s.job_ctr_
  jobs : ∀ e ∈ s.scheduled_jobs_, ∃ j, e.2.first = some j
  pending : ∀ e ∈ s.scheduled_jobs_,
    s.shared[e.2.second]? = some { value := none, retrieved := true }
  promNodup : (s.scheduled_jobs_.map fun e => e.2.second).Nodup
  logNodup : (s.fulfilled.map Prod.fst).Nodup
  logValue : ∀ p ∈ s.fulfilled, ∃ r, s.shared[p.1]? = some { value := some p.2, retrieved := r }

/-- The indices with which `path` was loaded in a sequence of effects. -/
def loadedAt (trace : List Effect) (path : String) : List Nat :=
  trace.filterMap fun e =>
    match e with
    | Effect.loadVocab q b => if q = path then some b else none
    | _ => none

/-- Invariant of the loop of `loadVocabularies` before iteration `k`: `vmap` has one
entry for every path among the first `k`, made at the first index of that
path, different entries are different objects, the first `k` slots of
`vocabs` hold the entries of their paths, and every entry was loaded once. -/
structure LoadInv (paths : List String) (k : Nat) (st : LoadState) : Prop where
  len : st.vocabs.length = paths.length
  keysNodup : (st.vmap.map Prod.fst).Nodup
  keys : ∀ p, p ∈ st.vmap.map Prod.fst ↔ p ∈ paths.take k
  entry : ∀ e ∈ st.vmap, ∃ v, e.2 = some v ∧ v.file = some e.1 ∧
    paths[v.batchIndex]? = some e.1 ∧ (∀ i < v.batchIndex, paths[i]? ≠ some e.1) ∧
    v.addr < st.fresh
  addrInj : ∀ e ∈ st.vmap, ∀ e2 ∈ st.vmap, ∀ v v2, e.2 = some v → e2.2 = some v2 →
    v.addr = v2.addr → e = e2
  filled : ∀ i < k, ∃ e ∈ st.vmap, paths[i]? = some e.1 ∧ st.vocabs[i]? = some e.2
  trace : st.trace = st.vmap.map fun e =>
    Effect.loadVocab e.1 ((e.2.map Vocab.batchIndex).getD 0)

/-- No `callback_` of the sequence carries the line number `k`. -/
def NoCallback (k : Nat) (ops : List Op) : Prop :=
  ∀ h, Op.callback h ∈ ops → h.lineNum ≠ k

/-- In the sequence `ops`, run from `s`, some `push` was accepted by the queue and
returned the id `k` with the future `e.second`, the job it made is `e.first`,
and no `callback_` for `k` has run since. -/
def Live (finish : Job → History → Bool → Vocab → Job) (s : TranslationService)
    (ops : List Op) (k : Nat) (e : JobEntry) : Prop :=
  ∃ pre post ejid input nbest priority s1 r1 s2 fut,
    ops = pre ++ Op.push ejid input nbest priority true :: post ∧
    run finish s pre = some (s1, r1) ∧
    s1.push ejid input nbest priority true = some (s2, (k, fut)) ∧
    e = { first := some (Job.create k ejid input nbest priority), second := fut } ∧
    NoCallback k post

/-- The calls that happen on the service during the first loop of `translate`, for
the lines still to be read and the counter `linectr`: the push of each line
followed by the `callback_` calls of the workers. -/
def translateOps (accepted : Nat → Bool) (workers : Nat → List History) :
    List (List Char) → Nat → List Op
  | [], _ => []
  | line :: rest, linectr =>
    Op.push linectr line 1 0 (accepted linectr) ::
      ((workers linectr).map Op.callback ++ translateOps accepted workers rest (linectr + 1))

/-- The calls that happen after the push of line `i` until the first loop ends. -/
def opsAfter (accepted : Nat → Bool) (workers : Nat → List History)
    (lines : List (List Char)) (i : Nat) : List Op :=
  (workers i).map Op.callback ++ translateOps accepted workers (lines.drop (i + 1)) (i + 1)

/-- The history of the first `callback_` for the id `k` in a sequence of calls. -/
def firstCallback (k : Nat) : List Op → Option History
  | [] => none
  | Op.callback h :: ops => if h.lineNum = k then some h else firstCallback k ops
  | Op.push _ _ _ _ _ :: ops => firstCallback k ops

/-- The job that the future of line `i` holds at the end of the first loop of
`translate` started on `s`: the rejected job with its error, or the job
finished with the first history that a worker delivers for its id after
the push; `none` when no worker delivers one. -/
def lineJob (finish : Job → History → Bool → Vocab → Job) (s : TranslationService) (v : Vocab)
    (accepted : Nat → Bool) (workers : Nat → List History)
    (lines : List (List Char)) (i : Nat) : Option Job :=
  let job := Job.create (s.job_ctr_ + i + 1) i (lines.getD i []) 1 0
  if accepted i = false then some { job with error := some "Could not push to Queue." }
  else
    (firstCallback (s.job_ctr_ + i + 1) (opsAfter accepted workers lines i)).map
      fun h => finish job h s.options_.right_left v

/-! ## Concrete inputs used to instantiate the theorems -/

/-- Options with a source and a target vocabulary and one device. -/
def demoOptions : Options :=
  { vocabs := ["src.spm", "trg.spm"], right_left := false, shortlist := [], devices := [0] }

/-- A stand-in for `Job::finish`: the translation is the text of the history. -/
def demoFinish : Job → History → Bool → Vocab → Job :=
  fun j h _ _ => { j with translation := h.text }

/-- The service constructed from `demoOptions` and started. -/
def demoService : TranslationService :=
  { options_ := demoOptions,
    vocabs_ := [some { addr := 0, batchIndex := 0, file := some "src.spm" },
                some { addr := 1, batchIndex := 1, file := some "trg.spm" }],
    workers_ := [{ device := 0, started := true }],
    jq_ := some { jobs := [] }, slgen_ := none, scheduled_jobs_ := [], keep_going_ := true,
    job_ctr_ := 0, shared := [], fulfilled := [] }

/-- Three calls: an accepted push, a rejected push and the completion of the first. -/
def demoOps : List Op :=
  [Op.push 7 ['a'] 1 0 true, Op.push 8 ['b'] 1 0 false, Op.callback { lineNum := 1, text := ['x'] }]

/-- The started service after the accepted push of `demoOps`: job 1 is pending. -/
def demoPending : TranslationService :=
  ((run demoFinish demoService [Op.push 7 ['a'] 1 0 true]).map Prod.fst).getD demoService

/-- The service `demoPending` after the completion of job 1. -/
def demoDone : TranslationService :=
  ((demoPending.callback_ demoFinish { lineNum := 1, text := ['x'] })).getD demoService

/-- Two accepted pushes and the completion of the first: job 2 stays pending. -/
def demoOps2 : List Op :=
  [Op.push 7 ['a'] 1 0 true, Op.push 8 ['b'] 1 0 true, Op.callback { lineNum := 1, text := ['x'] }]

/-- Options in which the first and the third vocabulary are the same file. -/
def demoSharedOptions : Options :=
  { vocabs := ["a.spm", "b.spm", "a.spm"], right_left := false, shortlist := [], devices := [0] }

/-- The text `"A\nB\nC\n"`. -/
def demoText : List Char := ['A', '\n', 'B', '\n', 'C', '\n']

/-- Workers that complete the three jobs of `demoText` after the last push, the
third job first. -/
def demoWorkers : Nat → List History :=
  fun i => if i = 2 then
    [{ lineNum := 3, text := ['t', 'C'] }, { lineNum := 1, text := ['t', 'A'] },
     { lineNum := 2, text := ['t', 'B'] }]
  else []

/-- The text `"A\nB"`, without a newline at its end. -/
def demoTextOpen : List Char := ['A', '\n', 'B']

/-- Workers that complete the two jobs of `demoTextOpen`; the translation of the
second line is empty. -/
def demoWorkersEmpty : Nat → List History :=
  fun i => if i = 1 then [{ lineNum := 1, text := ['t'] }, { lineNum := 2, text := [] }] else []

/-- Workers that complete the two jobs of `demoTextOpen` with non-empty translations. -/
def demoWorkersOpen : Nat → List History :=
  fun i => if i = 1 then [{ lineNum := 2, text := ['u'] }, { lineNum := 1, text := ['t'] }] else []

/-- State and futures after the first loop of `translate` on `demoTextOpen`. -/
def demoSubmitted : TranslationService × List Nat :=
  (TranslationService.submitLoop demoFinish (fun _ => true) demoWorkersOpen
    (demoTextOpen.length + 1) demoService demoTextOpen 0 []).getD (demoService, [])

/-- The text `"A"`: one line, without a newline at its end. -/
def demoTextOne : List Char := ['A']

/-- State and futures after the first loop of `translate` on `demoTextOne` when the
queue rejects the job. -/
def demoSubmittedOne : TranslationService × List Nat :=
  (TranslationService.submitLoop demoFinish (fun _ => false) (fun _ => [])
    (demoTextOne.length + 1) demoService demoTextOne 0 []).getD (demoService, [])

/-! ## Shutdown, and the steps inside `push` and `callback_` -/

/-- A call that `stop()` makes on a worker; `worker` is the position of the worker in
`workers_`. -/
inductive WorkerCall
  | stop (worker : Nat)
  | join (worker : Nat)
  deriving DecidableEq

namespace TranslationService

/-- The method `stop()`: `for (auto& w: workers_) w->stop();` and then
`for (auto& w: workers_) w->join();`. The result is the sequence of calls on
the workers and the service afterwards. -/
def stop (s : TranslationService) : List WorkerCall × TranslationService :=
  ((List.range s.workers_.length).map WorkerCall.stop
    ++ (List.range s.workers_.length).map WorkerCall.join, s)

/-- The start of `push` up to the call `jq_->push(job)` that the queue accepts: the
counter is advanced, the job is made and is in the queue. -/
def pushEnqueue (s : TranslationService) (ejid : Nat) (input : List Char)
    (nbest priority : Nat) : Option (TranslationService × Job) :=
  let s1 := { s with job_ctr_ := (s.job_ctr_ + 1) % 2 ^ 64 }
  let job := Job.create s1.job_ctr_ ejid input nbest priority
  match s1.jq_ with
  | none => none
  | some q => some ({ s1 with jq_ := some { q with jobs := q.jobs ++ [job] } }, job)

/-- The block of `push` under the lock: `entry = &scheduled_jobs_[job->internal_id]`. -/
def pushRegister (s : TranslationService) (job : Job) : TranslationService × Nat :=
  s.index job.internal_id

/-- The assignment `entry->first = job` of `push`, after the lock is released. `entry`
points to the map node of the job; when a `callback_` has erased the node in
between there is nothing left to assign to, and `pushReturn` has no normal
return. -/
def pushSetJob (s : TranslationService) (job : Job) : TranslationService :=
  { s with scheduled_jobs_ := s.scheduled_jobs_.setFirst job.internal_id (some job) }

/-- The end of `push`: `return std::make_pair(job->internal_id, entry->second.get_future())`.
`prom` is the promise of the entry that `entry` points to. When a `callback_`
has erased the map node of the job in between, `entry` dangles and the
access has no defined result: `none`. -/
def pushReturn (s : TranslationService) (job : Job) (prom : Nat) :
    Option (TranslationService × (Nat × Nat)) :=
  match s.scheduled_jobs_.find job.internal_id with
  | none => none
  | some _ => (s.get_future prom).map fun (s1, fut) => (s1, (job.internal_id, fut))

/-- The block of `callback_` under the lock: `find`, and for a key that is there the
entry is moved out and erased. -/
def callbackLocked (s : TranslationService) (h : History) :
    TranslationService × Option JobEntry :=
  match s.scheduled_jobs_.find h.lineNum with
  | none => (s, none)
  | some entry => ({ s with scheduled_jobs_ := s.scheduled_jobs_.erase h.lineNum }, some entry)

/-- The end of `callback_`, after the lock is released: `entry.first->finish(...)` and
`entry.second.set_value(entry.first)`. -/
def callbackFulfil (finish : Job → History → Bool → Vocab → Job)
    (s : TranslationService) (h : History) (entry : JobEntry) : Option TranslationService :=
  match entry.first, s.vocabs_.getLast? with
  | some job, some (some v) =>
    s.set_value entry.second (finish job h s.isRight2LeftDecoder v)
  | _, _ => none

end TranslationService

/-- The answers of the queue to the pushes of a sequence of calls, in call order. -/
def pushFlags : List Op → List Bool
  | [] => []
  | Op.push _ _ _ _ accepted :: ops => accepted :: pushFlags ops
  | Op.callback _ :: ops => pushFlags ops

/-- The internal ids of the jobs that the queue accepted, given the values returned
by the pushes and the answers of the queue. -/
def acceptedIds (rets : List (Nat × Nat)) (flags : List Bool) : List Nat :=
  ((rets.zip flags).filter fun x => x.2).map fun x => x.1.1

/-- Three pushes of which the queue rejects the second. -/
def demoOps3 : List Op :=
  [Op.push 7 ['a'] 1 0 true, Op.push 8 ['b'] 1 0 false, Op.push 9 ['c'] 1 0 true]

/-- The started service in the middle of `push(7, "a")`, after the queue has accepted
the job and before the registry is touched, together with the job. -/
def demoEnqueued : TranslationService × Job :=
  (demoService.pushEnqueue 7 ['a'] 1 0).getD (demoService, Job.create 0 0 [] 0 0)

/-- The service of `demoEnqueued` after the entry of the job was created under the
lock and before `entry->first = job`. -/
def demoRegistered : TranslationService × Nat :=
  TranslationService.pushRegister demoEnqueued.1 demoEnqueued.2

end server

/-! ## The validator of `src/training/validator.h`

The type `float` is an arbitrary type `F` with the comparison `lt` for `<` (so that
`a > b` is `lt b a`); the validator compares values and stores them, it does no
arithmetic on them. -/

/-- The class `ValidatorBase`: its three data members. -/
structure ValidatorBase (F : Type) where
  lowerIsBetter_ : Bool
  lastBest_ : F
  stalled_ : Nat
  deriving DecidableEq

namespace ValidatorBase

/-- The constructor `ValidatorBase(bool lowerIsBetter)`; `fmax` and `flowest` are
`std::numeric_limits<float>::max()` and `std::numeric_limits<float>::lowest()`. -/
def init {F : Type} (fmax flowest : F) (lowerIsBetter : Bool) : ValidatorBase F :=
  { lowerIsBetter_ := lowerIsBetter,
    lastBest_ := if lowerIsBetter then fmax else flowest,
    stalled_ := 0 }

/-- The accessor `stalled()`. -/
def stalled {F : Type} (v : ValidatorBase F) : Nat := v.stalled_

end ValidatorBase

namespace Validator

/-- The method `Validator::updateStalled(graphs, val)`. `keepBest` is the option
`keep-best`; the second component tells whether `keepBest(graphs)` was called. -/
def updateStalled {F : Type} (lt : F → F → Bool) (keepBest : Bool)
    (v : ValidatorBase F) (val : F) : ValidatorBase F × Bool :=
  if (v.lowerIsBetter_ && lt val v.lastBest_) || (!v.lowerIsBetter_ && lt v.lastBest_ val) then
    ({ v with stalled_ := 0, lastBest_ := val }, keepBest)
  else
    ({ v with stalled_ := (v.stalled_ + 1) % 2 ^ 64 }, false)

/-- The state of the validator after the calls `validate(graphs)` whose values
`validateBG` computed are `vals`, in this order. -/
def validateAll {F : Type} (lt : F → F → Bool) (keepBest : Bool)
    (v : ValidatorBase F) (vals : List F) : ValidatorBase F :=
  vals.foldl (fun w val => (updateStalled lt keepBest w val).1) v

/-- The value `val` is strictly better than `best`: smaller when lower is better,
greater otherwise. -/
def strictlyBetter {F : Type} (lt : F → F → Bool) (lowerIsBetter : Bool) (val best : F) : Bool :=
  if lowerIsBetter then lt val best else lt best val

/-- The best of the start value and the values of a list: the first value that no
later value is strictly better than. -/
def bestOf {F : Type} (lt : F → F → Bool) (lowerIsBetter : Bool) (start : F) (vals : List F) : F :=
  vals.foldl (fun b w => if strictlyBetter lt lowerIsBetter w b then w else b) start

/-- The comparison `<` on integers, standing for the one on `float`. -/
def demoLt : Int → Int → Bool := fun a b => decide (a < b)

/-- Four validation values: the second is the last strict improvement. -/
def demoVals : List Int := [5, 3, 3, 4]

end Validator

/-! ## The integer matrix product of `src/tensors/cpu/integer.h` -/

namespace cpu
namespace integer

/-- Modelled from the spec: `Shape` (common/shape.h is not among the sources), the list
of the dimensions of a tensor. -/
abbrev Shape := List Int

/-- The access `shape[i]`; a negative `i` counts from the end, `none` is the abort for
an index outside the shape. -/
def Shape.dim (sh : Shape) (i : Int) : Option Int :=
  if 0 ≤ i then sh[i.toNat]?
  else if 0 ≤ (sh.length : Int) + i then sh[((sh.length : Int) + i).toNat]?
  else none

/-- The call `shape.set(i, v)`; a negative `i` counts from the end, `none` is the abort
for an index outside the shape. -/
def Shape.set (sh : Shape) (i : Int) (v : Int) : Option Shape :=
  if 0 ≤ i then
    if i.toNat < sh.length then some (List.set sh i.toNat v) else none
  else if 0 ≤ (sh.length : Int) + i then
    some (List.set sh ((sh.length : Int) + i).toNat v)
  else none

/-- Modelled from the spec: a node of the expression graph (graph/node.h is not among
the sources), reduced to its shape; an `Expr` is a pointer to a node. -/
structure Node where
  shape : Shape
  deriving DecidableEq

/-- The type `Expr`, a shared pointer to a node. -/
abbrev Expr := Option Node

/-- A constructed `DotNodeOp` or `AffineNodeOp`: the children and the shape handed to
the base class, and the member `scalar_`. -/
structure IntNodeOp (F : Type) where
  children : List Expr
  shape : Shape
  scalar_ : F

/-- The member `newShape(a, b)` of `DotNodeOp` and `newShape(a, b, bias)` of
`AffineNodeOp`: `result = a->shape(); result.set(-1, b->shape()[-1])`. -/
def newShape (a b : Expr) : Option Shape :=
  a.bind fun na => b.bind fun nb => (nb.shape.dim (-1)).bind fun bl => Shape.set na.shape (-1) bl

/-- The abort `ABORT_IF(child(i) == nullptr, ...)` for every child. -/
def nullCheck (children : List Expr) : Option Unit :=
  if children.all Option.isSome then some () else none

/-- The statement `assert(child(2)->shape()[-1] % 8 == 0)`; `debug` tells whether
assertions are compiled in. -/
def alignCheck (debug : Bool) (b : Node) : Option Unit :=
  (b.shape.dim (-1)).bind fun bl => if debug && !(bl % 8 == 0) then none else some ()

/-- The abort `ABORT_IF(x->shape()[i] != y->shape()[j], ...)`. -/
def dimCheck (x : Node) (i : Int) (y : Node) (j : Int) : Option Unit :=
  (x.shape.dim i).bind fun dx => (y.shape.dim j).bind fun dy =>
    if dx != dy then none else some ()

/-- The constructor `DotNodeOp(a, a_quant_mult, b, b_quant_mult, scalar)`; `none` when
it aborts. -/
def DotNodeOp {F : Type} (debug : Bool) (a a_quant_mult b b_quant_mult : Expr) (scalar : F) :
    Option (IntNodeOp F) :=
  (newShape a b).bind fun shape =>
  let children := [a, a_quant_mult, b, b_quant_mult]
  if children.length ≠ 4 then none
  else
    (nullCheck children).bind fun _ =>
    a.bind fun na => b.bind fun nb =>
    (alignCheck debug nb).bind fun _ =>
    (dimCheck na (-1) nb (-2)).bind fun _ =>
    some { children := children, shape := shape, scalar_ := scalar }

/-- The constructor `AffineNodeOp(a, a_quant_mult, b, b_quant_mult, bias, scalar, a_old,
bias_old, b_raw)`; `one` is the value `1.0f`; `none` when it aborts. -/
def AffineNodeOp {F : Type} [DecidableEq F] (one : F) (debug : Bool)
    (a a_quant_mult b b_quant_mult bias : Expr) (scalar : F) (a_old bias_old b_raw : Expr) :
    Option (IntNodeOp F) :=
  (newShape a b).bind fun shape =>
  let children := [a, a_quant_mult, b, b_quant_mult, bias, a_old, bias_old, b_raw]
  if children.length ≠ 8 then none
  else
    (nullCheck children).bind fun _ =>
    if scalar ≠ one then none
    else
      a.bind fun na => b.bind fun nb => bias.bind fun nbias =>
      (alignCheck debug nb).bind fun _ =>
      (dimCheck na (-1) nb (-2)).bind fun _ =>
      (dimCheck nb (-1) nbias (-1)).bind fun _ =>
      some { children := children, shape := shape, scalar_ := scalar }

/-- The result of an `int32_t` operation whose exact value is `x`: two's complement
wrap-around. -/
def wrap32 (x : Int) : Int := (x + 2 ^ 31) % 2 ^ 32 - 2 ^ 31

/-- Body of the loop over `k` in `SaturateMult` for row `r` and column `c`; the state
is the pair (`sum`, `intermediate_sum`). -/
def saturateStep (A : List Nat) (B : List Int) (width B_cols r c : Nat)
    (p : Int × Int) (k : Nat) : Int × Int :=
  let num1 : Int := (A.getD ((r * width + k) % 2 ^ 64) 0 : Nat)
  let num2 : Int := B.getD ((k * B_cols + c) % 2 ^ 64) 0
  let intermediate_sum := wrap32 (p.2 + wrap32 (num1 * num2))
  if ((k + 1) % 2 ^ 64) % 2 = 0 then
    (wrap32 (p.1 + (if intermediate_sum > 32767 then 32767 else intermediate_sum)), 0)
  else (p.1, intermediate_sum)

/-- The value that `SaturateMult` stores in `C[r * B_cols + c]`: `sum` after the loop
over `k`. -/
def saturateDot (A : List Nat) (B : List Int) (width B_cols r c : Nat) : Int :=
  ((List.range width).foldl (saturateStep A B width B_cols r c) (0, 0)).1

/-- The function `SaturateMult(A, B, C, A_rows, width, B_cols)`: the array `C` after the
call. `A` holds `uint8_t`, `B` holds `int16_t`, `C` holds `int32_t` values. -/
def SaturateMult (A : List Nat) (B : List Int) (C : List Int) (A_rows width B_cols : Nat) :
    List Int :=
  (List.range A_rows).foldl (fun C1 r =>
    (List.range B_cols).foldl (fun C2 c =>
      List.set C2 ((r * B_cols + c) % 2 ^ 64) (saturateDot A B width B_cols r c)) C1) C

/-- The sum of the products `2 j` and `2 j + 1` of row `r` of `A` and column `c` of `B`. -/
def pairSum (A : List Nat) (B : List Int) (width B_cols r c j : Nat) : Int :=
  (A.getD (r * width + 2 * j) 0 : Nat) * B.getD (2 * j * B_cols + c) 0
    + (A.getD (r * width + (2 * j + 1)) 0 : Nat) * B.getD ((2 * j + 1) * B_cols + c) 0

/-- The sum of the first `m` pair sums, each bounded above by `32767`. -/
def clampedSum (A : List Nat) (B : List Int) (width B_cols r c m : Nat) : Int :=
  ((List.range m).map fun j => min (pairSum A B width B_cols r c j) 32767).sum

/-- A `2 x 3` matrix of `uint8_t`, row-major. -/
def demoA : List Nat := [255, 255, 3, 4, 5, 6]

/-- A `3 x 2` matrix of `int16_t`, row-major. -/
def demoB : List Int := [32767, -32768, 32767, -32768, 5, 6]

/-- A buffer of four `int32_t` cells. -/
def demoC : List Int := [0, 0, 0, 0]

/-- A node of shape `2 x 3`, the operand `a`. -/
def demoNodeA : Node := { shape := [2, 3] }

/-- A node of shape `3 x 8`, the operand `b`. -/
def demoNodeB : Node := { shape := [3, 8] }

/-- A node of shape `1 x 8`, the bias. -/
def demoNodeBias : Node := { shape := [1, 8] }

/-- A node of shape `1`, a quantisation multiplier. -/
def demoNodeQ : Node := { shape := [1] }

end integer
end cpu

namespace server

/-! ## Lemmas on the registry -/

open TranslationService

theorem Registry.find_nil (k : Nat) : Registry.find [] k = none := rfl

theorem Registry.find_cons (a : Nat × JobEntry) (r : Registry) (k : Nat) :
    Registry.find (a :: r) k = if a.1 = k then some a.2 else Registry.find r k := by
  by_cases h : a.1 = k
  · simp [Registry.find, List.find?_cons, h]
  · simp [Registry.find, List.find?_cons, h]

theorem Registry.find_eq_none_iff (r : Registry) (k : Nat) :
    r.find k = none ↔ k ∉ r.keys := by
  induction r with
  | nil => simp [Registry.find, Registry.keys]
  | cons a r ih =>
    rw [Registry.find_cons]
    by_cases h : a.1 = k
    · simp [Registry.keys, h]
    · have h2 : k ≠ a.1 := fun e => h e.symm
      simp only [Registry.keys, List.map_cons, List.mem_cons, not_or] at ih ⊢
      simp [h, h2, ih]

theorem Registry.find_eq_some_iff (r : Registry) (hnd : r.keys.Nodup) (k : Nat) (e : JobEntry) :
    r.find k = some e ↔ (k, e) ∈ r := by
  induction r with
  | nil => simp [Registry.find]
  | cons a r ih =>
    obtain ⟨ak, ae⟩ := a
    simp only [Registry.keys, List.map_cons, List.nodup_cons] at hnd
    have ih2 := ih hnd.2
    rw [Registry.find_cons]
    by_cases h : ak = k
    · subst h
      simp only [if_true, Option.some.injEq, List.mem_cons, Prod.mk.injEq, true_and]
      constructor
      · intro h; exact Or.inl h.symm
      · rintro (h | h)
        · exact h.symm
        · exact absurd (List.mem_map_of_mem Prod.fst h) hnd.1
    · have h2 : k ≠ ak := fun e => h e.symm
      simp [h, h2, ih2]

theorem push_rejected (s : TranslationService) (q : QueuedInput) (hq : s.jq_ = some q)
    (ejid : Nat) (input : List Char) (nbest priority : Nat) :
    s.push ejid input nbest priority false =
      some ({ s with
              job_ctr_ := (s.job_ctr_ + 1) % 2 ^ 64,
              shared := s.shared ++ [{ value := some { Job.create ((s.job_ctr_ + 1) % 2 ^ 64) ejid input nbest priority with error := some "Could not push to Queue." }, retrieved := true }],
              fulfilled := s.fulfilled ++ [(s.shared.length, { Job.create ((s.job_ctr_ + 1) % 2 ^ 64) ejid input nbest priority with error := some "Could not push to Queue." })] },
            ((s.job_ctr_ + 1) % 2 ^ 64, s.shared.length)) := by
  simp [push, hq, newPromise, set_value, get_future, Job.create]

theorem Registry.setFirst_of_not_mem (r : Registry) (k : Nat) (j : Ptr Job)
    (h : k ∉ r.keys) : r.setFirst k j = r := by
  induction r with
  | nil => rfl
  | cons a r ih =>
    simp only [Registry.keys, List.map_cons, List.mem_cons, not_or] at h
    have h1 : ¬ a.1 = k := fun e => h.1 e.symm
    have := ih h.2
    simp only [Registry.setFirst, beq_iff_eq] at this ⊢
    simp [h1, this]

theorem Registry.setFirst_append_new (r : Registry) (k p : Nat) (j : Ptr Job)
    (h : k ∉ r.keys) :
    Registry.setFirst (r ++ [(k, { first := none, second := p })]) k j
      = r ++ [(k, { first := j, second := p })] := by
  have := Registry.setFirst_of_not_mem r k j h
  simp only [Registry.setFirst, beq_iff_eq] at this ⊢
  simp [this]

theorem push_accepted (s : TranslationService) (q : QueuedInput) (hq : s.jq_ = some q)
    (ejid : Nat) (input : List Char) (nbest priority : Nat)
    (hnew : (s.job_ctr_ + 1) % 2 ^ 64 ∉ s.scheduled_jobs_.keys) :
    s.push ejid input nbest priority true =
      some ({ s with
              job_ctr_ := (s.job_ctr_ + 1) % 2 ^ 64,
              jq_ := some { q with jobs := q.jobs ++ [Job.create ((s.job_ctr_ + 1) % 2 ^ 64) ejid input nbest priority] },
              scheduled_jobs_ := s.scheduled_jobs_ ++
                [((s.job_ctr_ + 1) % 2 ^ 64,
                  { first := some (Job.create ((s.job_ctr_ + 1) % 2 ^ 64) ejid input nbest priority),
                    second := s.shared.length })],
              shared := s.shared ++ [{ value := none, retrieved := true }] },
            ((s.job_ctr_ + 1) % 2 ^ 64, s.shared.length)) := by
  unfold push
  generalize (s.job_ctr_ + 1) % 2 ^ 64 = id at hnew ⊢
  have hf := (Registry.find_eq_none_iff _ _).2 hnew
  have hsf := Registry.setFirst_append_new s.scheduled_jobs_ id
    s.shared.length (some (Job.create id ejid input nbest priority)) hnew
  simp [hq, index, newPromise, get_future, Job.create, hf] at hsf ⊢
  exact hsf

theorem callback_absent (finish : Job → History → Bool → Vocab → Job)
    (s : TranslationService) (h : History)
    (hk : s.scheduled_jobs_.find h.lineNum = none) : s.callback_ finish h = some s := by
  simp [callback_, hk]

theorem callback_present (finish : Job → History → Bool → Vocab → Job)
    (s : TranslationService) (h : History) (e : JobEntry) (j : Job) (v : Vocab)
    (st : SharedState)
    (hk : s.scheduled_jobs_.find h.lineNum = some e) (hj : e.first = some j)
    (hv : s.vocabs_.getLast? = some (some v))
    (hp : s.shared[e.second]? = some st) (hst : st.value = none) :
    s.callback_ finish h =
      some { s with
             scheduled_jobs_ := s.scheduled_jobs_.erase h.lineNum,
             shared := s.shared.set e.second { st with value := some (finish j h s.options_.right_left v) },
             fulfilled := s.fulfilled ++ [(e.second, finish j h s.options_.right_left v)] } := by
  simp [callback_, hk, hj, hv, set_value, hp, hst, isRight2LeftDecoder]

theorem Registry.erase_cons (a : Nat × JobEntry) (r : Registry) (k : Nat) :
    Registry.erase (a :: r) k = if a.1 = k then r else a :: Registry.erase r k := by
  by_cases h : a.1 = k
  · simp [Registry.erase, List.eraseP_cons, h]
  · simp [Registry.erase, List.eraseP_cons, h]

theorem Registry.mem_erase_iff (r : Registry) (hnd : r.keys.Nodup) (k : Nat)
    (x : Nat × JobEntry) : x ∈ r.erase k ↔ x ∈ r ∧ x.1 ≠ k := by
  induction r with
  | nil => simp [Registry.erase]
  | cons a r ih =>
    simp only [Registry.keys, List.map_cons, List.nodup_cons] at hnd
    have ih2 := ih hnd.2
    rw [Registry.erase_cons]
    by_cases h : a.1 = k
    · simp only [h, if_true, List.mem_cons]
      constructor
      · intro hx
        refine ⟨Or.inr hx, ?_⟩
        intro hxk
        apply hnd.1
        rw [h, ← hxk]
        exact List.mem_map_of_mem Prod.fst hx
      · rintro ⟨hx | hx, hne⟩
        · exact absurd (hx ▸ h) hne
        · exact hx
    · simp only [h, if_false, List.mem_cons, ih2]
      constructor
      · rintro (hx | hx)
        · exact ⟨Or.inl hx, hx ▸ h⟩
        · exact ⟨Or.inr hx.1, hx.2⟩
      · rintro ⟨hx | hx, hne⟩
        · exact Or.inl hx
        · exact Or.inr ⟨hx, hne⟩

theorem Registry.erase_sublist (r : Registry) (k : Nat) : List.Sublist (r.erase k) r :=
  List.eraseP_sublist r

theorem Inv.handle_lt {s : TranslationService} (hs : Inv s) {e : Nat × JobEntry}
    (he : e ∈ s.scheduled_jobs_) : e.2.second < s.shared.length := by
  have := hs.pending e he
  by_contra hlt
  rw [List.getElem?_eq_none (Nat.le_of_not_lt hlt)] at this
  exact Option.noConfusion this

theorem Inv.log_lt {s : TranslationService} (hs : Inv s) {p : Nat × Job}
    (hp : p ∈ s.fulfilled) : p.1 < s.shared.length := by
  obtain ⟨r, hr⟩ := hs.logValue p hp
  by_contra hlt
  rw [List.getElem?_eq_none (Nat.le_of_not_lt hlt)] at hr
  exact Option.noConfusion hr

theorem Inv.after_rejected {s : TranslationService} (hs : Inv s) (hc : s.job_ctr_ + 1 < 2 ^ 64)
    (j : Job) :
    Inv { s with
          job_ctr_ := (s.job_ctr_ + 1) % 2 ^ 64,
          shared := s.shared ++ [{ value := some j, retrieved := true }],
          fulfilled := s.fulfilled ++ [(s.shared.length, j)] } := by
  rw [Nat.mod_eq_of_lt hc]
  refine ⟨hs.queue, hs.lastVocab, hs.keysNodup, ?_, hs.jobs, ?_, hs.promNodup, ?_, ?_⟩
  · intro e he
    have := hs.keysRange e he
    exact ⟨this.1, Nat.le_succ_of_le this.2⟩
  · intro e he
    show (s.shared ++ _)[e.2.second]? = _
    rw [List.getElem?_append_left (hs.handle_lt he)]
    exact hs.pending e he
  · show ((s.fulfilled ++ [(s.shared.length, j)]).map Prod.fst).Nodup
    rw [List.map_append, List.nodup_append]
    refine ⟨hs.logNodup, by simp, ?_⟩
    intro a ha hb
    simp only [List.map_cons, List.map_nil, List.mem_singleton] at hb
    obtain ⟨p, hp, rfl⟩ := List.mem_map.1 ha
    have := hs.log_lt hp
    omega
  · intro p hp
    show ∃ r, (s.shared ++ _)[p.1]? = _
    rcases List.mem_append.1 hp with hp | hp
    · rw [List.getElem?_append_left (hs.log_lt hp)]
      exact hs.logValue p hp
    · simp only [List.mem_singleton] at hp
      subst hp
      exact ⟨true, by simp⟩

theorem Inv.after_accepted {s : TranslationService} (hs : Inv s) (hc : s.job_ctr_ + 1 < 2 ^ 64)
    (q : QueuedInput) (j : Job) :
    Inv { s with
          job_ctr_ := (s.job_ctr_ + 1) % 2 ^ 64,
          jq_ := some q,
          scheduled_jobs_ := s.scheduled_jobs_ ++
            [((s.job_ctr_ + 1) % 2 ^ 64, { first := some j, second := s.shared.length })],
          shared := s.shared ++ [{ value := none, retrieved := true }] } := by
  rw [Nat.mod_eq_of_lt hc]
  refine ⟨by simp, hs.lastVocab, ?_, ?_, ?_, ?_, ?_, hs.logNodup, ?_⟩
  · show (Registry.keys (s.scheduled_jobs_ ++ _)).Nodup
    simp only [Registry.keys, List.map_append, List.map_cons, List.map_nil]
    rw [List.nodup_append]
    refine ⟨hs.keysNodup, by simp, ?_⟩
    intro a ha hb
    simp only [List.mem_singleton] at hb
    obtain ⟨e, he, rfl⟩ := List.mem_map.1 ha
    have := (hs.keysRange e he).2
    omega
  · intro e he
    rcases List.mem_append.1 he with he | he
    · have := hs.keysRange e he
      exact ⟨this.1, Nat.le_succ_of_le this.2⟩
    · simp only [List.mem_singleton] at he
      subst he
      exact ⟨Nat.succ_le_succ (Nat.zero_le _), Nat.le_refl _⟩
  · intro e he
    rcases List.mem_append.1 he with he | he
    · exact hs.jobs e he
    · simp only [List.mem_singleton] at he
      subst he
      exact ⟨j, rfl⟩
  · intro e he
    show (s.shared ++ _)[e.2.second]? = _
    rcases List.mem_append.1 he with he | he
    · rw [List.getElem?_append_left (hs.handle_lt he)]
      exact hs.pending e he
    · simp only [List.mem_singleton] at he
      subst he
      simp
  · show ((s.scheduled_jobs_ ++ _).map fun e => e.2.second).Nodup
    rw [List.map_append, List.nodup_append]
    refine ⟨hs.promNodup, by simp, ?_⟩
    intro a ha hb
    simp only [List.map_cons, List.map_nil, List.mem_singleton] at hb
    obtain ⟨e, he, rfl⟩ := List.mem_map.1 ha
    have := hs.handle_lt he
    omega
  · intro p hp
    show ∃ r, (s.shared ++ _)[p.1]? = _
    rw [List.getElem?_append_left (hs.log_lt hp)]
    exact hs.logValue p hp

theorem Inv.after_callback {s : TranslationService} (hs : Inv s) (k : Nat) (e : JobEntry)
    (he : (k, e) ∈ s.scheduled_jobs_) (j : Job) :
    Inv { s with
          scheduled_jobs_ := s.scheduled_jobs_.erase k,
          shared := s.shared.set e.second { value := some j, retrieved := true },
          fulfilled := s.fulfilled ++ [(e.second, j)] } := by
  have hmem := Registry.mem_erase_iff s.scheduled_jobs_ hs.keysNodup k
  have hpe := hs.pending (k, e) he
  have hother : ∀ x ∈ s.scheduled_jobs_.erase k, e.second ≠ x.2.second := by
    intro x hx heq
    obtain ⟨hx1, hx2⟩ := (hmem x).1 hx
    have := List.inj_on_of_nodup_map hs.promNodup he hx1 heq
    exact hx2 (this ▸ rfl)
  have hlog : ∀ p ∈ s.fulfilled, e.second ≠ p.1 := by
    intro p hp heq
    obtain ⟨r, hr⟩ := hs.logValue p hp
    rw [← heq, hpe] at hr
    simp at hr
  refine ⟨hs.queue, hs.lastVocab, ?_, ?_, ?_, ?_, ?_, ?_, ?_⟩
  · exact List.Nodup.sublist (List.Sublist.map _ (Registry.erase_sublist _ _)) hs.keysNodup
  · intro x hx
    exact hs.keysRange x ((hmem x).1 hx).1
  · intro x hx
    exact hs.jobs x ((hmem x).1 hx).1
  · intro x hx
    show (s.shared.set _ _)[x.2.second]? = _
    rw [List.getElem?_set_ne (hother x hx)]
    exact hs.pending x ((hmem x).1 hx).1
  · exact List.Nodup.sublist (List.Sublist.map _ (Registry.erase_sublist _ _)) hs.promNodup
  · show ((s.fulfilled ++ [(e.second, j)]).map Prod.fst).Nodup
    rw [List.map_append, List.nodup_append]
    refine ⟨hs.logNodup, by simp, ?_⟩
    intro a ha hb
    simp only [List.map_cons, List.map_nil, List.mem_singleton] at hb
    obtain ⟨p, hp, rfl⟩ := List.mem_map.1 ha
    exact hlog p hp hb.symm
  · intro p hp
    show ∃ r, (s.shared.set _ _)[p.1]? = _
    rcases List.mem_append.1 hp with hp | hp
    · rw [List.getElem?_set_ne (hlog p hp)]
      exact hs.logValue p hp
    · simp only [List.mem_singleton] at hp
      subst hp
      refine ⟨true, ?_⟩
      have := hs.handle_lt he
      simp [this]

/-! ## The loop of `loadVocabularies` -/

theorem LoadInv.initial (paths : List String) :
    LoadInv paths 0
      { vmap := [], vocabs := List.replicate paths.length none, trace := [], fresh := 0 } := by
  refine ⟨by simp, by simp, by simp, by simp, by simp, by simp, by simp⟩

theorem loadBody_found (paths : List String) (st : LoadState) (k : Nat) (e : String × Ptr Vocab)
    (hf : List.find? (fun e => e.1 == paths.getD k "") st.vmap = some e) :
    loadBody paths st k = { st with vocabs := st.vocabs.set k e.2 } := by
  simp only [loadBody, hf]

theorem loadBody_new (paths : List String) (st : LoadState) (k : Nat)
    (hf : List.find? (fun e => e.1 == paths.getD k "") st.vmap = none) :
    loadBody paths st k =
      { vmap := st.vmap ++
          [(paths.getD k "", some { addr := st.fresh, batchIndex := k, file := some (paths.getD k "") })],
        vocabs := st.vocabs.set k
          (some { addr := st.fresh, batchIndex := k, file := some (paths.getD k "") }),
        trace := st.trace ++ [Effect.loadVocab (paths.getD k "") k],
        fresh := st.fresh + 1 } := by
  simp only [loadBody, hf]

theorem LoadInv.body (paths : List String) (k : Nat) (hk : k < paths.length)
    (st : LoadState) (h : LoadInv paths k st) : LoadInv paths (k + 1) (loadBody paths st k) := by
  have hget : paths[k]? = some (paths.getD k "") := by
    rw [List.getD_eq_getElem _ _ hk, List.getElem?_eq_getElem hk]
  have htake : ∀ p, p ∈ paths.take (k + 1) ↔ p ∈ paths.take k ∨ p = paths.getD k "" := by
    intro p
    rw [List.take_succ, hget]
    simp
  cases hf : List.find? (fun e => e.1 == paths.getD k "") st.vmap with
  | some e =>
    rw [loadBody_found paths st k e hf]
    have hmem : e ∈ st.vmap := List.mem_of_find?_eq_some hf
    have hkey : e.1 = paths.getD k "" := by
      have := List.find?_some hf
      simpa using this
    refine ⟨?_, h.keysNodup, ?_, h.entry, h.addrInj, ?_, h.trace⟩
    · simp [h.len]
    · intro p
      rw [htake, ← h.keys]
      constructor
      · exact Or.inl
      · rintro (hp | hp)
        · exact hp
        · rw [hp, ← hkey]
          exact List.mem_map_of_mem Prod.fst hmem
    · intro i hi
      by_cases hik : i = k
      · subst hik
        refine ⟨e, hmem, by rw [hget, hkey], ?_⟩
        show (st.vocabs.set i e.2)[i]? = some e.2
        rw [List.getElem?_set_self (by rw [h.len]; exact hk)]
      · obtain ⟨e2, he2, hp2, hv2⟩ := h.filled i (by omega)
        refine ⟨e2, he2, hp2, ?_⟩
        show (st.vocabs.set k e.2)[i]? = some e2.2
        rw [List.getElem?_set_ne (fun hki => hik hki.symm)]
        exact hv2
  | none =>
    rw [loadBody_new paths st k hf]
    have hnot : paths.getD k "" ∉ st.vmap.map Prod.fst := by
      intro hmem
      obtain ⟨e, he, hek⟩ := List.mem_map.1 hmem
      have := List.find?_eq_none.1 hf e he
      simp [hek] at this
    have hnot2 : ∀ i < k, paths[i]? ≠ some (paths.getD k "") := by
      intro i hi heq
      apply hnot
      rw [h.keys]
      exact (List.mem_take_iff_getElem).2 ⟨i, by
        have := (List.getElem?_eq_some_iff.1 heq).1
        omega, (List.getElem?_eq_some_iff.1 heq).2⟩
    refine ⟨?_, ?_, ?_, ?_, ?_, ?_, ?_⟩
    · simp [h.len]
    · show ((st.vmap ++ [_]).map Prod.fst).Nodup
      rw [List.map_append, List.nodup_append]
      refine ⟨h.keysNodup, by simp, ?_⟩
      intro a ha hb
      simp only [List.map_cons, List.map_nil, List.mem_singleton] at hb
      exact hnot (hb ▸ ha)
    · intro p
      show p ∈ (st.vmap ++ [_]).map Prod.fst ↔ _
      rw [htake, ← h.keys]
      simp
    · intro e he
      show ∃ v, _ ∧ _ ∧ _ ∧ _ ∧ v.addr < st.fresh + 1
      rcases List.mem_append.1 he with he | he
      · obtain ⟨v, h1, h2, h3, h4, h5⟩ := h.entry e he
        exact ⟨v, h1, h2, h3, h4, Nat.lt_succ_of_lt h5⟩
      · simp only [List.mem_singleton] at he
        subst he
        exact ⟨_, rfl, rfl, hget, hnot2, Nat.lt_succ_self _⟩
    · intro e he e2 he2 v v2 hv hv2 hadd
      rcases List.mem_append.1 he with he | he <;> rcases List.mem_append.1 he2 with he2 | he2
      · exact h.addrInj e he e2 he2 v v2 hv hv2 hadd
      · simp only [List.mem_singleton] at he2
        subst he2
        obtain ⟨w, h1, _, _, _, h5⟩ := h.entry e he
        rw [hv] at h1
        simp only [Option.some.injEq] at h1 hv2
        subst h1
        subst hv2
        simp only at hadd
        omega
      · simp only [List.mem_singleton] at he
        subst he
        obtain ⟨w, h1, _, _, _, h5⟩ := h.entry e2 he2
        rw [hv2] at h1
        simp only [Option.some.injEq] at h1 hv
        subst h1
        subst hv
        simp only at hadd
        omega
      · simp only [List.mem_singleton] at he he2
        rw [he, he2]
    · intro i hi
      by_cases hik : i = k
      · subst hik
        refine ⟨_, List.mem_append_right _ (List.mem_singleton_self _), hget, ?_⟩
        show (st.vocabs.set i _)[i]? = _
        rw [List.getElem?_set_self (by rw [h.len]; exact hk)]
      · obtain ⟨e2, he2, hp2, hv2⟩ := h.filled i (by omega)
        refine ⟨e2, List.mem_append_left _ he2, hp2, ?_⟩
        show (st.vocabs.set k _)[i]? = some e2.2
        rw [List.getElem?_set_ne (fun hki => hik hki.symm)]
        exact hv2
    · show st.trace ++ _ = (st.vmap ++ [_]).map _
      rw [h.trace]
      simp

theorem LoadInv.loop (paths : List String) (k : Nat) (hk : k ≤ paths.length) :
    LoadInv paths k
      (List.foldl (loadBody paths)
        { vmap := [], vocabs := List.replicate paths.length none, trace := [], fresh := 0 }
        (List.range k)) := by
  induction k with
  | zero => exact LoadInv.initial paths
  | succ k ih =>
    rw [List.range_succ, List.foldl_append]
    exact LoadInv.body paths k hk _ (ih (Nat.le_of_succ_le hk))

theorem loadVocabularies_abort (o : Options) (h : o.vocabs.length < 2) :
    loadVocabularies o = ([], none) := by
  simp [loadVocabularies, h]

theorem loadVocabularies_spec (o : Options) (h : 2 ≤ o.vocabs.length) :
    ∃ st, LoadInv o.vocabs o.vocabs.length st ∧
      loadVocabularies o = (st.trace, some st.vocabs) := by
  refine ⟨_, LoadInv.loop o.vocabs o.vocabs.length (Nat.le_refl _), ?_⟩
  simp [loadVocabularies, Nat.not_lt.2 h]

theorem LoadInv.slot {paths : List String} {st : LoadState}
    (h : LoadInv paths paths.length st) (i : Nat) (hi : i < paths.length) :
    ∃ v, st.vocabs[i]? = some (some v) ∧ (paths[i]?, some v) ∈ st.vmap.map
      (fun e => (some e.1, e.2)) := by
  obtain ⟨e, he, hp, hv⟩ := h.filled i hi
  obtain ⟨v, h1, _⟩ := h.entry e he
  refine ⟨v, by rw [hv, h1], ?_⟩
  rw [hp, ← h1]
  exact List.mem_map_of_mem (fun e => (some e.1, e.2)) he

theorem start_abort (o : Options) (h : o.vocabs.length < 2) :
    (TranslationService.init o).start = ([], none) := by
  simp [start, TranslationService.init, loadVocabularies_abort o h]

theorem start_ok (o : Options) (ltr : List Effect) (vs : List (Ptr Vocab))
    (hl : loadVocabularies o = (ltr, some vs)) :
    ∃ sl, (TranslationService.init o).start.2 =
      some { options_ := o, vocabs_ := vs,
             workers_ := o.devices.map (fun d => { device := d, started := true }),
             jq_ := some { jobs := [] }, slgen_ := sl, scheduled_jobs_ := [],
             keep_going_ := true, job_ctr_ := 0, shared := [], fulfilled := [] } := by
  by_cases hsl : o.shortlist = []
  · refine ⟨none, ?_⟩
    simp only [start, TranslationService.init, hl, hsl]
    simp
  · refine ⟨some { src := vs.head?.join, trg := vs.getLast?.join, srcIdx := 0, trgIdx := 1,
                   sharedVocab := vs.head?.join == vs.getLast?.join }, ?_⟩
    simp only [start, TranslationService.init, hl]
    simp [hsl]

theorem start_spec (o : Options) (tr : List Effect) (s0 : TranslationService)
    (h : (TranslationService.init o).start = (tr, some s0)) :
    Inv s0 ∧ s0.job_ctr_ = 0 ∧ s0.scheduled_jobs_ = [] ∧ s0.fulfilled = [] ∧
      s0.shared = [] ∧ s0.options_ = o ∧ 2 ≤ o.vocabs.length := by
  by_cases hn : o.vocabs.length < 2
  · rw [start_abort o hn] at h
    simp at h
  · have hn2 : 2 ≤ o.vocabs.length := Nat.le_of_not_lt hn
    obtain ⟨st, hst, hl⟩ := loadVocabularies_spec o hn2
    obtain ⟨v, hv, _⟩ := hst.slot (o.vocabs.length - 1) (by omega)
    have hlast : st.vocabs.getLast? = some (some v) := by
      rw [List.getLast?_eq_getElem?, hst.len]
      exact hv
    obtain ⟨sl, h2⟩ := start_ok o _ _ hl
    rw [h] at h2
    simp only [Option.some.injEq] at h2
    subst h2
    exact ⟨⟨by simp, ⟨v, hlast⟩, by simp [Registry.keys], by simp, by simp, by simp, by simp,
      by simp, by simp⟩, rfl, rfl, rfl, rfl, rfl, hn2⟩

/-! ## One call on a service that satisfies the invariant -/

theorem step_rejected (finish : Job → History → Bool → Vocab → Job)
    {s : TranslationService} (hs : Inv s) (hc : s.job_ctr_ + 1 < 2 ^ 64)
    (ejid : Nat) (input : List Char) (nbest priority : Nat) :
    ∃ s1, step finish s (Op.push ejid input nbest priority false)
        = some (s1, [(s.job_ctr_ + 1, s.shared.length)]) ∧
      Inv s1 ∧ s1.job_ctr_ = s.job_ctr_ + 1 ∧
      s1.scheduled_jobs_ = s.scheduled_jobs_ ∧
      s1.fulfilled = s.fulfilled ++
        [(s.shared.length, { Job.create (s.job_ctr_ + 1) ejid input nbest priority with
                              error := some "Could not push to Queue." })] ∧
      s1.vocabs_ = s.vocabs_ ∧ s1.options_ = s.options_ := by
  obtain ⟨q, hq⟩ := Option.ne_none_iff_exists'.1 hs.queue
  have h1 := push_rejected s q hq ejid input nbest priority
  have h2 := Inv.after_rejected hs hc
    { Job.create (s.job_ctr_ + 1) ejid input nbest priority with
      error := some "Could not push to Queue." }
  rw [Nat.mod_eq_of_lt hc] at h1 h2
  exact ⟨_, by rw [step, h1]; rfl, h2, rfl, rfl, rfl, rfl, rfl⟩

theorem step_accepted (finish : Job → History → Bool → Vocab → Job)
    {s : TranslationService} (hs : Inv s) (hc : s.job_ctr_ + 1 < 2 ^ 64)
    (ejid : Nat) (input : List Char) (nbest priority : Nat) :
    ∃ s1, step finish s (Op.push ejid input nbest priority true)
        = some (s1, [(s.job_ctr_ + 1, s.shared.length)]) ∧
      Inv s1 ∧ s1.job_ctr_ = s.job_ctr_ + 1 ∧
      s1.scheduled_jobs_ = s.scheduled_jobs_ ++
        [(s.job_ctr_ + 1,
          { first := some (Job.create (s.job_ctr_ + 1) ejid input nbest priority),
            second := s.shared.length })] ∧
      s1.fulfilled = s.fulfilled ∧
      s1.vocabs_ = s.vocabs_ ∧ s1.options_ = s.options_ := by
  obtain ⟨q, hq⟩ := Option.ne_none_iff_exists'.1 hs.queue
  have hnew : (s.job_ctr_ + 1) % 2 ^ 64 ∉ s.scheduled_jobs_.keys := by
    rw [Nat.mod_eq_of_lt hc]
    intro hmem
    obtain ⟨e, he, hek⟩ := List.mem_map.1 hmem
    have := (hs.keysRange e he).2
    omega
  have h1 := push_accepted s q hq ejid input nbest priority hnew
  have h2 := Inv.after_accepted hs hc
    { q with jobs := q.jobs ++ [Job.create ((s.job_ctr_ + 1) % 2 ^ 64) ejid input nbest priority] }
    (Job.create (s.job_ctr_ + 1) ejid input nbest priority)
  rw [Nat.mod_eq_of_lt hc] at h1 h2
  exact ⟨_, by rw [step, h1]; rfl, h2, rfl, rfl, rfl, rfl, rfl⟩

theorem step_callback (finish : Job → History → Bool → Vocab → Job)
    {s : TranslationService} (hs : Inv s) (h : History) :
    ∃ s1, step finish s (Op.callback h) = some (s1, []) ∧
      Inv s1 ∧ s1.job_ctr_ = s.job_ctr_ ∧
      (∀ x, x ∈ s1.scheduled_jobs_ ↔ x ∈ s.scheduled_jobs_ ∧ x.1 ≠ h.lineNum) ∧
      s1.vocabs_ = s.vocabs_ ∧ s1.options_ = s.options_ ∧
      ((s.scheduled_jobs_.find h.lineNum = none ∧ s1 = s) ∨
        ∃ e j v, (h.lineNum, e) ∈ s.scheduled_jobs_ ∧ e.first = some j ∧
          s.vocabs_.getLast? = some (some v) ∧
          s1.fulfilled = s.fulfilled ++ [(e.second, finish j h s.options_.right_left v)]) := by
  cases hf : s.scheduled_jobs_.find h.lineNum with
  | none =>
    refine ⟨s, by rw [step, callback_absent finish s h hf]; rfl, hs, rfl, ?_, rfl, rfl,
      Or.inl ⟨rfl, rfl⟩⟩
    intro x
    constructor
    · intro hx
      refine ⟨hx, fun hxk => ?_⟩
      have := (Registry.find_eq_none_iff _ _).1 hf
      exact this (hxk ▸ List.mem_map_of_mem Prod.fst hx)
    · exact fun hx => hx.1
  | some e =>
    have he := (Registry.find_eq_some_iff _ hs.keysNodup _ _).1 hf
    obtain ⟨j, hj⟩ := hs.jobs _ he
    obtain ⟨v, hv⟩ := hs.lastVocab
    have hp := hs.pending _ he
    have h1 := callback_present finish s h e j v _ hf hj hv hp rfl
    have h2 := Inv.after_callback hs h.lineNum e he (finish j h s.options_.right_left v)
    refine ⟨_, by rw [step, h1]; rfl, h2, rfl, ?_, rfl, rfl, Or.inr ⟨e, j, v, he, hj, hv, rfl⟩⟩
    intro x
    exact Registry.mem_erase_iff _ hs.keysNodup _ _

/-! ## Sequences of calls -/

theorem run_cons_iff (finish : Job → History → Bool → Vocab → Job)
    (s s2 : TranslationService) (op : Op) (ops : List Op) (rets : List (Nat × Nat)) :
    run finish s (op :: ops) = some (s2, rets) ↔
      ∃ s1 r1 r2, step finish s op = some (s1, r1) ∧ run finish s1 ops = some (s2, r2) ∧
        rets = r1 ++ r2 := by
  simp only [run, Option.bind_eq_some, Option.map_eq_some', Prod.exists, Prod.mk.injEq]
  constructor
  · rintro ⟨s1, r1, h1, s3, r2, h2, rfl, rfl⟩
    exact ⟨s1, r1, r2, h1, h2, rfl⟩
  · rintro ⟨s1, r1, r2, h1, h2, rfl⟩
    exact ⟨s1, r1, h1, s2, r2, h2, rfl, rfl⟩

theorem run_append_iff (finish : Job → History → Bool → Vocab → Job)
    (ops1 ops2 : List Op) :
    ∀ (s s2 : TranslationService) (rets : List (Nat × Nat)),
    run finish s (ops1 ++ ops2) = some (s2, rets) ↔
      ∃ s1 r1 r2, run finish s ops1 = some (s1, r1) ∧ run finish s1 ops2 = some (s2, r2) ∧
        rets = r1 ++ r2 := by
  induction ops1 with
  | nil =>
    intro s s2 rets
    constructor
    · intro h
      exact ⟨s, [], rets, rfl, h, rfl⟩
    · rintro ⟨s1, r1, r2, h1, h2, rfl⟩
      simp only [run, Option.some.injEq, Prod.mk.injEq] at h1
      obtain ⟨rfl, rfl⟩ := h1
      simpa using h2
  | cons op ops ih =>
    intro s s2 rets
    rw [List.cons_append, run_cons_iff]
    constructor
    · rintro ⟨s1, r1, r2, h1, h2, rfl⟩
      obtain ⟨s3, r3, r4, h3, h4, rfl⟩ := (ih s1 s2 r2).1 h2
      exact ⟨s3, r1 ++ r3, r4, (run_cons_iff _ _ _ _ _ _).2 ⟨s1, r1, r3, h1, h3, rfl⟩, h4,
        by simp⟩
    · rintro ⟨s3, r13, r4, h13, h4, rfl⟩
      obtain ⟨s1, r1, r3, h1, h3, rfl⟩ := (run_cons_iff _ _ _ _ _ _).1 h13
      exact ⟨s1, r1, r3 ++ r4, h1, (ih s1 s2 _).2 ⟨s3, r3, r4, h3, h4, rfl⟩, by simp⟩

theorem numPushes_append (a b : List Op) : numPushes (a ++ b) = numPushes a + numPushes b := by
  induction a with
  | nil => simp [numPushes]
  | cons op a ih =>
    cases op
    · show numPushes (a ++ b) + 1 = numPushes a + 1 + numPushes b
      omega
    · exact ih

theorem run_total (finish : Job → History → Bool → Vocab → Job) (ops : List Op) :
    ∀ (s : TranslationService), Inv s → s.job_ctr_ + numPushes ops < 2 ^ 64 →
    ∃ s2 rets, run finish s ops = some (s2, rets) ∧ Inv s2 ∧
      s2.job_ctr_ = s.job_ctr_ + numPushes ops ∧
      rets.map Prod.fst = List.range' (s.job_ctr_ + 1) (numPushes ops) ∧
      s2.vocabs_ = s.vocabs_ ∧ s2.options_ = s.options_ ∧
      s.fulfilled <+: s2.fulfilled := by
  induction ops with
  | nil =>
    intro s hs _
    exact ⟨s, [], rfl, hs, rfl, rfl, rfl, rfl, List.prefix_refl _⟩
  | cons op ops ih =>
    intro s hs hc
    cases op with
    | push ejid input nbest priority accepted =>
      simp only [numPushes] at hc ⊢
      have hc1 : s.job_ctr_ + 1 < 2 ^ 64 := by omega
      have hstep : ∃ s1, step finish s (Op.push ejid input nbest priority accepted)
          = some (s1, [(s.job_ctr_ + 1, s.shared.length)]) ∧ Inv s1 ∧
          s1.job_ctr_ = s.job_ctr_ + 1 ∧ s1.vocabs_ = s.vocabs_ ∧ s1.options_ = s.options_ ∧
          s.fulfilled <+: s1.fulfilled := by
        cases accepted with
        | false =>
          obtain ⟨s1, h1, h2, h3, _, h5, h6, h7⟩ :=
            step_rejected finish hs hc1 ejid input nbest priority
          exact ⟨s1, h1, h2, h3, h6, h7, h5 ▸ List.prefix_append _ _⟩
        | true =>
          obtain ⟨s1, h1, h2, h3, _, h5, h6, h7⟩ :=
            step_accepted finish hs hc1 ejid input nbest priority
          exact ⟨s1, h1, h2, h3, h6, h7, h5 ▸ List.prefix_refl _⟩
      obtain ⟨s1, h1, hi1, hc2, hv1, ho1, hf1⟩ := hstep
      obtain ⟨s2, r2, hr, hi2, hc3, hids, hv2, ho2, hf2⟩ := ih s1 hi1 (by omega)
      refine ⟨s2, (s.job_ctr_ + 1, s.shared.length) :: r2,
        (run_cons_iff _ _ _ _ _ _).2 ⟨s1, _, r2, h1, hr, rfl⟩, hi2, by omega, ?_,
        hv2.trans hv1, ho2.trans ho1, hf1.trans hf2⟩
      rw [List.map_cons, hids, hc2, List.range'_succ]
    | callback h =>
      simp only [numPushes] at hc ⊢
      obtain ⟨s1, h1, hi1, hc2, _, hv1, ho1, hlog⟩ := step_callback finish hs h
      have hf1 : s.fulfilled <+: s1.fulfilled := by
        rcases hlog with ⟨_, rfl⟩ | ⟨e, j, v, _, _, _, hl⟩
        · exact List.prefix_refl _
        · exact hl ▸ List.prefix_append _ _
      obtain ⟨s2, r2, hr, hi2, hc3, hids, hv2, ho2, hf2⟩ := ih s1 hi1 (by omega)
      refine ⟨s2, r2, (run_cons_iff _ _ _ _ _ _).2 ⟨s1, _, r2, h1, hr, rfl⟩, hi2, by omega,
        ?_, hv2.trans hv1, ho2.trans ho1, hf1.trans hf2⟩
      rw [hids, hc2]

/-! ## The registry after a sequence of calls -/

theorem NoCallback.nil (k : Nat) : NoCallback k [] := by
  intro h hm
  simp at hm

theorem noCallback_cons_push (k : Nat) (ejid : Nat) (input : List Char) (nbest priority : Nat)
    (accepted : Bool) (ops : List Op) :
    NoCallback k (Op.push ejid input nbest priority accepted :: ops) ↔ NoCallback k ops := by
  simp [NoCallback]

theorem noCallback_cons_callback (k : Nat) (h : History) (ops : List Op) :
    NoCallback k (Op.callback h :: ops) ↔ h.lineNum ≠ k ∧ NoCallback k ops := by
  simp only [NoCallback, List.mem_cons, Op.callback.injEq]
  constructor
  · intro hall
    exact ⟨hall h (Or.inl rfl), fun h2 hm => hall h2 (Or.inr hm)⟩
  · rintro ⟨h1, h2⟩ h3 (rfl | hm)
    · exact h1
    · exact h2 h3 hm

theorem noCallback_append (k : Nat) (a b : List Op) :
    NoCallback k (a ++ b) ↔ NoCallback k a ∧ NoCallback k b := by
  simp only [NoCallback, List.mem_append]
  constructor
  · intro hall
    exact ⟨fun h hm => hall h (Or.inl hm), fun h hm => hall h (Or.inr hm)⟩
  · rintro ⟨h1, h2⟩ h (hm | hm)
    · exact h1 h hm
    · exact h2 h hm

theorem live_nil (finish : Job → History → Bool → Vocab → Job) (s : TranslationService)
    (k : Nat) (e : JobEntry) : ¬ Live finish s [] k e := by
  rintro ⟨pre, post, _, _, _, _, _, _, _, _, h, _⟩
  simp at h

theorem live_cons (finish : Job → History → Bool → Vocab → Job) (s s1 : TranslationService)
    (op : Op) (r : List (Nat × Nat)) (hstep : step finish s op = some (s1, r))
    (ops : List Op) (k : Nat) (e : JobEntry) :
    Live finish s (op :: ops) k e ↔
      (∃ ejid input nbest priority fut, op = Op.push ejid input nbest priority true ∧
        r = [(k, fut)] ∧
        e = { first := some (Job.create k ejid input nbest priority), second := fut } ∧
        NoCallback k ops) ∨
      Live finish s1 ops k e := by
  constructor
  · rintro ⟨pre, post, ejid, input, nbest, priority, s3, r3, s4, fut, hops, hrun, hpush, he, hno⟩
    cases pre with
    | nil =>
      simp only [List.nil_append, List.cons.injEq] at hops
      obtain ⟨rfl, rfl⟩ := hops
      simp only [run, Option.some.injEq, Prod.mk.injEq] at hrun
      obtain ⟨rfl, rfl⟩ := hrun
      simp only [step, hpush, Option.map_some', Option.some.injEq, Prod.mk.injEq] at hstep
      exact Or.inl ⟨ejid, input, nbest, priority, fut, rfl, hstep.2.symm, he, hno⟩
    | cons op2 pre2 =>
      simp only [List.cons_append, List.cons.injEq] at hops
      obtain ⟨rfl, rfl⟩ := hops
      obtain ⟨s5, r5, r6, h5, h6, rfl⟩ := (run_cons_iff _ _ _ _ _ _).1 hrun
      rw [hstep] at h5
      simp only [Option.some.injEq, Prod.mk.injEq] at h5
      obtain ⟨rfl, rfl⟩ := h5
      exact Or.inr ⟨pre2, post, ejid, input, nbest, priority, s3, r6, s4, fut, rfl, h6, hpush,
        he, hno⟩
  · rintro (⟨ejid, input, nbest, priority, fut, rfl, rfl, he, hno⟩ |
      ⟨pre, post, ejid, input, nbest, priority, s3, r3, s4, fut, rfl, hrun, hpush, he, hno⟩)
    · refine ⟨[], ops, ejid, input, nbest, priority, s, [], s1, fut, rfl, rfl, ?_, he, hno⟩
      simp only [step, Option.map_eq_some', Prod.mk.injEq, Prod.exists] at hstep
      obtain ⟨s2, a, b, h1, rfl, h2⟩ := hstep
      simp only [List.cons.injEq, Prod.mk.injEq, and_true] at h2
      rw [h1, h2.1, h2.2]
    · exact ⟨op :: pre, post, ejid, input, nbest, priority, s3, r ++ r3, s4, fut, rfl,
        (run_cons_iff _ _ _ _ _ _).2 ⟨s1, r, r3, hstep, hrun, rfl⟩, hpush, he, hno⟩

theorem run_registry (finish : Job → History → Bool → Vocab → Job) (ops : List Op) :
    ∀ (s s2 : TranslationService) (rets : List (Nat × Nat)), Inv s →
    s.job_ctr_ + numPushes ops < 2 ^ 64 → run finish s ops = some (s2, rets) →
    ∀ k e, (k, e) ∈ s2.scheduled_jobs_ ↔
      ((k, e) ∈ s.scheduled_jobs_ ∧ NoCallback k ops) ∨ Live finish s ops k e := by
  induction ops with
  | nil =>
    intro s s2 rets _ _ hrun k e
    simp only [run, Option.some.injEq, Prod.mk.injEq] at hrun
    obtain ⟨rfl, rfl⟩ := hrun
    constructor
    · exact fun h => Or.inl ⟨h, NoCallback.nil k⟩
    · rintro (h | h)
      · exact h.1
      · exact absurd h (live_nil finish s k e)
  | cons op ops ih =>
    intro s s2 rets hs hc hrun k e
    obtain ⟨s1, r1, r2, hstep, hrun2, rfl⟩ := (run_cons_iff _ _ _ _ _ _).1 hrun
    rw [live_cons finish s s1 op r1 hstep]
    cases op with
    | push ejid input nbest priority accepted =>
      simp only [numPushes] at hc
      have hc1 : s.job_ctr_ + 1 < 2 ^ 64 := by omega
      rw [noCallback_cons_push]
      cases accepted with
      | false =>
        obtain ⟨s3, h1, hi, hctr, hreg, _⟩ := step_rejected finish hs hc1 ejid input nbest priority
        rw [hstep] at h1
        simp only [Option.some.injEq, Prod.mk.injEq] at h1
        obtain ⟨rfl, rfl⟩ := h1
        rw [ih s1 s2 r2 hi (by omega) hrun2 k e, hreg]
        simp
      | true =>
        obtain ⟨s3, h1, hi, hctr, hreg, _⟩ := step_accepted finish hs hc1 ejid input nbest priority
        rw [hstep] at h1
        simp only [Option.some.injEq, Prod.mk.injEq] at h1
        obtain ⟨rfl, rfl⟩ := h1
        rw [ih s1 s2 r2 hi (by omega) hrun2 k e, hreg]
        simp only [List.mem_append, List.mem_singleton, Prod.mk.injEq, Op.push.injEq,
          List.cons.injEq, and_true]
        constructor
        · rintro (⟨h | ⟨rfl, rfl⟩, hno⟩ | h)
          · exact Or.inl ⟨h, hno⟩
          · refine Or.inr (Or.inl ⟨ejid, input, nbest, priority, s.shared.length, ?_, ?_, rfl, hno⟩)
            · simp
            · simp
          · exact Or.inr (Or.inr h)
        · rintro (⟨h, hno⟩ | ⟨a, b, c, d, fut, ⟨rfl, rfl, rfl, rfl⟩, ⟨rfl, rfl⟩, rfl, hno⟩ | h)
          · exact Or.inl ⟨Or.inl h, hno⟩
          · exact Or.inl ⟨Or.inr ⟨rfl, rfl⟩, hno⟩
          · exact Or.inr h
    | callback h =>
      simp only [numPushes] at hc
      obtain ⟨s3, h1, hi, hctr, hreg, _⟩ := step_callback finish hs h
      rw [hstep] at h1
      simp only [Option.some.injEq, Prod.mk.injEq] at h1
      obtain ⟨rfl, rfl⟩ := h1
      rw [ih s1 s2 r2 hi (by omega) hrun2 k e, hreg, noCallback_cons_callback]
      simp only [reduceCtorEq, false_and, exists_false, false_or]
      constructor
      · rintro (⟨⟨h1, h2⟩, h3⟩ | h4)
        · exact Or.inl ⟨h1, fun h5 => h2 h5.symm, h3⟩
        · exact Or.inr h4
      · rintro (⟨h1, h2, h3⟩ | h4)
        · exact Or.inl ⟨⟨h1, fun h5 => h2 h5.symm⟩, h3⟩
        · exact Or.inr h4

/-! ## Completion handles along a sequence of calls -/

theorem run_inv (finish : Job → History → Bool → Vocab → Job) (ops : List Op)
    (s s2 : TranslationService) (rets : List (Nat × Nat)) (hs : Inv s)
    (hc : s.job_ctr_ + numPushes ops < 2 ^ 64) (hrun : run finish s ops = some (s2, rets)) :
    Inv s2 ∧ s2.job_ctr_ = s.job_ctr_ + numPushes ops ∧
      rets.map Prod.fst = List.range' (s.job_ctr_ + 1) (numPushes ops) ∧
      s2.vocabs_ = s.vocabs_ ∧ s2.options_ = s.options_ ∧ s.fulfilled <+: s2.fulfilled := by
  obtain ⟨s3, r3, h3, rest⟩ := run_total finish ops s hs hc
  rw [hrun] at h3
  simp only [Option.some.injEq, Prod.mk.injEq] at h3
  obtain ⟨rfl, rfl⟩ := h3
  exact rest

theorem step_push_eq (finish : Job → History → Bool → Vocab → Job) (s s1 : TranslationService)
    (ejid : Nat) (input : List Char) (nbest priority : Nat) (accepted : Bool) (r : Nat × Nat) :
    step finish s (Op.push ejid input nbest priority accepted) = some (s1, [r]) ↔
      s.push ejid input nbest priority accepted = some (s1, r) := by
  simp only [step, Option.map_eq_some', Prod.exists, Prod.mk.injEq]
  constructor
  · rintro ⟨s2, a, b, h1, rfl, h2⟩
    simp only [List.cons.injEq, and_true] at h2
    rw [h1, h2]
  · intro h
    exact ⟨s1, r.1, r.2, h, rfl, rfl⟩

theorem step_callback_eq (finish : Job → History → Bool → Vocab → Job)
    (s s1 : TranslationService) (h : History) (r : List (Nat × Nat)) :
    step finish s (Op.callback h) = some (s1, r) ↔ s.callback_ finish h = some s1 ∧ r = [] := by
  simp only [step, Option.map_eq_some', Prod.mk.injEq]
  constructor
  · rintro ⟨s2, h1, rfl, rfl⟩
    exact ⟨h1, rfl⟩
  · rintro ⟨h1, rfl⟩
    exact ⟨s1, h1, rfl, rfl⟩

theorem filter_fst_length_le_one {κ α : Type} [DecidableEq κ] (l : List (κ × α))
    (h : (l.map Prod.fst).Nodup) (p : κ) : (l.filter (fun x => x.1 == p)).length ≤ 1 := by
  induction l with
  | nil => simp
  | cons a l ih =>
    simp only [List.map_cons, List.nodup_cons] at h
    by_cases hap : a.1 = p
    · have hnone : l.filter (fun x => x.1 == p) = [] := by
        rw [List.filter_eq_nil_iff]
        intro x hx hxp
        simp only [beq_iff_eq] at hxp
        exact h.1 (hap ▸ hxp ▸ List.mem_map_of_mem Prod.fst hx)
      simp [List.filter_cons, hap, hnone]
    · simp only [List.filter_cons, beq_iff_eq, hap, if_false]
      exact ih h.2

theorem filter_fst_eq_singleton {κ α : Type} [DecidableEq κ] (l : List (κ × α))
    (h : (l.map Prod.fst).Nodup) (a : κ × α) (ha : a ∈ l) : l.filter (fun x => x.1 == a.1) = [a] := by
  induction l with
  | nil => simp at ha
  | cons b l ih =>
    simp only [List.map_cons, List.nodup_cons] at h
    rcases List.mem_cons.1 ha with rfl | ha
    · have hnone : l.filter (fun x => x.1 == a.1) = [] := by
        rw [List.filter_eq_nil_iff]
        intro x hx hxp
        simp only [beq_iff_eq] at hxp
        exact h.1 (hxp ▸ List.mem_map_of_mem Prod.fst hx)
      simp [List.filter_cons, hnone]
    · have hne : ¬ b.1 = a.1 := by
        intro hba
        exact h.1 (hba ▸ List.mem_map_of_mem Prod.fst ha)
      simp only [List.filter_cons, beq_iff_eq, hne, if_false]
      exact ih h.2 ha

theorem Inv.future_get_of_fulfilled {s : TranslationService} (hs : Inv s) {p : Nat × Job}
    (hp : p ∈ s.fulfilled) : s.future_get p.1 = some p.2 := by
  obtain ⟨r, hr⟩ := hs.logValue p hp
  simp [future_get, hr]

theorem Inv.not_fulfilled_of_mem {s : TranslationService} (hs : Inv s) {e : Nat × JobEntry}
    (he : e ∈ s.scheduled_jobs_) : ∀ x ∈ s.fulfilled, x.1 ≠ e.2.second := by
  intro x hx heq
  obtain ⟨r, hr⟩ := hs.logValue x hx
  rw [heq, hs.pending e he] at hr
  simp at hr

theorem Inv.entry_unique {s : TranslationService} (hs : Inv s) {k : Nat} {e e2 : JobEntry}
    (he : (k, e) ∈ s.scheduled_jobs_) (he2 : (k, e2) ∈ s.scheduled_jobs_) : e = e2 := by
  have h1 := (Registry.find_eq_some_iff _ hs.keysNodup k e).2 he
  have h2 := (Registry.find_eq_some_iff _ hs.keysNodup k e2).2 he2
  rw [h1] at h2
  exact Option.some.inj h2

/-- An entry of the registry is completed by the first `callback_` for its key. -/
theorem run_completion (finish : Job → History → Bool → Vocab → Job)
    (s s5 : TranslationService) (hs : Inv s) (k : Nat) (e : JobEntry) (j : Job) (v : Vocab)
    (he : (k, e) ∈ s.scheduled_jobs_) (hj : e.first = some j)
    (hv : s.vocabs_.getLast? = some (some v))
    (mid post : List Op) (h : History) (rets : List (Nat × Nat))
    (hk : h.lineNum = k) (hno : NoCallback k mid)
    (hc : s.job_ctr_ + numPushes (mid ++ Op.callback h :: post) < 2 ^ 64)
    (hrun : run finish s (mid ++ Op.callback h :: post) = some (s5, rets)) :
    ∃ s3 r3 s4 r5, run finish s mid = some (s3, r3) ∧
      (k, e) ∈ s3.scheduled_jobs_ ∧ (∀ x ∈ s3.fulfilled, x.1 ≠ e.second) ∧
      s3.callback_ finish h = some s4 ∧
      s4.fulfilled = s3.fulfilled ++ [(e.second, finish j h s.options_.right_left v)] ∧
      run finish s4 post = some (s5, r5) ∧
      s5.fulfilled.filter (fun x => x.1 == e.second)
        = [(e.second, finish j h s.options_.right_left v)] ∧
      s5.future_get e.second = some (finish j h s.options_.right_left v) := by
  rw [numPushes_append] at hc
  simp only [numPushes] at hc
  obtain ⟨s3, r3, r4, hrun3, hrun4, rfl⟩ := (run_append_iff finish mid _ s s5 rets).1 hrun
  obtain ⟨s4, r6, r5, hstep, hrun5, rfl⟩ := (run_cons_iff _ _ _ _ _ _).1 hrun4
  obtain ⟨hi3, hc3, _, hv3, ho3, _⟩ := run_inv finish mid s s3 r3 hs (by omega) hrun3
  have he3 : (k, e) ∈ s3.scheduled_jobs_ :=
    (run_registry finish mid s s3 r3 hs (by omega) hrun3 k e).2 (Or.inl ⟨he, hno⟩)
  obtain ⟨s4b, hstep2, hi4, hc4, _, _, _, hlog⟩ := step_callback finish hi3 h
  rw [hstep] at hstep2
  simp only [Option.some.injEq, Prod.mk.injEq] at hstep2
  obtain ⟨rfl, rfl⟩ := hstep2
  have hcb := ((step_callback_eq _ _ _ _ _).1 hstep).1
  have hlog4 : s4.fulfilled = s3.fulfilled ++ [(e.second, finish j h s.options_.right_left v)] := by
    rcases hlog with ⟨hnone, _⟩ | ⟨e2, j2, v2, he2, hj2, hv2, hl⟩
    · exfalso
      have := (Registry.find_eq_none_iff _ _).1 hnone
      exact this (hk ▸ List.mem_map_of_mem Prod.fst he3)
    · rw [hk] at he2
      have hee := hi3.entry_unique he2 he3
      subst hee
      rw [hj] at hj2
      rw [hv3, hv] at hv2
      simp only [Option.some.injEq] at hj2 hv2
      rw [hl, ho3, hj2, hv2]
  obtain ⟨hi5, _, _, _, _, hpre⟩ := run_inv finish post s4 s5 r5 hi4 (by omega) hrun5
  have hmem : (e.second, finish j h s.options_.right_left v) ∈ s5.fulfilled := by
    apply hpre.subset
    rw [hlog4]
    simp
  exact ⟨s3, r3, s4, r5, hrun3, he3, hi3.not_fulfilled_of_mem he3, hcb, hlog4, hrun5,
    filter_fst_eq_singleton _ hi5.logNodup _ hmem, hi5.future_get_of_fulfilled hmem⟩

/-! ## The futures returned along a sequence of calls -/

theorem firstCallback_split (k : Nat) (ops : List Op) (h : History)
    (hf : firstCallback k ops = some h) :
    ∃ mid post, ops = mid ++ Op.callback h :: post ∧ NoCallback k mid ∧ h.lineNum = k := by
  induction ops with
  | nil => simp [firstCallback] at hf
  | cons op ops ih =>
    cases op with
    | push a b c d acc =>
      simp only [firstCallback] at hf
      obtain ⟨mid, post, rfl, hno, hk⟩ := ih hf
      exact ⟨Op.push a b c d acc :: mid, post, rfl, (noCallback_cons_push _ _ _ _ _ _ _).2 hno, hk⟩
    | callback h2 =>
      simp only [firstCallback] at hf
      by_cases hk : h2.lineNum = k
      · simp only [hk, if_true, Option.some.injEq] at hf
        subst hf
        exact ⟨[], ops, rfl, NoCallback.nil k, hk⟩
      · simp only [hk, if_false] at hf
        obtain ⟨mid, post, rfl, hno, hk2⟩ := ih hf
        exact ⟨Op.callback h2 :: mid, post, rfl,
          (noCallback_cons_callback _ _ _).2 ⟨hk, hno⟩, hk2⟩

/-- The future returned by a push in the middle of a sequence of calls, at the end
of the sequence: a rejected job is there at once, an accepted job is there
once a `callback_` for its id has run, finished with the first history. -/
theorem run_future (finish : Job → History → Bool → Vocab → Job)
    (s s5 : TranslationService) (hs : Inv s) (v : Vocab)
    (hv : s.vocabs_.getLast? = some (some v))
    (pre post : List Op) (ejid : Nat) (input : List Char) (nbest priority : Nat)
    (accepted : Bool) (rets : List (Nat × Nat))
    (hc : s.job_ctr_ + numPushes (pre ++ Op.push ejid input nbest priority accepted :: post)
      < 2 ^ 64)
    (hrun : run finish s (pre ++ Op.push ejid input nbest priority accepted :: post)
      = some (s5, rets)) :
    ∃ fut, rets[numPushes pre]? = some (s.job_ctr_ + numPushes pre + 1, fut) ∧
      (accepted = false → s5.future_get fut =
        some { Job.create (s.job_ctr_ + numPushes pre + 1) ejid input nbest priority with
               error := some "Could not push to Queue." }) ∧
      (accepted = true → ∀ h, firstCallback (s.job_ctr_ + numPushes pre + 1) post = some h →
        s5.future_get fut =
          some (finish (Job.create (s.job_ctr_ + numPushes pre + 1) ejid input nbest priority) h
                  s.options_.right_left v)) := by
  rw [numPushes_append] at hc
  simp only [numPushes] at hc
  obtain ⟨s1, r1, r2, hrun1, hrun2, rfl⟩ := (run_append_iff finish pre _ s s5 rets).1 hrun
  obtain ⟨s2, r3, r4, hstep, hrun3, rfl⟩ := (run_cons_iff _ _ _ _ _ _).1 hrun2
  obtain ⟨hi1, hc1, hids1, hv1, ho1, _⟩ := run_inv finish pre s s1 r1 hs (by omega) hrun1
  have hlen1 : r1.length = numPushes pre := by
    have := congrArg List.length hids1
    simpa using this
  have hidx : ∀ (x : Nat × Nat) (rest : List (Nat × Nat)),
      (r1 ++ ([x] ++ rest))[numPushes pre]? = some x := by
    intro x rest
    rw [List.getElem?_append_right (by omega), hlen1]
    simp
  cases accepted with
  | false =>
    obtain ⟨s2b, hstep2, hi2, hc2, _, hlog2, _⟩ :=
      step_rejected finish hi1 (by omega) ejid input nbest priority
    rw [hstep] at hstep2
    simp only [Option.some.injEq, Prod.mk.injEq] at hstep2
    obtain ⟨rfl, rfl⟩ := hstep2
    obtain ⟨hi5, _, _, _, _, hpre⟩ := run_inv finish post s2 s5 r4 hi2 (by omega) hrun3
    refine ⟨s1.shared.length, by rw [hidx, hc1], fun _ => ?_, fun hacc => by simp at hacc⟩
    have hmem : (s1.shared.length,
        ({ Job.create (s1.job_ctr_ + 1) ejid input nbest priority with
           error := some "Could not push to Queue." } : Job)) ∈ s5.fulfilled := by
      apply hpre.subset
      rw [hlog2]
      simp
    rw [← hc1]
    exact hi5.future_get_of_fulfilled hmem
  | true =>
    obtain ⟨s2b, hstep2, hi2, hc2, hreg2, _, hv2, ho2⟩ :=
      step_accepted finish hi1 (by omega) ejid input nbest priority
    rw [hstep] at hstep2
    simp only [Option.some.injEq, Prod.mk.injEq] at hstep2
    obtain ⟨rfl, rfl⟩ := hstep2
    refine ⟨s1.shared.length, by rw [hidx, hc1], fun hacc => by simp at hacc, fun _ h hf => ?_⟩
    obtain ⟨mid, post2, rfl, hno, hk⟩ := firstCallback_split _ _ h hf
    have hmem : (s1.job_ctr_ + 1,
        ({ first := some (Job.create (s1.job_ctr_ + 1) ejid input nbest priority),
           second := s1.shared.length } : JobEntry)) ∈ s2.scheduled_jobs_ := by
      rw [hreg2]
      simp
    rw [← hc1]
    rw [← hc1] at hk hno
    obtain ⟨_, _, _, _, _, _, _, _, _, _, _, h8⟩ :=
      run_completion finish s2 s5 hi2 (s1.job_ctr_ + 1) _ _ v hmem rfl
        (by rw [hv2, hv1]; exact hv) mid post2 h r4 hk hno (by rw [hc2]; omega) hrun3
    rw [ho2, ho1] at h8
    exact h8

/-! ## The loops of `translate` -/

theorem getlines_cons_eq (c : Char) (cs : List Char) :
    getlines (c :: cs) = (c :: cs).takeWhile (fun x => x != '\n')
      :: getlines (((c :: cs).dropWhile (fun x => x != '\n')).drop 1) := by
  induction cs generalizing c with
  | nil =>
    by_cases hc : c = '\n'
    · simp [getlines, hc]
    · simp [getlines, hc, List.takeWhile_cons, List.dropWhile_cons]
  | cons d ds ih =>
    by_cases hc : c = '\n'
    · simp [getlines, hc]
    · have := ih d
      rw [getlines, if_neg hc, this]
      simp [List.takeWhile_cons, List.dropWhile_cons, hc]

theorem getline_spec (buf line rest : List Char) (h : getline buf = some (line, rest)) :
    getlines buf = line :: getlines rest ∧ rest.length < buf.length := by
  cases buf with
  | nil => simp [getline] at h
  | cons c cs =>
    simp only [getline, Option.some.injEq, Prod.mk.injEq] at h
    obtain ⟨rfl, rfl⟩ := h
    refine ⟨getlines_cons_eq c cs, ?_⟩
    have h1 : ((c :: cs).dropWhile (fun x => x != '\n')).length ≤ (c :: cs).length :=
      (List.dropWhile_sublist _).length_le
    by_cases hc : c = '\n'
    · simp [hc, List.dropWhile_cons]
    · have h2 : ((c :: cs).dropWhile (fun x => x != '\n')).length ≤ cs.length := by
        rw [List.dropWhile_cons]
        simp only [bne_iff_ne, ne_eq, hc, not_false_eq_true, if_true]
        exact (List.dropWhile_sublist _).length_le
      simp only [List.length_drop, List.length_cons]
      omega

theorem getline_none (buf : List Char) (h : getline buf = none) : getlines buf = [] := by
  cases buf with
  | nil => rfl
  | cons c cs => simp [getline] at h

theorem numPushes_callbacks (hs : List History) : numPushes (hs.map Op.callback) = 0 := by
  induction hs with
  | nil => rfl
  | cons h hs ih => simpa [numPushes] using ih

theorem numPushes_translateOps (accepted : Nat → Bool) (workers : Nat → List History)
    (lines : List (List Char)) :
    ∀ c, numPushes (translateOps accepted workers lines c) = lines.length := by
  induction lines with
  | nil => intro c; rfl
  | cons l ls ih =>
    intro c
    simp only [translateOps, numPushes, numPushes_append, numPushes_callbacks, ih,
      List.length_cons]
    omega

theorem translateOps_append (accepted : Nat → Bool) (workers : Nat → List History)
    (a b : List (List Char)) :
    ∀ c, translateOps accepted workers (a ++ b) c
      = translateOps accepted workers a c ++ translateOps accepted workers b (c + a.length) := by
  induction a with
  | nil => intro c; simp [translateOps]
  | cons l ls ih =>
    intro c
    have := ih (c + 1)
    rw [show c + 1 + ls.length = c + (ls.length + 1) by omega] at this
    show Op.push c l 1 0 (accepted c) ::
        ((workers c).map Op.callback ++ translateOps accepted workers (ls ++ b) (c + 1)) = _
    rw [this]
    simp only [List.cons_append, translateOps, List.length_cons, List.append_assoc]

theorem translateOps_split (accepted : Nat → Bool) (workers : Nat → List History)
    (lines : List (List Char)) (i : Nat) (hi : i < lines.length) :
    translateOps accepted workers lines 0
      = translateOps accepted workers (lines.take i) 0
        ++ Op.push i (lines.getD i []) 1 0 (accepted i) :: opsAfter accepted workers lines i := by
  have h1 : lines = lines.take i ++ lines.getD i [] :: lines.drop (i + 1) := by
    rw [List.getD_eq_getElem _ _ hi]
    simp
  conv_lhs => rw [h1]
  rw [translateOps_append]
  simp only [translateOps, opsAfter, List.length_take, Nat.zero_add, Nat.min_eq_left (Nat.le_of_lt hi)]

theorem run_callbacks_rets (finish : Job → History → Bool → Vocab → Job) (hs : List History) :
    ∀ (s s1 : TranslationService) (r : List (Nat × Nat)),
      run finish s (hs.map Op.callback) = some (s1, r) → r = [] := by
  induction hs with
  | nil =>
    intro s s1 r h
    simp only [List.map_nil, run, Option.some.injEq, Prod.mk.injEq] at h
    exact h.2.symm
  | cons h hs ih =>
    intro s s1 r hrun
    rw [List.map_cons] at hrun
    obtain ⟨s2, r1, r2, h1, h2, rfl⟩ := (run_cons_iff _ _ _ _ _ _).1 hrun
    rw [((step_callback_eq _ _ _ _ _).1 h1).2, ih s2 s1 r2 h2]
    rfl

theorem submitLoop_iff (finish : Job → History → Bool → Vocab → Job)
    (accepted : Nat → Bool) (workers : Nat → List History) (fuel : Nat) :
    ∀ (s s1 : TranslationService) (buf : List Char) (c : Nat) (ft ftrans : List Nat),
      buf.length < fuel →
      (TranslationService.submitLoop finish accepted workers fuel s buf c ft = some (s1, ftrans) ↔
        ∃ rets, run finish s (translateOps accepted workers (getlines buf) c) = some (s1, rets) ∧
          ftrans = ft ++ rets.map Prod.snd) := by
  induction fuel with
  | zero => intro s s1 buf c ft ftrans h; omega
  | succ fuel ih =>
    intro s s1 buf c ft ftrans hlen
    cases hg : getline buf with
    | none =>
      rw [getline_none buf hg]
      simp only [submitLoop, hg, translateOps, run, Option.some.injEq, Prod.mk.injEq]
      constructor
      · rintro ⟨rfl, rfl⟩
        exact ⟨[], ⟨rfl, rfl⟩, by simp⟩
      · rintro ⟨rets, ⟨rfl, rfl⟩, rfl⟩
        exact ⟨rfl, by simp⟩
    | some lr =>
      obtain ⟨line, rest⟩ := lr
      obtain ⟨hgl, hrl⟩ := getline_spec buf line rest hg
      rw [hgl]
      simp only [submitLoop, hg, translateOps, Option.bind_eq_some, Prod.exists]
      constructor
      · rintro ⟨s2, id, fut, hpush, s3, r3, hcb, hloop⟩
        obtain ⟨rets, hrun, rfl⟩ := (ih s3 s1 rest (c + 1) _ ftrans (by omega)).1 hloop
        have hr3 := run_callbacks_rets finish _ _ _ _ hcb
        subst hr3
        refine ⟨(id, fut) :: rets, ?_, by simp⟩
        rw [run_cons_iff]
        refine ⟨s2, [(id, fut)], rets, (step_push_eq _ _ _ _ _ _ _ _ _).2 hpush, ?_, rfl⟩
        rw [run_append_iff]
        exact ⟨s3, [], rets, hcb, hrun, rfl⟩
      · rintro ⟨rets, hrun, rfl⟩
        obtain ⟨s2, r1, r2, hstep, hrun2, rfl⟩ := (run_cons_iff _ _ _ _ _ _).1 hrun
        obtain ⟨s3, r3, r4, hcb, hrun3, rfl⟩ := (run_append_iff _ _ _ _ _ _).1 hrun2
        have hr3 := run_callbacks_rets finish _ _ _ _ hcb
        subst hr3
        simp only [step, Option.map_eq_some', Prod.exists, Prod.mk.injEq] at hstep
        obtain ⟨s2b, id, fut, hpush, rfl, rfl⟩ := hstep
        refine ⟨s2b, id, fut, hpush, s3, [], hcb, ?_⟩
        rw [ih s3 s1 rest (c + 1) _ _ (by omega)]
        exact ⟨r4, hrun3, by simp⟩

theorem collect_eq_some_iff (s : TranslationService) (fs : List Nat) :
    ∀ js, TranslationService.collect s fs = some js ↔ fs.map s.future_get = js.map some := by
  induction fs with
  | nil =>
    intro js
    cases js <;> simp [collect]
  | cons f fs ih =>
    intro js
    simp only [collect, Option.bind_eq_some, Option.map_eq_some', List.map_cons]
    constructor
    · rintro ⟨j, hj, js2, hjs, rfl⟩
      rw [List.map_cons, hj, (ih js2).1 hjs]
    · intro h
      cases js with
      | nil => simp at h
      | cons j js2 =>
        simp only [List.map_cons, List.cons.injEq] at h
        exact ⟨j, h.1, js2, (ih js2).2 h.2, rfl⟩

/-! ## Claims on `push` and `callback_` -/

/-- C1: on a started service, in every sequence of calls with fewer than `2 ^ 64` calls
of `push`, every call runs to its end and the internal ids returned by the
pushes are `1, 2, ..., n` in call order, whatever the queue answered; hence
they are strictly increasing and pairwise distinct. -/
theorem push_ids_increasing (finish : Job → History → Bool → Vocab → Job)
    (o : Options) (s0 : TranslationService)
    (hstart : (TranslationService.init o).start.2 = some s0)
    (ops : List Op) (hn : numPushes ops < 2 ^ 64) :
    ∃ s rets, run finish s0 ops = some (s, rets) ∧
      rets.map Prod.fst = List.range' 1 (numPushes ops) ∧
      (rets.map Prod.fst).Pairwise (fun a b => a < b) ∧
      (rets.map Prod.fst).Nodup := by
  obtain ⟨hi, hc, _⟩ := start_spec o _ s0 (Prod.ext rfl hstart)
  obtain ⟨s, rets, hrun, _, _, hids, _⟩ := run_total finish ops s0 hi (by omega)
  rw [hc] at hids
  refine ⟨s, rets, hrun, hids, ?_, ?_⟩
  · rw [hids]
    exact List.pairwise_lt_range' 1 (numPushes ops)
  · rw [hids]
    exact List.nodup_range' 1 (numPushes ops)

theorem push_ids_increasing_witness :
    (TranslationService.init demoOptions).start.2 = some demoService ∧
    numPushes demoOps < 2 ^ 64 ∧
    ∃ s rets, run demoFinish demoService demoOps = some (s, rets) ∧
      rets.map Prod.fst = List.range' 1 (numPushes demoOps) ∧
      (rets.map Prod.fst).Pairwise (fun a b => a < b) ∧
      (rets.map Prod.fst).Nodup :=
  ⟨by decide, by decide,
    push_ids_increasing demoFinish demoOptions demoService (by decide) demoOps (by decide)⟩

/-- C2: when the queue rejects the job, `push` returns the new internal id together
with a future that already holds that job, the job's `error` is set to
"Could not push to Queue.", and `scheduled_jobs_` is what it was before. -/
theorem push_rejected_handle_fulfilled (s : TranslationService) (q : QueuedInput)
    (hq : s.jq_ = some q) (ejid : Nat) (input : List Char) (nbest priority : Nat) :
    ∃ s1 fut job, s.push ejid input nbest priority false
        = some (s1, ((s.job_ctr_ + 1) % 2 ^ 64, fut)) ∧
      s1.future_get fut = some job ∧
      job = { Job.create ((s.job_ctr_ + 1) % 2 ^ 64) ejid input nbest priority with
              error := some "Could not push to Queue." } ∧
      job.internal_id = (s.job_ctr_ + 1) % 2 ^ 64 ∧
      job.error = some "Could not push to Queue." ∧
      s1.scheduled_jobs_ = s.scheduled_jobs_ ∧
      s1.scheduled_jobs_.find ((s.job_ctr_ + 1) % 2 ^ 64)
        = s.scheduled_jobs_.find ((s.job_ctr_ + 1) % 2 ^ 64) := by
  refine ⟨_, _, _, push_rejected s q hq ejid input nbest priority, ?_, rfl, rfl, rfl, rfl, rfl⟩
  simp [future_get]

theorem push_rejected_handle_fulfilled_witness :
    demoService.jq_ = some { jobs := [] } ∧
    ∃ s1 fut job, demoService.push 8 ['b'] 1 0 false
        = some (s1, ((demoService.job_ctr_ + 1) % 2 ^ 64, fut)) ∧
      s1.future_get fut = some job ∧
      job = { Job.create ((demoService.job_ctr_ + 1) % 2 ^ 64) 8 ['b'] 1 0 with
              error := some "Could not push to Queue." } ∧
      job.internal_id = (demoService.job_ctr_ + 1) % 2 ^ 64 ∧
      job.error = some "Could not push to Queue." ∧
      s1.scheduled_jobs_ = demoService.scheduled_jobs_ ∧
      s1.scheduled_jobs_.find ((demoService.job_ctr_ + 1) % 2 ^ 64)
        = demoService.scheduled_jobs_.find ((demoService.job_ctr_ + 1) % 2 ^ 64) :=
  ⟨rfl, push_rejected_handle_fulfilled demoService { jobs := [] } rfl 8 ['b'] 1 0⟩

theorem callback_registry (finish : Job → History → Bool → Vocab → Job)
    (s s1 : TranslationService) (h : History) (hcb : s.callback_ finish h = some s1) :
    (s.scheduled_jobs_.find h.lineNum = none ∧ s1 = s) ∨
      s1.scheduled_jobs_ = s.scheduled_jobs_.erase h.lineNum := by
  cases hf : s.scheduled_jobs_.find h.lineNum with
  | none =>
    rw [callback_absent finish s h hf] at hcb
    exact Or.inl ⟨rfl, (Option.some.inj hcb).symm⟩
  | some e =>
    right
    simp only [callback_, hf] at hcb
    split at hcb
    · simp only [set_value] at hcb
      split at hcb
      · split at hcb
        · simp only [Option.some.injEq] at hcb
          rw [← hcb]
        · exact Option.noConfusion hcb
      · exact Option.noConfusion hcb
    · exact Option.noConfusion hcb

theorem Registry.find_erase_self (r : Registry) (hnd : r.keys.Nodup) (k : Nat) :
    (r.erase k).find k = none := by
  rw [Registry.find_eq_none_iff]
  intro hmem
  obtain ⟨x, hx, hxk⟩ := List.mem_map.1 hmem
  exact ((Registry.mem_erase_iff r hnd k x).1 hx).2 hxk

/-- C3: a `callback_` whose line number is not a key of `scheduled_jobs_` returns and
leaves the whole service as it was: registry, shared states of the futures
and the record of `set_value` calls. In particular, after a `callback_` that
returned, another `callback_` with the same line number changes nothing. -/
theorem callback_unknown_id_noop (finish : Job → History → Bool → Vocab → Job)
    (s : TranslationService) (h : History) :
    (s.scheduled_jobs_.find h.lineNum = none → s.callback_ finish h = some s) ∧
    (s.scheduled_jobs_.keys.Nodup → ∀ s1, s.callback_ finish h = some s1 →
      ∀ h2 : History, h2.lineNum = h.lineNum → s1.callback_ finish h2 = some s1) := by
  refine ⟨callback_absent finish s h, ?_⟩
  intro hnd s1 hcb h2 hk
  apply callback_absent
  rw [hk]
  rcases callback_registry finish s s1 h hcb with ⟨hnone, rfl⟩ | herase
  · exact hnone
  · rw [herase]
    exact Registry.find_erase_self _ hnd _

theorem callback_unknown_id_noop_witness :
    (demoService.scheduled_jobs_.find 5 = none ∧
      demoService.callback_ demoFinish { lineNum := 5, text := ['x'] } = some demoService) ∧
    (demoPending.scheduled_jobs_.keys.Nodup ∧
      demoPending.callback_ demoFinish { lineNum := 1, text := ['x'] } = some demoDone ∧
      demoDone.callback_ demoFinish { lineNum := 1, text := ['y'] } = some demoDone) :=
  ⟨⟨by decide,
      (callback_unknown_id_noop demoFinish demoService { lineNum := 5, text := ['x'] }).1
        (by decide)⟩,
    ⟨by decide, by decide,
      (callback_unknown_id_noop demoFinish demoPending { lineNum := 1, text := ['x'] }).2
        (by decide) demoDone (by decide) { lineNum := 1, text := ['y'] } rfl⟩⟩

/-- C4: on a started service, in every sequence of calls with fewer than `2 ^ 64` pushes,
no promise gets more than one `set_value`; and when a push accepted by the
queue is followed, after calls `mid` without a `callback_` for its id, by a
`callback_` with its id, then the future of that push is still pending before
that `callback_`, that `callback_` fulfils it with the job finished with its
history, and at the end of the sequence this is the only `set_value` on that
promise and the value of the future. -/
theorem handle_fulfilled_once (finish : Job → History → Bool → Vocab → Job)
    (o : Options) (s0 : TranslationService)
    (hstart : (TranslationService.init o).start.2 = some s0)
    (ops : List Op) (hn : numPushes ops < 2 ^ 64) :
    ∃ s rets, run finish s0 ops = some (s, rets) ∧
      (∀ p, (s.fulfilled.filter (fun x => x.1 == p)).length ≤ 1) ∧
      ∀ pre ejid input nbest priority mid h post,
        ops = pre ++ Op.push ejid input nbest priority true :: (mid ++ Op.callback h :: post) →
        h.lineNum = numPushes pre + 1 → NoCallback (numPushes pre + 1) mid →
        ∃ s1 r1 s2 fut s3 r3 s4 r5 v,
          run finish s0 pre = some (s1, r1) ∧
          s1.push ejid input nbest priority true = some (s2, (numPushes pre + 1, fut)) ∧
          run finish s2 mid = some (s3, r3) ∧
          (∀ x ∈ s3.fulfilled, x.1 ≠ fut) ∧
          s0.vocabs_.getLast? = some (some v) ∧
          s3.callback_ finish h = some s4 ∧
          s4.fulfilled = s3.fulfilled ++
            [(fut, finish (Job.create (numPushes pre + 1) ejid input nbest priority) h
                    o.right_left v)] ∧
          run finish s4 post = some (s, r5) ∧
          s.fulfilled.filter (fun x => x.1 == fut) =
            [(fut, finish (Job.create (numPushes pre + 1) ejid input nbest priority) h
                    o.right_left v)] ∧
          s.future_get fut =
            some (finish (Job.create (numPushes pre + 1) ejid input nbest priority) h
                    o.right_left v) := by
  obtain ⟨hi, hc, _, _, _, ho, _⟩ := start_spec o _ s0 (Prod.ext rfl hstart)
  obtain ⟨s, rets, hrun, his, _⟩ := run_total finish ops s0 hi (by omega)
  refine ⟨s, rets, hrun, filter_fst_length_le_one _ his.logNodup, ?_⟩
  intro pre ejid input nbest priority mid h post hops hk hno
  subst hops
  rw [numPushes_append] at hn
  simp only [numPushes] at hn
  obtain ⟨s1, r1, r2, hrun1, hrun2, rfl⟩ := (run_append_iff finish pre _ s0 s rets).1 hrun
  obtain ⟨s2, r3, r4, hstep, hrun3, rfl⟩ := (run_cons_iff _ _ _ _ _ _).1 hrun2
  obtain ⟨hi1, hc1, _, hv1, ho1, _⟩ := run_inv finish pre s0 s1 r1 hi (by omega) hrun1
  rw [hc, Nat.zero_add] at hc1
  obtain ⟨s2b, hstep2, hi2, hc2, hreg2, _, hv2, ho2⟩ :=
    step_accepted finish hi1 (by omega) ejid input nbest priority
  rw [hstep] at hstep2
  simp only [Option.some.injEq, Prod.mk.injEq] at hstep2
  obtain ⟨rfl, rfl⟩ := hstep2
  have hpush := (step_push_eq _ _ _ _ _ _ _ _ _).1 hstep
  rw [hc1] at hpush hreg2
  obtain ⟨v, hv⟩ := hi.lastVocab
  have hmem : (numPushes pre + 1,
      ({ first := some (Job.create (numPushes pre + 1) ejid input nbest priority),
         second := s1.shared.length } : JobEntry)) ∈ s2.scheduled_jobs_ := by
    rw [hreg2]
    simp
  obtain ⟨s3, r5, s4, r6, h1, _, h3, h4, h5, h6, h7, h8⟩ :=
    run_completion finish s2 s hi2 (numPushes pre + 1) _ _ v hmem rfl
      (by rw [hv2, hv1]; exact hv) mid post h r4 hk hno
      (by rw [hc2, hc1]; omega) hrun3
  rw [ho2, ho1, ho] at h5 h7 h8
  exact ⟨s1, r1, s2, s1.shared.length, s3, r5, s4, r6, v, hrun1, hpush, h1, h3, hv, h4, h5, h6,
    h7, h8⟩

/-- C5: on a started service, after every sequence of calls with fewer than
`2 ^ 64` pushes, `k` is a key of `scheduled_jobs_` exactly when some push that
the queue accepted returned `k` and no `callback_` for `k` ran after it; the
entry of `k` then holds the job made by that push. -/
theorem registry_invariant (finish : Job → History → Bool → Vocab → Job)
    (o : Options) (s0 : TranslationService)
    (hstart : (TranslationService.init o).start.2 = some s0)
    (ops : List Op) (hn : numPushes ops < 2 ^ 64) :
    ∃ s rets, run finish s0 ops = some (s, rets) ∧
      (∀ k, k ∈ s.scheduled_jobs_.keys ↔ ∃ e, Live finish s0 ops k e) ∧
      (∀ k e, Live finish s0 ops k e → s.scheduled_jobs_.find k = some e) ∧
      (∀ k e, s.scheduled_jobs_.find k = some e →
        ∃ ejid input nbest priority,
          e.first = some (Job.create k ejid input nbest priority)) := by
  obtain ⟨hi, hc, hreg, _⟩ := start_spec o _ s0 (Prod.ext rfl hstart)
  obtain ⟨s, rets, hrun, his, _⟩ := run_total finish ops s0 hi (by omega)
  have hchar : ∀ k e, (k, e) ∈ s.scheduled_jobs_ ↔ Live finish s0 ops k e := by
    intro k e
    rw [run_registry finish ops s0 s rets hi (by omega) hrun k e, hreg]
    simp
  refine ⟨s, rets, hrun, ?_, ?_, ?_⟩
  · intro k
    constructor
    · intro hk
      obtain ⟨x, hx, rfl⟩ := List.mem_map.1 hk
      exact ⟨x.2, (hchar x.1 x.2).1 hx⟩
    · rintro ⟨e, he⟩
      exact List.mem_map_of_mem Prod.fst ((hchar k e).2 he)
  · intro k e he
    exact (Registry.find_eq_some_iff _ his.keysNodup k e).2 ((hchar k e).2 he)
  · intro k e he
    have := (hchar k e).1 ((Registry.find_eq_some_iff _ his.keysNodup k e).1 he)
    obtain ⟨_, _, ejid, input, nbest, priority, _, _, _, _, _, _, _, rfl, _⟩ := this
    exact ⟨ejid, input, nbest, priority, rfl⟩

theorem handle_fulfilled_once_witness :
    (TranslationService.init demoOptions).start.2 = some demoService ∧
    numPushes demoOps < 2 ^ 64 ∧
    ∃ s rets, run demoFinish demoService demoOps = some (s, rets) ∧
      (∀ p, (s.fulfilled.filter (fun x => x.1 == p)).length ≤ 1) ∧
      ∀ pre ejid input nbest priority mid h post,
        demoOps = pre ++ Op.push ejid input nbest priority true :: (mid ++ Op.callback h :: post) →
        h.lineNum = numPushes pre + 1 → NoCallback (numPushes pre + 1) mid →
        ∃ s1 r1 s2 fut s3 r3 s4 r5 v,
          run demoFinish demoService pre = some (s1, r1) ∧
          s1.push ejid input nbest priority true = some (s2, (numPushes pre + 1, fut)) ∧
          run demoFinish s2 mid = some (s3, r3) ∧
          (∀ x ∈ s3.fulfilled, x.1 ≠ fut) ∧
          demoService.vocabs_.getLast? = some (some v) ∧
          s3.callback_ demoFinish h = some s4 ∧
          s4.fulfilled = s3.fulfilled ++
            [(fut, demoFinish (Job.create (numPushes pre + 1) ejid input nbest priority) h
                    demoOptions.right_left v)] ∧
          run demoFinish s4 post = some (s, r5) ∧
          s.fulfilled.filter (fun x => x.1 == fut) =
            [(fut, demoFinish (Job.create (numPushes pre + 1) ejid input nbest priority) h
                    demoOptions.right_left v)] ∧
          s.future_get fut =
            some (demoFinish (Job.create (numPushes pre + 1) ejid input nbest priority) h
                    demoOptions.right_left v) :=
  ⟨by decide, by decide,
    handle_fulfilled_once demoFinish demoOptions demoService (by decide) demoOps (by decide)⟩

theorem registry_invariant_witness :
    (TranslationService.init demoOptions).start.2 = some demoService ∧
    numPushes demoOps2 < 2 ^ 64 ∧
    ∃ s rets, run demoFinish demoService demoOps2 = some (s, rets) ∧
      (∀ k, k ∈ s.scheduled_jobs_.keys ↔ ∃ e, Live demoFinish demoService demoOps2 k e) ∧
      (∀ k e, Live demoFinish demoService demoOps2 k e → s.scheduled_jobs_.find k = some e) ∧
      (∀ k e, s.scheduled_jobs_.find k = some e →
        ∃ ejid input nbest priority,
          e.first = some (Job.create k ejid input nbest priority)) :=
  ⟨by decide, by decide,
    registry_invariant demoFinish demoOptions demoService (by decide) demoOps2 (by decide)⟩

/-! ## Claims on `vocab` and `loadVocabularies` -/

theorem toSizeT_of_nonneg (i : Int) (h0 : 0 ≤ i) (h1 : i < 2 ^ 64) :
    TranslationService.toSizeT i = i.toNat := by
  unfold TranslationService.toSizeT
  rw [Int.emod_eq_of_lt h0 h1]

theorem toSizeT_of_neg (i : Int) (h0 : i < 0) (h1 : -2 ^ 64 ≤ i) :
    TranslationService.toSizeT i = (i + 2 ^ 64).toNat := by
  unfold TranslationService.toSizeT
  congr 1
  rw [← Int.add_emod_self]
  exact Int.emod_eq_of_lt (by omega) (by omega)

theorem vocab_nonneg (s : TranslationService) (i : Int) (h0 : 0 ≤ i) (h1 : i < 2 ^ 31) :
    s.vocab i = s.vocabs_[i.toNat]? := by
  unfold TranslationService.vocab
  simp only [not_lt.2 h0, if_false]
  rw [toSizeT_of_nonneg i h0 (by omega)]

theorem vocab_neg (s : TranslationService) (i : Int) (hn : s.vocabs_.length < 2 ^ 31)
    (h0 : i < 0) (h1 : -2 ^ 31 ≤ i) :
    s.vocab i = if 0 ≤ i + s.vocabs_.length then s.vocabs_[(i + s.vocabs_.length).toNat]?
      else none := by
  unfold TranslationService.vocab
  simp only [h0, if_true]
  rw [toSizeT_of_neg i h0 (by omega)]
  by_cases hp : 0 ≤ i + s.vocabs_.length
  · have e1 : ((i + 2 ^ 64).toNat + s.vocabs_.length) % 2 ^ 64 = (i + s.vocabs_.length).toNat := by
      omega
    have e2 : TranslationService.toInt32 (i + s.vocabs_.length).toNat = i + s.vocabs_.length := by
      unfold TranslationService.toInt32
      have : (i + s.vocabs_.length).toNat % 2 ^ 32 = (i + s.vocabs_.length).toNat := by omega
      rw [this]
      have : (i + s.vocabs_.length).toNat < 2 ^ 31 := by omega
      simp only [this, if_true]
      omega
    rw [e1, e2, toSizeT_of_nonneg _ hp (by omega)]
    simp [hp]
  · have e1 : ((i + 2 ^ 64).toNat + s.vocabs_.length) % 2 ^ 64
        = (i + s.vocabs_.length + 2 ^ 64).toNat := by omega
    have e2 : TranslationService.toInt32 (i + s.vocabs_.length + 2 ^ 64).toNat
        = i + s.vocabs_.length := by
      unfold TranslationService.toInt32
      have h3 : (i + s.vocabs_.length + 2 ^ 64).toNat % 2 ^ 32
          = (i + s.vocabs_.length + 2 ^ 32).toNat := by omega
      rw [h3]
      have : ¬ (i + s.vocabs_.length + 2 ^ 32).toNat < 2 ^ 31 := by omega
      simp only [this, if_false]
      omega
    rw [e1, e2, toSizeT_of_neg _ (by omega) (by omega)]
    simp only [hp, if_false]
    exact List.getElem?_eq_none (by omega)

/-- C8: for a service with `n` vocabularies (`n` below `2 ^ 31`) and an `int` `i`,
`vocab(i)` returns the vocabulary at position `i` when `0 ≤ i < n`, the one at
position `n + i` when `-n ≤ i < 0`, and throws `std::out_of_range` for every
other `i`. -/
theorem vocab_index (s : TranslationService) (i : Int) (hn : s.vocabs_.length < 2 ^ 31)
    (hlo : -2 ^ 31 ≤ i) (hhi : i < 2 ^ 31) :
    (0 ≤ i ∧ i < s.vocabs_.length →
      ∃ v, s.vocabs_[i.toNat]? = some v ∧ s.vocab i = some v) ∧
    (-(s.vocabs_.length : Int) ≤ i ∧ i < 0 →
      ∃ v, s.vocabs_[(s.vocabs_.length + i).toNat]? = some v ∧ s.vocab i = some v) ∧
    (i < -(s.vocabs_.length : Int) ∨ (s.vocabs_.length : Int) ≤ i → s.vocab i = none) := by
  refine ⟨?_, ?_, ?_⟩
  · rintro ⟨h0, h1⟩
    have hlt : i.toNat < s.vocabs_.length := by omega
    exact ⟨s.vocabs_[i.toNat], List.getElem?_eq_getElem hlt,
      by rw [vocab_nonneg s i h0 hhi, List.getElem?_eq_getElem hlt]⟩
  · rintro ⟨h0, h1⟩
    have hlt : (s.vocabs_.length + i).toNat < s.vocabs_.length := by omega
    refine ⟨s.vocabs_[(s.vocabs_.length + i).toNat], List.getElem?_eq_getElem hlt, ?_⟩
    rw [vocab_neg s i hn h1 hlo, if_pos (by omega), Int.add_comm, List.getElem?_eq_getElem hlt]
  · rintro (h | h)
    · rw [vocab_neg s i hn (by omega) hlo, if_neg (by omega)]
    · rw [vocab_nonneg s i (by omega) hhi]
      exact List.getElem?_eq_none (by omega)

theorem vocab_index_witness :
    demoService.vocabs_.length < 2 ^ 31 ∧ (-2 ^ 31 ≤ (-1 : Int)) ∧ ((-1 : Int) < 2 ^ 31) ∧
    ((0 ≤ (-1 : Int) ∧ (-1 : Int) < demoService.vocabs_.length →
      ∃ v, demoService.vocabs_[(-1 : Int).toNat]? = some v ∧ demoService.vocab (-1) = some v) ∧
    (-(demoService.vocabs_.length : Int) ≤ -1 ∧ (-1 : Int) < 0 →
      ∃ v, demoService.vocabs_[(demoService.vocabs_.length + (-1 : Int)).toNat]? = some v ∧
        demoService.vocab (-1) = some v) ∧
    ((-1 : Int) < -(demoService.vocabs_.length : Int) ∨ (demoService.vocabs_.length : Int) ≤ -1 →
      demoService.vocab (-1) = none)) :=
  ⟨by decide, by decide, by decide, vocab_index demoService (-1) (by decide) (by decide) (by decide)⟩

theorem loadedAt_map (l : List (String × Ptr Vocab)) (g : String × Ptr Vocab → Nat) (p : String) :
    loadedAt (l.map fun e => Effect.loadVocab e.1 (g e)) p
      = (l.filter (fun e => e.1 == p)).map g := by
  induction l with
  | nil => rfl
  | cons a l ih =>
    simp only [loadedAt] at ih
    by_cases h : a.1 = p
    · simp [loadedAt, List.filterMap_cons, List.filter_cons, h, ih]
    · simp [loadedAt, List.filterMap_cons, List.filter_cons, h, ih]

/-- C9: for at least two vocabulary paths `loadVocabularies` returns a list of the
same length whose slot `i` holds a vocabulary loaded from `paths[i]`; two slots
hold the same object exactly when their paths are equal; and every path of the
list is loaded exactly once, with the index of its first occurrence. -/
theorem loadVocabularies_shares_instances (o : Options) (h : 2 ≤ o.vocabs.length) :
    ∃ trace vs, loadVocabularies o = (trace, some vs) ∧
      vs.length = o.vocabs.length ∧
      (∀ i, i < o.vocabs.length →
        ∃ v p, vs[i]? = some (some v) ∧ o.vocabs[i]? = some p ∧ v.file = some p) ∧
      (∀ (i j : Nat) (v w : Vocab), vs[i]? = some (some v) → vs[j]? = some (some w) →
        (o.vocabs[i]? = o.vocabs[j]? ↔ v.addr = w.addr) ∧ (v.addr = w.addr → v = w)) ∧
      (∀ p, p ∈ o.vocabs →
        ∃ b, loadedAt trace p = [b] ∧ o.vocabs[b]? = some p ∧
          ∀ i, i < b → o.vocabs[i]? ≠ some p) ∧
      (∀ p, p ∉ o.vocabs → loadedAt trace p = []) ∧
      (∀ e, e ∈ trace → ∃ p b, e = Effect.loadVocab p b) := by
  obtain ⟨st, hst, hl⟩ := loadVocabularies_spec o h
  have hkeys : ∀ p, p ∈ st.vmap.map Prod.fst ↔ p ∈ o.vocabs := by
    intro p
    rw [hst.keys, List.take_length]
  have hslot : ∀ (i : Nat) (v : Vocab), st.vocabs[i]? = some (some v) →
      ∃ e ∈ st.vmap, o.vocabs[i]? = some e.1 ∧ e.2 = some v := by
    intro i v hv
    have hi : i < o.vocabs.length := by
      rw [← hst.len]
      exact (List.getElem?_eq_some_iff.1 hv).1
    obtain ⟨e, he, hp, hv2⟩ := hst.filled i hi
    rw [hv] at hv2
    exact ⟨e, he, hp, (Option.some.inj hv2).symm⟩
  refine ⟨st.trace, st.vocabs, hl, hst.len, ?_, ?_, ?_, ?_, ?_⟩
  · intro i hi
    obtain ⟨e, he, hp, hv⟩ := hst.filled i hi
    obtain ⟨v, h1, h2, _⟩ := hst.entry e he
    exact ⟨v, e.1, by rw [hv, h1], hp, h2⟩
  · intro i j v w hv hw
    obtain ⟨e, he, hp, hev⟩ := hslot i v hv
    obtain ⟨e2, he2, hp2, hew⟩ := hslot j w hw
    have hinj : v.addr = w.addr → e = e2 := hst.addrInj e he e2 he2 v w hev hew
    refine ⟨⟨?_, ?_⟩, ?_⟩
    · intro hpp
      rw [hp, hp2] at hpp
      have hee := List.inj_on_of_nodup_map hst.keysNodup he he2 (Option.some.inj hpp)
      subst hee
      rw [hev] at hew
      rw [Option.some.inj hew]
    · intro hadd
      rw [hp, hp2, hinj hadd]
    · intro hadd
      have hee := hinj hadd
      subst hee
      rw [hev] at hew
      exact Option.some.inj hew
  · intro p hp
    obtain ⟨e, he, rfl⟩ := List.mem_map.1 ((hkeys p).2 hp)
    obtain ⟨v, h1, _, h3, h4, _⟩ := hst.entry e he
    refine ⟨v.batchIndex, ?_, h3, h4⟩
    rw [hst.trace, loadedAt_map, filter_fst_eq_singleton _ hst.keysNodup e he]
    simp [h1]
  · intro p hp
    rw [hst.trace, loadedAt_map]
    have : st.vmap.filter (fun e => e.1 == p) = [] := by
      rw [List.filter_eq_nil_iff]
      intro e he hep
      simp only [beq_iff_eq] at hep
      exact hp ((hkeys p).1 (hep ▸ List.mem_map_of_mem Prod.fst he))
    rw [this]
    rfl
  · intro e he
    rw [hst.trace] at he
    obtain ⟨x, _, rfl⟩ := List.mem_map.1 he
    exact ⟨_, _, rfl⟩

theorem loadVocabularies_shares_instances_witness :
    2 ≤ demoSharedOptions.vocabs.length ∧
    loadVocabularies demoSharedOptions
      = ([Effect.loadVocab "a.spm" 0, Effect.loadVocab "b.spm" 1],
         some [some { addr := 0, batchIndex := 0, file := some "a.spm" },
               some { addr := 1, batchIndex := 1, file := some "b.spm" },
               some { addr := 0, batchIndex := 0, file := some "a.spm" }]) ∧
    ∃ trace vs, loadVocabularies demoSharedOptions = (trace, some vs) ∧
      vs.length = demoSharedOptions.vocabs.length ∧
      (∀ i, i < demoSharedOptions.vocabs.length →
        ∃ v p, vs[i]? = some (some v) ∧ demoSharedOptions.vocabs[i]? = some p ∧
          v.file = some p) ∧
      (∀ (i j : Nat) (v w : Vocab), vs[i]? = some (some v) → vs[j]? = some (some w) →
        (demoSharedOptions.vocabs[i]? = demoSharedOptions.vocabs[j]? ↔ v.addr = w.addr) ∧
        (v.addr = w.addr → v = w)) ∧
      (∀ p, p ∈ demoSharedOptions.vocabs →
        ∃ b, loadedAt trace p = [b] ∧ demoSharedOptions.vocabs[b]? = some p ∧
          ∀ i, i < b → demoSharedOptions.vocabs[i]? ≠ some p) ∧
      (∀ p, p ∉ demoSharedOptions.vocabs → loadedAt trace p = []) ∧
      (∀ e, e ∈ trace → ∃ p b, e = Effect.loadVocab p b) :=
  ⟨by decide, by decide, loadVocabularies_shares_instances demoSharedOptions (by decide)⟩

/-- C10: `loadVocabularies` aborts exactly when `vocabs` has fewer than two entries,
and then it has loaded nothing; with fewer than two entries `start()` fails
and has created neither a queue nor a worker (it has done nothing at all
to the outside world). -/
theorem loadVocabularies_aborts_iff (o : Options) :
    ((loadVocabularies o).2 = none ↔ o.vocabs.length < 2) ∧
    ((loadVocabularies o).2 = none → (loadVocabularies o).1 = []) ∧
    (o.vocabs.length < 2 → (TranslationService.init o).start = ([], none)) ∧
    ((TranslationService.init o).start.2 = none ↔ o.vocabs.length < 2) := by
  have hiff : (loadVocabularies o).2 = none ↔ o.vocabs.length < 2 := by
    constructor
    · intro hnone
      by_contra hlt
      obtain ⟨st, _, hl⟩ := loadVocabularies_spec o (Nat.le_of_not_lt hlt)
      rw [hl] at hnone
      exact Option.noConfusion hnone
    · intro hlt
      rw [loadVocabularies_abort o hlt]
  refine ⟨hiff, ?_, start_abort o, ?_⟩
  · intro hnone
    rw [loadVocabularies_abort o (hiff.1 hnone)]
  · constructor
    · intro hnone
      by_contra hlt
      obtain ⟨st, _, hl⟩ := loadVocabularies_spec o (Nat.le_of_not_lt hlt)
      obtain ⟨sl, h2⟩ := start_ok o _ _ hl
      rw [h2] at hnone
      exact Option.noConfusion hnone
    · intro hlt
      rw [start_abort o hlt]

/-! ## Claims on `translate` -/

theorem run_rets_length (finish : Job → History → Bool → Vocab → Job) (ops : List Op) :
    ∀ (s s1 : TranslationService) (rets : List (Nat × Nat)),
      run finish s ops = some (s1, rets) → rets.length = numPushes ops := by
  induction ops with
  | nil =>
    intro s s1 rets h
    simp only [run, Option.some.injEq, Prod.mk.injEq] at h
    rw [← h.2]
    rfl
  | cons op ops ih =>
    intro s s1 rets h
    obtain ⟨s2, r1, r2, h1, h2, rfl⟩ := (run_cons_iff _ _ _ _ _ _).1 h
    have := ih s2 s1 r2 h2
    cases op with
    | push a b c d acc =>
      simp only [step, Option.map_eq_some', Prod.exists, Prod.mk.injEq] at h1
      obtain ⟨_, _, _, _, _, rfl⟩ := h1
      simp [numPushes, this]
    | callback hh =>
      rw [((step_callback_eq _ _ _ _ _).1 h1).2]
      simp [numPushes, this]

theorem getlines_ne_nil (src : List Char) (h : src ≠ []) : getlines src ≠ [] := by
  cases src with
  | nil => exact absurd rfl h
  | cons c cs =>
    rw [getlines_cons_eq]
    exact List.cons_ne_nil _ _

theorem obuf_concat (jobs : List Job) (j : Job) :
    TranslationService.obuf (jobs ++ [j])
      = TranslationService.obuf jobs ++ (j.translation ++ ['\n']) := by
  simp [obuf]

theorem obuf_getLast (jobs : List Job) (h : jobs ≠ []) :
    (TranslationService.obuf jobs).getLast? = some '\n' := by
  obtain ⟨js, j, rfl⟩ := (List.eq_nil_or_concat jobs).resolve_left h
  rw [List.concat_eq_append, obuf_concat, ← List.append_assoc, List.getLast?_append]
  simp

theorem exists_map_some {α : Type} (l : List (Option α))
    (h : ∀ x, x ∈ l → ∃ a, x = some a) : ∃ js : List α, l = js.map some := by
  induction l with
  | nil => exact ⟨[], rfl⟩
  | cons x l ih =>
    obtain ⟨a, rfl⟩ := h x (List.mem_cons_self _ _)
    obtain ⟨js, rfl⟩ := ih (fun y hy => h y (List.mem_cons_of_mem _ hy))
    exact ⟨a :: js, rfl⟩

theorem translate_eq (finish : Job → History → Bool → Vocab → Job)
    (accepted : Nat → Bool) (workers : Nat → List History)
    (s s1 : TranslationService) (src : List Char) (ftrans : List Nat) (jobs : List Job)
    (hsub : TranslationService.submitLoop finish accepted workers (src.length + 1) s src 0 []
      = some (s1, ftrans))
    (hcol : TranslationService.collect s1 ftrans = some jobs)
    (hne : src ≠ [] → jobs ≠ []) :
    TranslationService.translate finish accepted workers s src =
      some (s1, if src ≠ [] ∧ src.getLast? ≠ some '\n'
        then ((jobs.map fun j => j.translation ++ ['\n']).flatten).dropLast
        else (jobs.map fun j => j.translation ++ ['\n']).flatten) := by
  simp only [TranslationService.translate, hsub, Option.some_bind, hcol,
    TranslationService.adjust, TranslationService.pop_back]
  by_cases hc : src ≠ [] ∧ src.getLast? ≠ some '\n'
  · have hj := obuf_getLast jobs (hne hc.1)
    have hob : TranslationService.obuf jobs ≠ [] := by
      intro h0
      rw [h0] at hj
      simp at hj
    simp only [hob, if_false]
    rw [if_pos hc, if_pos hc]
    rfl
  · rw [if_neg hc, if_neg hc]
    rfl

/-- C6: let `translate` be called on a service reached from `start()` by any calls,
with lines `l_0 .. l_(n-1)` of the text, and let the workers deliver a history
for every job that the queue accepted. Then `translate` returns; its first
loop has pushed `n` jobs, job `i` being made from line `i` with external id `i`;
the job read from future `i` is the job of line `i`, finished with the first
history delivered for its id, wherever in the sequence of deliveries that
history comes; and the result is the concatenation, for `i = 0 .. n-1`, of the
translation of job `i` and a newline, without the last newline when the text
is not empty and does not end in a newline. -/
theorem translate_order_preserving (finish : Job → History → Bool → Vocab → Job)
    (o : Options) (s0 : TranslationService)
    (hstart : (TranslationService.init o).start.2 = some s0)
    (ops0 : List Op) (s : TranslationService) (r0 : List (Nat × Nat))
    (hrun0 : run finish s0 ops0 = some (s, r0))
    (accepted : Nat → Bool) (workers : Nat → List History) (src : List Char)
    (hbound : numPushes ops0 + (getlines src).length < 2 ^ 64)
    (hdone : ∀ i, i < (getlines src).length → accepted i = true →
      (firstCallback (s.job_ctr_ + i + 1)
        (opsAfter accepted workers (getlines src) i)).isSome = true) :
    ∃ s1 ftrans jobs v,
      s.vocabs_.getLast? = some (some v) ∧
      TranslationService.submitLoop finish accepted workers (src.length + 1) s src 0 []
        = some (s1, ftrans) ∧
      ftrans.length = (getlines src).length ∧
      s1.job_ctr_ = s.job_ctr_ + (getlines src).length ∧
      TranslationService.collect s1 ftrans = some jobs ∧
      jobs.length = (getlines src).length ∧
      (∀ i, i < (getlines src).length →
        jobs[i]? = lineJob finish s v accepted workers (getlines src) i) ∧
      TranslationService.translate finish accepted workers s src =
        some (s1, if src ≠ [] ∧ src.getLast? ≠ some '\n'
          then ((jobs.map fun j => j.translation ++ ['\n']).flatten).dropLast
          else (jobs.map fun j => j.translation ++ ['\n']).flatten) := by
  obtain ⟨hi0, hc0, _⟩ := start_spec o _ s0 (Prod.ext rfl hstart)
  obtain ⟨hi, hc, _, _, _, _⟩ := run_inv finish ops0 s0 s r0 hi0 (by omega) hrun0
  rw [hc0, Nat.zero_add] at hc
  obtain ⟨v, hv⟩ := hi.lastVocab
  have hnum := numPushes_translateOps accepted workers (getlines src) 0
  obtain ⟨s1, rets, hrun, hi1, hc1, hids, _⟩ :=
    run_total finish (translateOps accepted workers (getlines src) 0) s hi (by omega)
  rw [hnum] at hc1 hids
  have hlen : rets.length = (getlines src).length := by
    rw [run_rets_length finish _ s s1 rets hrun, hnum]
  have hsub := (submitLoop_iff finish accepted workers (src.length + 1) s s1 src 0 []
    (rets.map Prod.snd) (Nat.lt_succ_self _)).2 ⟨rets, hrun, by simp⟩
  have hfut : ∀ i, i < (getlines src).length →
      ((rets.map Prod.snd).map s1.future_get)[i]?
        = some (lineJob finish s v accepted workers (getlines src) i) ∧
      ∃ a, lineJob finish s v accepted workers (getlines src) i = some a := by
    intro i hil
    have hsplit := translateOps_split accepted workers (getlines src) i hil
    have hpre : numPushes (translateOps accepted workers ((getlines src).take i) 0) = i := by
      rw [numPushes_translateOps, List.length_take, Nat.min_eq_left (Nat.le_of_lt hil)]
    rw [hsplit] at hrun
    obtain ⟨fut, hget, hrej, hacc⟩ := run_future finish s s1 hi v hv _ _ i
      ((getlines src).getD i []) 1 0 (accepted i) rets
      (by rw [← hsplit, hnum]; omega) hrun
    rw [hpre] at hget hrej hacc
    have hidx : ((rets.map Prod.snd).map s1.future_get)[i]? = some (s1.future_get fut) := by
      simp [List.getElem?_map, hget]
    rw [hidx]
    cases hai : accepted i with
    | false =>
      have := hrej hai
      simp only [lineJob, hai, if_true]
      exact ⟨by rw [this], _, rfl⟩
    | true =>
      obtain ⟨h, hh⟩ := Option.isSome_iff_exists.1 (hdone i hil hai)
      have := hacc hai h hh
      simp only [lineJob, hai, Bool.true_eq_false, if_false, hh, Option.map_some']
      exact ⟨by rw [this], _, rfl⟩
  obtain ⟨jobs, hjobs⟩ := exists_map_some ((rets.map Prod.snd).map s1.future_get) (by
    intro x hx
    obtain ⟨i, hil, hxi⟩ := List.getElem_of_mem hx
    have hil2 : i < (getlines src).length := by simpa [hlen] using hil
    obtain ⟨h1, a, ha⟩ := hfut i hil2
    rw [List.getElem?_eq_getElem hil, hxi, ha] at h1
    exact ⟨a, Option.some.inj h1⟩)
  have hcol := (collect_eq_some_iff s1 (rets.map Prod.snd) jobs).2 hjobs
  have hjl : jobs.length = (getlines src).length := by
    have := congrArg List.length hjobs
    simp only [List.length_map] at this
    omega
  refine ⟨s1, rets.map Prod.snd, jobs, v, hv, hsub, by simp [hlen], hc1, hcol, hjl, ?_, ?_⟩
  · intro i hil
    obtain ⟨h1, _⟩ := hfut i hil
    rw [hjobs, List.getElem?_map] at h1
    cases hj : jobs[i]? with
    | none =>
      rw [hj] at h1
      simp at h1
    | some j =>
      rw [hj] at h1
      simpa using h1
  · apply translate_eq finish accepted workers s s1 src _ jobs hsub hcol
    intro hsrc hnil
    have := getlines_ne_nil src hsrc
    rw [hnil] at hjl
    exact this (List.length_eq_zero.1 hjl.symm)

theorem translate_order_preserving_witness :
    (TranslationService.init demoOptions).start.2 = some demoService ∧
    run demoFinish demoService [] = some (demoService, []) ∧
    numPushes [] + (getlines demoText).length < 2 ^ 64 ∧
    (∀ i, i < (getlines demoText).length → (fun _ => true) i = true →
      (firstCallback (demoService.job_ctr_ + i + 1)
        (opsAfter (fun _ => true) demoWorkers (getlines demoText) i)).isSome = true) ∧
    (TranslationService.translate demoFinish (fun _ => true) demoWorkers demoService
        demoText).map Prod.snd
      = some ['t', 'A', '\n', 't', 'B', '\n', 't', 'C', '\n'] ∧
    ∃ s1 ftrans jobs v,
      demoService.vocabs_.getLast? = some (some v) ∧
      TranslationService.submitLoop demoFinish (fun _ => true) demoWorkers
        (demoText.length + 1) demoService demoText 0 [] = some (s1, ftrans) ∧
      ftrans.length = (getlines demoText).length ∧
      s1.job_ctr_ = demoService.job_ctr_ + (getlines demoText).length ∧
      TranslationService.collect s1 ftrans = some jobs ∧
      jobs.length = (getlines demoText).length ∧
      (∀ i, i < (getlines demoText).length →
        jobs[i]? = lineJob demoFinish demoService v (fun _ => true) demoWorkers
          (getlines demoText) i) ∧
      TranslationService.translate demoFinish (fun _ => true) demoWorkers demoService demoText =
        some (s1, if demoText ≠ [] ∧ demoText.getLast? ≠ some '\n'
          then ((jobs.map fun j => j.translation ++ ['\n']).flatten).dropLast
          else (jobs.map fun j => j.translation ++ ['\n']).flatten) :=
  ⟨by decide, by decide, by decide, by decide, by decide,
    translate_order_preserving demoFinish demoOptions demoService (by decide) [] demoService []
      (by decide) (fun _ => true) demoWorkers demoText (by decide) (by decide)⟩

/-- C7 fails as stated: on the text `"A\nB"`, which does not end in a newline, the
result of `translate` ends in a newline when the translation of the last line
is empty, be it because the queue rejected the job or because the worker
delivered an empty translation. -/
theorem translate_trailing_newline_counterexample :
    demoTextOpen ≠ [] ∧ demoTextOpen.getLast? ≠ some '\n' ∧
    (TranslationService.translate demoFinish (fun _ => true) demoWorkersEmpty demoService
        demoTextOpen).map Prod.snd = some ['t', '\n'] ∧
    (TranslationService.translate demoFinish (fun _ => false) (fun _ => []) demoService
        demoTextOpen).map Prod.snd = some ['\n'] ∧
    ¬ (∀ (accepted : Nat → Bool) (workers : Nat → List History) (src : List Char)
        (s1 : TranslationService) (out : List Char), src ≠ [] →
        TranslationService.translate demoFinish accepted workers demoService src
          = some (s1, out) →
        (out.getLast? = some '\n' ↔ src.getLast? = some '\n')) := by
  refine ⟨by decide, by decide, by decide, by decide, ?_⟩
  intro hall
  have h1 : (TranslationService.translate demoFinish (fun _ => false) (fun _ => []) demoService
      demoTextOpen).map Prod.snd = some ['\n'] := by decide
  cases ht : TranslationService.translate demoFinish (fun _ => false) (fun _ => []) demoService
      demoTextOpen with
  | none =>
    rw [ht] at h1
    exact Option.noConfusion h1
  | some r =>
    rw [ht] at h1
    simp only [Option.map_some', Option.some.injEq] at h1
    have h2 := hall (fun _ => false) (fun _ => []) demoTextOpen r.1 r.2 (by decide) ht
    rw [h1] at h2
    exact absurd (h2.1 (by decide)) (by decide)

/-- C7, amended: whenever `translate` returns on a non-empty text, the result ends in
a newline if the text does; if the text does not, the result ends in a
newline exactly when the translation of the last line ends in a newline, or
is empty while the text has more than one line. So the result ends in a
newline exactly when the text does, if and only if the text ends in a newline
or the translation of the last line does not end in a newline and is not
empty or belongs to the only line. -/
theorem translate_trailing_newline (finish : Job → History → Bool → Vocab → Job)
    (accepted : Nat → Bool) (workers : Nat → List History)
    (s s1 : TranslationService) (src : List Char) (ftrans : List Nat) (jobs : List Job)
    (hsrc : src ≠ [])
    (hsub : TranslationService.submitLoop finish accepted workers (src.length + 1) s src 0 []
      = some (s1, ftrans))
    (hcol : TranslationService.collect s1 ftrans = some jobs) :
    ∃ out last, TranslationService.translate finish accepted workers s src = some (s1, out) ∧
      jobs.getLast? = some last ∧
      jobs.length = (getlines src).length ∧
      (src.getLast? = some '\n' → out.getLast? = some '\n') ∧
      (src.getLast? ≠ some '\n' →
        (out.getLast? = some '\n' ↔
          (last.translation.getLast? = some '\n' ∨
            (last.translation = [] ∧ 2 ≤ (getlines src).length)))) ∧
      ((out.getLast? = some '\n' ↔ src.getLast? = some '\n') ↔
        (src.getLast? = some '\n' ∨
          (last.translation.getLast? ≠ some '\n' ∧
            (last.translation ≠ [] ∨ (getlines src).length = 1)))) := by
  obtain ⟨rets, hrun, hft⟩ := (submitLoop_iff finish accepted workers (src.length + 1) s s1 src 0
    [] ftrans (Nat.lt_succ_self _)).1 hsub
  have hlen : jobs.length = (getlines src).length := by
    have h1 := congrArg List.length ((collect_eq_some_iff s1 ftrans jobs).1 hcol)
    have h2 := run_rets_length finish _ s s1 rets hrun
    rw [numPushes_translateOps] at h2
    simp only [hft, List.nil_append, List.length_map] at h1
    omega
  have hne : jobs ≠ [] := by
    intro hnil
    rw [hnil] at hlen
    exact getlines_ne_nil src hsrc (List.length_eq_zero.1 hlen.symm)
  obtain ⟨js, last, rfl⟩ := (List.eq_nil_or_concat jobs).resolve_left hne
  rw [List.concat_eq_append] at hcol hne hlen ⊢
  have hobuf : (((js ++ [last]).map fun j => j.translation ++ ['\n']).flatten)
      = TranslationService.obuf js ++ last.translation ++ ['\n'] := by
    simp [TranslationService.obuf]
  have hlen2 : (getlines src).length = js.length + 1 := by
    rw [← hlen]
    simp
  have hclosed : src.getLast? = some '\n' →
      (if src ≠ [] ∧ src.getLast? ≠ some '\n'
        then (((js ++ [last]).map fun j => j.translation ++ ['\n']).flatten).dropLast
        else ((js ++ [last]).map fun j => j.translation ++ ['\n']).flatten).getLast?
        = some '\n' := by
    intro hnl
    have hc : ¬ (src ≠ [] ∧ src.getLast? ≠ some '\n') := fun h => h.2 hnl
    rw [if_neg hc, hobuf]
    simp
  have hopen : src.getLast? ≠ some '\n' →
      ((if src ≠ [] ∧ src.getLast? ≠ some '\n'
        then (((js ++ [last]).map fun j => j.translation ++ ['\n']).flatten).dropLast
        else ((js ++ [last]).map fun j => j.translation ++ ['\n']).flatten).getLast?
        = some '\n' ↔
        (last.translation.getLast? = some '\n' ∨
          (last.translation = [] ∧ 2 ≤ (getlines src).length))) := by
    intro hnl
    rw [if_pos ⟨hsrc, hnl⟩, hobuf, List.dropLast_concat, hlen2]
    by_cases hnon : last.translation = []
    · rw [hnon, List.append_nil]
      by_cases hjs : js = []
      · subst hjs
        simp [TranslationService.obuf]
      · rw [obuf_getLast js hjs]
        have : 1 ≤ js.length := List.length_pos.2 hjs
        simp
        omega
    · rw [List.getLast?_append_of_ne_nil _ hnon]
      simp [hnon]
  refine ⟨_, last, translate_eq finish accepted workers s s1 src ftrans _ hsub hcol
    (fun _ => hne), by simp, hlen, hclosed, hopen, ?_⟩
  by_cases hnl : src.getLast? = some '\n'
  · exact ⟨fun _ => Or.inl hnl, fun _ => ⟨fun _ => hnl, fun _ => hclosed hnl⟩⟩
  · rw [hopen hnl]
    simp only [hnl, iff_false, false_or, not_or, not_and, not_le]
    rw [hlen2]
    constructor
    · rintro ⟨h1, h2⟩
      refine ⟨h1, ?_⟩
      by_cases hnon : last.translation = []
      · right
        have := h2 hnon
        omega
      · exact Or.inl hnon
    · rintro ⟨h1, h2 | h2⟩
      · exact ⟨h1, fun h => absurd h h2⟩
      · exact ⟨h1, fun _ => by omega⟩

theorem translate_trailing_newline_witness :
    (demoTextOpen ≠ [] ∧
      TranslationService.submitLoop demoFinish (fun _ => true) demoWorkersOpen
        (demoTextOpen.length + 1) demoService demoTextOpen 0 []
          = some (demoSubmitted.1, demoSubmitted.2) ∧
      TranslationService.collect demoSubmitted.1 demoSubmitted.2
        = some [{ Job.create 1 0 ['A'] 1 0 with translation := ['t'] },
                { Job.create 2 1 ['B'] 1 0 with translation := ['u'] }] ∧
      (TranslationService.translate demoFinish (fun _ => true) demoWorkersOpen demoService
        demoTextOpen).map Prod.snd = some ['t', '\n', 'u'] ∧
      ∃ out last, TranslationService.translate demoFinish (fun _ => true) demoWorkersOpen
          demoService demoTextOpen = some (demoSubmitted.1, out) ∧
        [{ Job.create 1 0 ['A'] 1 0 with translation := ['t'] },
         { Job.create 2 1 ['B'] 1 0 with translation := ['u'] }].getLast? = some last ∧
        [{ Job.create 1 0 ['A'] 1 0 with translation := ['t'] },
         { Job.create 2 1 ['B'] 1 0 with translation := ['u'] }].length
          = (getlines demoTextOpen).length ∧
        (demoTextOpen.getLast? = some '\n' → out.getLast? = some '\n') ∧
        (demoTextOpen.getLast? ≠ some '\n' →
          (out.getLast? = some '\n' ↔
            (last.translation.getLast? = some '\n' ∨
              (last.translation = [] ∧ 2 ≤ (getlines demoTextOpen).length)))) ∧
        ((out.getLast? = some '\n' ↔ demoTextOpen.getLast? = some '\n') ↔
          (demoTextOpen.getLast? = some '\n' ∨
            (last.translation.getLast? ≠ some '\n' ∧
              (last.translation ≠ [] ∨ (getlines demoTextOpen).length = 1))))) ∧
    (demoTextOne ≠ [] ∧
      TranslationService.submitLoop demoFinish (fun _ => false) (fun _ => [])
        (demoTextOne.length + 1) demoService demoTextOne 0 []
          = some (demoSubmittedOne.1, demoSubmittedOne.2) ∧
      TranslationService.collect demoSubmittedOne.1 demoSubmittedOne.2
        = some [{ Job.create 1 0 ['A'] 1 0 with error := some "Could not push to Queue." }] ∧
      (TranslationService.translate demoFinish (fun _ => false) (fun _ => []) demoService
        demoTextOne).map Prod.snd = some [] ∧
      ∃ out last, TranslationService.translate demoFinish (fun _ => false) (fun _ => [])
          demoService demoTextOne = some (demoSubmittedOne.1, out) ∧
        [{ Job.create 1 0 ['A'] 1 0 with error := some "Could not push to Queue." }].getLast?
          = some last ∧
        [{ Job.create 1 0 ['A'] 1 0 with error := some "Could not push to Queue." }].length
          = (getlines demoTextOne).length ∧
        (demoTextOne.getLast? = some '\n' → out.getLast? = some '\n') ∧
        (demoTextOne.getLast? ≠ some '\n' →
          (out.getLast? = some '\n' ↔
            (last.translation.getLast? = some '\n' ∨
              (last.translation = [] ∧ 2 ≤ (getlines demoTextOne).length)))) ∧
        ((out.getLast? = some '\n' ↔ demoTextOne.getLast? = some '\n') ↔
          (demoTextOne.getLast? = some '\n' ∨
            (last.translation.getLast? ≠ some '\n' ∧
              (last.translation ≠ [] ∨ (getlines demoTextOne).length = 1))))) :=
  ⟨⟨by decide, by decide, by decide, by decide,
      translate_trailing_newline demoFinish (fun _ => true) demoWorkersOpen demoService
        demoSubmitted.1 demoTextOpen demoSubmitted.2 _ (by decide) (by decide) (by decide)⟩,
    ⟨by decide, by decide, by decide, by decide,
      translate_trailing_newline demoFinish (fun _ => false) (fun _ => []) demoService
        demoSubmittedOne.1 demoTextOne demoSubmittedOne.2 _ (by decide) (by decide)
        (by decide)⟩⟩
/-! ## Claims on `stop`, on the steps of `push` and `callback_`, and on the counter -/

theorem Registry.keys_setFirst (r : Registry) (k : Nat) (j : Ptr Job) :
    (r.setFirst k j).keys = r.keys := by
  induction r with
  | nil => rfl
  | cons a r ih =>
    simp only [Registry.setFirst, Registry.keys, List.map_cons] at ih ⊢
    rw [ih]
    by_cases h : a.1 = k
    · simp [h]
    · simp [h]

theorem index_setFirst_find (s : TranslationService) (k : Nat) (j : Ptr Job) :
    Registry.find (Registry.setFirst (s.index k).1.scheduled_jobs_ k j) k ≠ none := by
  rw [Ne, Registry.find_eq_none_iff, Registry.keys_setFirst, not_not]
  unfold TranslationService.index
  cases hf : s.scheduled_jobs_.find k with
  | none => simp [TranslationService.newPromise, Registry.keys]
  | some e =>
    by_contra hk
    rw [(Registry.find_eq_none_iff _ _).2 hk] at hf
    exact Option.noConfusion hf

theorem push_eq_steps (s : TranslationService) (ejid : Nat) (input : List Char)
    (nbest priority : Nat) :
    s.push ejid input nbest priority true =
      (s.pushEnqueue ejid input nbest priority).bind fun (s1, job) =>
        TranslationService.pushReturn
          (TranslationService.pushSetJob (TranslationService.pushRegister s1 job).1 job) job
          (TranslationService.pushRegister s1 job).2 := by
  unfold TranslationService.push TranslationService.pushEnqueue
  cases hq : s.jq_ with
  | none => simp [hq]
  | some q =>
    simp only [Option.some_bind, TranslationService.pushReturn, TranslationService.pushSetJob,
      TranslationService.pushRegister]
    cases hf : Registry.find
        (Registry.setFirst
          (TranslationService.index
            { s with job_ctr_ := (s.job_ctr_ + 1) % 2 ^ 64,
                     jq_ := some { q with jobs := q.jobs ++
                       [Job.create ((s.job_ctr_ + 1) % 2 ^ 64) ejid input nbest priority] } }
            (Job.create ((s.job_ctr_ + 1) % 2 ^ 64) ejid input nbest priority).internal_id).1.scheduled_jobs_
          (Job.create ((s.job_ctr_ + 1) % 2 ^ 64) ejid input nbest priority).internal_id
          (some (Job.create ((s.job_ctr_ + 1) % 2 ^ 64) ejid input nbest priority)))
        (Job.create ((s.job_ctr_ + 1) % 2 ^ 64) ejid input nbest priority).internal_id with
    | none => exact absurd hf (index_setFirst_find _ _ _)
    | some e => simp [hf, Job.create]

theorem callback_eq_steps (finish : Job → History → Bool → Vocab → Job)
    (s : TranslationService) (h : History) :
    s.callback_ finish h =
      match s.callbackLocked h with
      | (s1, none) => some s1
      | (s1, some entry) => TranslationService.callbackFulfil finish s1 h entry := by
  unfold TranslationService.callback_ TranslationService.callbackLocked
  cases hf : s.scheduled_jobs_.find h.lineNum with
  | none => rfl
  | some e => rfl

theorem getElem?_stops (n i a : Nat)
    (h : (((List.range n).map WorkerCall.stop ++ (List.range n).map WorkerCall.join))[i]?
      = some (WorkerCall.stop a)) : i < n := by
  by_contra hge
  rw [List.getElem?_append_right (by simpa using Nat.le_of_not_lt hge)] at h
  rw [List.getElem?_map] at h
  cases hx : (List.range n)[i - ((List.range n).map WorkerCall.stop).length]? with
  | none => simp [hx] at h
  | some x => simp [hx] at h

theorem getElem?_joins (n j b : Nat)
    (h : (((List.range n).map WorkerCall.stop ++ (List.range n).map WorkerCall.join))[j]?
      = some (WorkerCall.join b)) : n ≤ j := by
  by_contra hlt
  rw [List.getElem?_append_left (by simpa using Nat.lt_of_not_le hlt)] at h
  rw [List.getElem?_map] at h
  cases hx : (List.range n)[j]? with
  | none => simp [hx] at h
  | some x => simp [hx] at h

/-- C11: `stop()` first calls `stop` on every worker and then `join` on every worker,
both in the order of the pool: every `stop` comes before every `join`, every
worker of the pool gets exactly one `stop` and exactly one `join`, and the
service, in particular `scheduled_jobs_` and `job_ctr_`, is left as it was. -/
theorem stop_then_join (s : TranslationService) :
    s.stop.1 = (List.range s.workers_.length).map WorkerCall.stop
      ++ (List.range s.workers_.length).map WorkerCall.join ∧
    (∀ (i j a b : Nat), s.stop.1[i]? = some (WorkerCall.stop a) →
      s.stop.1[j]? = some (WorkerCall.join b) → i < j) ∧
    (∀ k, k < s.workers_.length →
      s.stop.1.count (WorkerCall.stop k) = 1 ∧ s.stop.1.count (WorkerCall.join k) = 1) ∧
    (∀ k, s.workers_.length ≤ k →
      s.stop.1.count (WorkerCall.stop k) = 0 ∧ s.stop.1.count (WorkerCall.join k) = 0) ∧
    s.stop.2 = s ∧
    s.stop.2.scheduled_jobs_ = s.scheduled_jobs_ ∧ s.stop.2.job_ctr_ = s.job_ctr_ := by
  have hinjS : Function.Injective WorkerCall.stop := fun a b h => by injection h
  have hinjJ : Function.Injective WorkerCall.join := fun a b h => by injection h
  have hSJ : ∀ k n, WorkerCall.stop k ∉ (List.range n).map WorkerCall.join := by
    intro k n hm
    obtain ⟨x, _, hx⟩ := List.mem_map.1 hm
    exact WorkerCall.noConfusion hx
  have hJS : ∀ k n, WorkerCall.join k ∉ (List.range n).map WorkerCall.stop := by
    intro k n hm
    obtain ⟨x, _, hx⟩ := List.mem_map.1 hm
    exact WorkerCall.noConfusion hx
  refine ⟨rfl, ?_, ?_, ?_, rfl, rfl, rfl⟩
  · intro i j a b hi hj
    have h1 := getElem?_stops s.workers_.length i a hi
    have h2 := getElem?_joins s.workers_.length j b hj
    omega
  · intro k hk
    have hmem : k ∈ List.range s.workers_.length := List.mem_range.2 hk
    constructor
    · show List.count _ (_ ++ _) = 1
      rw [List.count_append, List.count_eq_zero_of_not_mem (hSJ k _),
        List.count_eq_one_of_mem ((List.nodup_range _).map hinjS)
          (List.mem_map_of_mem _ hmem)]
    · show List.count _ (_ ++ _) = 1
      rw [List.count_append, List.count_eq_zero_of_not_mem (hJS k _),
        List.count_eq_one_of_mem ((List.nodup_range _).map hinjJ)
          (List.mem_map_of_mem _ hmem)]
  · intro k hk
    have hnot : k ∉ List.range s.workers_.length := by
      rw [List.mem_range]
      omega
    constructor
    · show List.count _ (_ ++ _) = 0
      rw [List.count_append, List.count_eq_zero_of_not_mem (hSJ k _),
        List.count_eq_zero_of_not_mem
          (fun hm => hnot ((List.mem_map_of_injective hinjS).1 hm))]
    · show List.count _ (_ ++ _) = 0
      rw [List.count_append, List.count_eq_zero_of_not_mem (hJS k _),
        List.count_eq_zero_of_not_mem
          (fun hm => hnot ((List.mem_map_of_injective hinjJ).1 hm))]

theorem rets_mem_split (finish : Job → History → Bool → Vocab → Job) (ops : List Op) :
    ∀ (s s2 : TranslationService) (rets : List (Nat × Nat)),
      run finish s ops = some (s2, rets) → ∀ r, r ∈ rets →
      ∃ pre ejid input nbest priority accepted post,
        ops = pre ++ Op.push ejid input nbest priority accepted :: post ∧
        rets[numPushes pre]? = some r := by
  induction ops with
  | nil =>
    intro s s2 rets h r hr
    simp only [run, Option.some.injEq, Prod.mk.injEq] at h
    rw [← h.2] at hr
    simp at hr
  | cons op ops ih =>
    intro s s2 rets h r hr
    obtain ⟨s1, r1, r2, h1, h2, rfl⟩ := (run_cons_iff _ _ _ _ _ _).1 h
    cases op with
    | push a b c d acc =>
      simp only [step, Option.map_eq_some', Prod.exists, Prod.mk.injEq] at h1
      obtain ⟨_, x, y, _, _, rfl⟩ := h1
      rcases List.mem_append.1 hr with hr | hr
      · simp only [List.mem_singleton] at hr
        subst hr
        exact ⟨[], a, b, c, d, acc, ops, rfl, by simp [numPushes]⟩
      · obtain ⟨pre, a2, b2, c2, d2, acc2, post, rfl, hget⟩ := ih s1 s2 r2 h2 r hr
        exact ⟨Op.push a b c d acc :: pre, a2, b2, c2, d2, acc2, post, rfl,
          by simpa [numPushes] using hget⟩
    | callback hh =>
      rw [((step_callback_eq _ _ _ _ _).1 h1).2] at hr ⊢
      simp only [List.nil_append] at hr ⊢
      obtain ⟨pre, a2, b2, c2, d2, acc2, post, rfl, hget⟩ := ih s1 s2 r2 h2 r hr
      exact ⟨Op.callback hh :: pre, a2, b2, c2, d2, acc2, post, rfl,
        by simpa [numPushes] using hget⟩

theorem live_id (finish : Job → History → Bool → Vocab → Job) (s : TranslationService)
    (hs : Inv s) (ops : List Op) (hc : s.job_ctr_ + numPushes ops < 2 ^ 64)
    (k : Nat) (e : JobEntry) (hl : Live finish s ops k e) :
    ∃ pre post ejid input nbest priority,
      ops = pre ++ Op.push ejid input nbest priority true :: post ∧
      k = s.job_ctr_ + numPushes pre + 1 ∧ NoCallback k post := by
  obtain ⟨pre, post, ejid, input, nbest, priority, s1, r1, s2, fut, rfl, hrun, hpush, _, hno⟩ := hl
  rw [numPushes_append] at hc
  simp only [numPushes] at hc
  obtain ⟨hi1, hc1, _⟩ := run_inv finish pre s s1 r1 hs (by omega) hrun
  obtain ⟨s3, hstep, _⟩ := step_accepted finish hi1 (by omega) ejid input nbest priority
  rw [(step_push_eq _ _ _ _ _ _ _ _ _).1 hstep] at hpush
  simp only [Option.some.injEq, Prod.mk.injEq] at hpush
  exact ⟨pre, post, ejid, input, nbest, priority, rfl, by omega, hno⟩

/-- C12 fails as stated: after an accepted push, `stop()` returns with the entry of the
job still in `scheduled_jobs_` and its future still pending, when no worker
has called `callback_` for the job. -/
theorem stop_leaves_pending_counterexample :
    (TranslationService.init demoOptions).start.2 = some demoService ∧
    run demoFinish demoService [Op.push 7 ['a'] 1 0 true] = some (demoPending, [(1, 0)]) ∧
    demoPending.stop.2.scheduled_jobs_.find 1
      = some { first := some (Job.create 1 7 ['a'] 1 0), second := 0 } ∧
    demoPending.stop.2.future_get 0 = none := by
  decide

theorem pushReturn_erased (s : TranslationService) (job : Job) (prom : Nat)
    (h : s.scheduled_jobs_.find job.internal_id = none) :
    TranslationService.pushReturn s job prom = none := by
  simp [TranslationService.pushReturn, h]

theorem firstCallback_none (k : Nat) (ops : List Op) (hf : firstCallback k ops = none) :
    NoCallback k ops := by
  induction ops with
  | nil => exact NoCallback.nil k
  | cons op ops ih =>
    cases op with
    | push a b c d acc =>
      simp only [firstCallback] at hf
      exact (noCallback_cons_push _ _ _ _ _ _ _).2 (ih hf)
    | callback h2 =>
      simp only [firstCallback] at hf
      by_cases hk : h2.lineNum = k
      · simp [hk] at hf
      · simp only [hk, if_false] at hf
        exact (noCallback_cons_callback _ _ _).2 ⟨hk, ih hf⟩

/-- The future returned by an accepted push stays pending, with its entry in the
registry, as long as no `callback_` for its id has run. -/
theorem run_pending (finish : Job → History → Bool → Vocab → Job)
    (s s5 : TranslationService) (hs : Inv s)
    (pre post : List Op) (ejid : Nat) (input : List Char) (nbest priority : Nat)
    (rets : List (Nat × Nat))
    (hc : s.job_ctr_ + numPushes (pre ++ Op.push ejid input nbest priority true :: post)
      < 2 ^ 64)
    (hrun : run finish s (pre ++ Op.push ejid input nbest priority true :: post)
      = some (s5, rets))
    (hno : NoCallback (s.job_ctr_ + numPushes pre + 1) post) :
    ∃ fut, rets[numPushes pre]? = some (s.job_ctr_ + numPushes pre + 1, fut) ∧
      s5.scheduled_jobs_.find (s.job_ctr_ + numPushes pre + 1)
        = some { first := some (Job.create (s.job_ctr_ + numPushes pre + 1) ejid input nbest
                   priority),
                 second := fut } ∧
      s5.future_get fut = none := by
  rw [numPushes_append] at hc
  simp only [numPushes] at hc
  obtain ⟨s1, r1, r2, hrun1, hrun2, rfl⟩ := (run_append_iff finish pre _ s s5 rets).1 hrun
  obtain ⟨s2, r3, r4, hstep, hrun3, rfl⟩ := (run_cons_iff _ _ _ _ _ _).1 hrun2
  obtain ⟨hi1, hc1, hids1, _, _, _⟩ := run_inv finish pre s s1 r1 hs (by omega) hrun1
  have hlen1 : r1.length = numPushes pre := by
    have := congrArg List.length hids1
    simpa using this
  obtain ⟨s2b, hstep2, hi2, hc2, hreg2, _, _, _⟩ :=
    step_accepted finish hi1 (by omega) ejid input nbest priority
  rw [hstep] at hstep2
  simp only [Option.some.injEq, Prod.mk.injEq] at hstep2
  obtain ⟨rfl, rfl⟩ := hstep2
  obtain ⟨hi5, _, _, _, _, _⟩ := run_inv finish post s2 s5 r4 hi2 (by omega) hrun3
  have hmem : (s1.job_ctr_ + 1,
      ({ first := some (Job.create (s1.job_ctr_ + 1) ejid input nbest priority),
         second := s1.shared.length } : JobEntry)) ∈ s2.scheduled_jobs_ := by
    rw [hreg2]
    simp
  rw [← hc1] at hno ⊢
  have hmem5 := (run_registry finish post s2 s5 r4 hi2 (by omega) hrun3 _ _).2
    (Or.inl ⟨hmem, hno⟩)
  refine ⟨s1.shared.length, ?_, (Registry.find_eq_some_iff _ hi5.keysNodup _ _).2 hmem5, ?_⟩
  · rw [List.getElem?_append_right (by omega), hlen1]
    simp
  · have hp := hi5.pending _ hmem5
    simp only at hp
    simp [TranslationService.future_get, hp]

/-- Every entry of the registry of a service that started with an empty registry
belongs to a handle that a push of the sequence returned. -/
theorem run_entry_returned (finish : Job → History → Bool → Vocab → Job)
    (s s5 : TranslationService) (hs : Inv s) (hreg : s.scheduled_jobs_ = [])
    (ops : List Op) (rets : List (Nat × Nat))
    (hc : s.job_ctr_ + numPushes ops < 2 ^ 64)
    (hrun : run finish s ops = some (s5, rets))
    (k : Nat) (e : JobEntry) (he : (k, e) ∈ s5.scheduled_jobs_) :
    (k, e.second) ∈ rets := by
  have hlive := (run_registry finish ops s s5 rets hs hc hrun k e).1 he
  rw [hreg] at hlive
  simp only [List.not_mem_nil, false_and, false_or] at hlive
  obtain ⟨pre, post, ejid, input, nbest, priority, s1, r1, s2, fut, rfl, hrun1, hpush, rfl, _⟩ :=
    hlive
  obtain ⟨s1b, r1b, r2, hrun1b, hrun2, rfl⟩ := (run_append_iff finish pre _ s s5 rets).1 hrun
  rw [hrun1] at hrun1b
  simp only [Option.some.injEq, Prod.mk.injEq] at hrun1b
  obtain ⟨rfl, rfl⟩ := hrun1b
  obtain ⟨s2b, r3, r4, hstep, _, rfl⟩ := (run_cons_iff _ _ _ _ _ _).1 hrun2
  have h3 := (step_push_eq finish s1 s2 ejid input nbest priority true (k, fut)).2 hpush
  rw [hstep] at h3
  simp only [Option.some.injEq, Prod.mk.injEq] at h3
  rw [h3.2]
  simp

theorem mem_eq_of_fst_eq {κ α : Type} [DecidableEq κ] (l : List (κ × α))
    (h : (l.map Prod.fst).Nodup) (a b : κ × α) (ha : a ∈ l) (hb : b ∈ l) (hab : b.1 = a.1) :
    b = a := by
  have hf := filter_fst_eq_singleton l h a ha
  have hbm : b ∈ l.filter (fun x => x.1 == a.1) := by
    rw [List.mem_filter]
    exact ⟨hb, by simp [hab]⟩
  rw [hf] at hbm
  simpa using hbm

/-- C12, amended: `stop()` resolves no handle itself. After every sequence of calls on
a started service followed by `stop()`, the entries of `scheduled_jobs_` are
exactly the handles returned by `push` that are still unfulfilled: every
entry belongs to a returned handle that is pending, and every returned
handle that is pending has its entry. Which handles these are is fixed by
the calls before `stop()`: the handle of a rejected job holds the job with
its error, the handle of an accepted job holds the finished job and has no
entry once a `callback_` with its id has run, and is pending with its entry
when none has. So if for every push that the queue accepted a worker has run
a `callback_` with its id, then after `stop()` the registry is empty and
every future returned by a push holds a job. -/
theorem stop_resolves_completed (finish : Job → History → Bool → Vocab → Job)
    (o : Options) (s0 : TranslationService)
    (hstart : (TranslationService.init o).start.2 = some s0)
    (ops : List Op) (hn : numPushes ops < 2 ^ 64) :
    ∃ s rets v, run finish s0 ops = some (s, rets) ∧ s.stop.2 = s ∧
      s0.vocabs_.getLast? = some (some v) ∧
      (∀ k e, (k, e) ∈ s.stop.2.scheduled_jobs_ →
        (k, e.second) ∈ rets ∧ s.stop.2.future_get e.second = none) ∧
      (∀ r, r ∈ rets → s.stop.2.future_get r.2 = none →
        ∃ e, (r.1, e) ∈ s.stop.2.scheduled_jobs_ ∧ e.second = r.2) ∧
      (∀ pre ejid input nbest priority accepted post,
        ops = pre ++ Op.push ejid input nbest priority accepted :: post →
        ∃ fut, rets[numPushes pre]? = some (numPushes pre + 1, fut) ∧
          (accepted = false → s.stop.2.future_get fut =
            some { Job.create (numPushes pre + 1) ejid input nbest priority with
                   error := some "Could not push to Queue." }) ∧
          (accepted = true → ∀ h, firstCallback (numPushes pre + 1) post = some h →
            s.stop.2.future_get fut =
              some (finish (Job.create (numPushes pre + 1) ejid input nbest priority) h
                      s0.options_.right_left v) ∧
            s.stop.2.scheduled_jobs_.find (numPushes pre + 1) = none) ∧
          (accepted = true → firstCallback (numPushes pre + 1) post = none →
            s.stop.2.future_get fut = none ∧
            s.stop.2.scheduled_jobs_.find (numPushes pre + 1) =
              some { first := some (Job.create (numPushes pre + 1) ejid input nbest priority),
                     second := fut })) ∧
      ((∀ pre ejid input nbest priority post,
          ops = pre ++ Op.push ejid input nbest priority true :: post →
          (firstCallback (numPushes pre + 1) post).isSome = true) →
        s.stop.2.scheduled_jobs_ = [] ∧
        ∀ r, r ∈ rets → (s.stop.2.future_get r.2).isSome = true) := by
  obtain ⟨hi, hc, hreg, _⟩ := start_spec o _ s0 (Prod.ext rfl hstart)
  obtain ⟨v, hv⟩ := hi.lastVocab
  obtain ⟨s, rets, hrun, his, _, hids, _⟩ := run_total finish ops s0 hi (by omega)
  have hnd : (rets.map Prod.fst).Nodup := by
    rw [hids]
    exact List.nodup_range' _ _
  have hentry : ∀ k e, (k, e) ∈ s.scheduled_jobs_ →
      (k, e.second) ∈ rets ∧ s.future_get e.second = none := by
    intro k e he
    refine ⟨run_entry_returned finish s0 s hi hreg ops rets (by omega) hrun k e he, ?_⟩
    have hp := his.pending _ he
    simp only at hp
    simp [TranslationService.future_get, hp]
  have hpush : ∀ pre ejid input nbest priority accepted post,
      ops = pre ++ Op.push ejid input nbest priority accepted :: post →
      ∃ fut, rets[numPushes pre]? = some (numPushes pre + 1, fut) ∧
        (accepted = false → s.future_get fut =
          some { Job.create (numPushes pre + 1) ejid input nbest priority with
                 error := some "Could not push to Queue." }) ∧
        (accepted = true → ∀ h, firstCallback (numPushes pre + 1) post = some h →
          s.future_get fut =
            some (finish (Job.create (numPushes pre + 1) ejid input nbest priority) h
                    s0.options_.right_left v) ∧
          s.scheduled_jobs_.find (numPushes pre + 1) = none) ∧
        (accepted = true → firstCallback (numPushes pre + 1) post = none →
          s.future_get fut = none ∧
          s.scheduled_jobs_.find (numPushes pre + 1) =
            some { first := some (Job.create (numPushes pre + 1) ejid input nbest priority),
                   second := fut }) := by
    intro pre ejid input nbest priority accepted post hops
    subst hops
    obtain ⟨fut, hget, hrej, hacc⟩ := run_future finish s0 s hi v hv pre post ejid input nbest
      priority accepted rets (by omega) hrun
    rw [hc, Nat.zero_add] at hget hrej hacc
    refine ⟨fut, hget, hrej, ?_, ?_⟩
    · intro ha h hh
      refine ⟨hacc ha h hh, ?_⟩
      cases hf : s.scheduled_jobs_.find (numPushes pre + 1) with
      | none => rfl
      | some e =>
        exfalso
        have he := (Registry.find_eq_some_iff _ his.keysNodup _ _).1 hf
        obtain ⟨hm, hpend⟩ := hentry _ _ he
        have hfm : (numPushes pre + 1, fut) ∈ rets := List.getElem?_mem hget
        have heq := mem_eq_of_fst_eq rets hnd _ _ hfm hm rfl
        simp only [Prod.mk.injEq, true_and] at heq
        rw [heq, hacc ha h hh] at hpend
        exact Option.noConfusion hpend
    · intro ha hnone
      subst ha
      obtain ⟨fut2, hget2, hfind, hpend⟩ := run_pending finish s0 s hi pre post ejid input nbest
        priority rets (by omega) hrun
        (by rw [hc, Nat.zero_add]; exact firstCallback_none _ _ hnone)
      rw [hc, Nat.zero_add] at hget2 hfind
      rw [hget] at hget2
      simp only [Option.some.injEq, Prod.mk.injEq, true_and] at hget2
      subst hget2
      exact ⟨hpend, hfind⟩
  refine ⟨s, rets, v, hrun, rfl, hv, hentry, ?_, hpush, ?_⟩
  · intro r hr hnone
    obtain ⟨pre, ejid, input, nbest, priority, accepted, post, hops, hget⟩ :=
      rets_mem_split finish ops s0 s rets hrun r hr
    obtain ⟨fut, hget2, hrej, hacc, hpen⟩ := hpush pre ejid input nbest priority accepted post hops
    rw [hget] at hget2
    have hr2 : r = (numPushes pre + 1, fut) := Option.some.inj hget2
    subst hr2
    have hnone2 : s.future_get fut = none := hnone
    cases accepted with
    | false =>
      rw [hrej rfl] at hnone2
      exact Option.noConfusion hnone2
    | true =>
      cases hf : firstCallback (numPushes pre + 1) post with
      | some h =>
        rw [(hacc rfl h hf).1] at hnone2
        exact Option.noConfusion hnone2
      | none =>
        exact ⟨_, (Registry.find_eq_some_iff _ his.keysNodup _ _).1 (hpen rfl hf).2, rfl⟩
  · intro hall
    constructor
    · show s.scheduled_jobs_ = []
      rw [List.eq_nil_iff_forall_not_mem]
      intro x hx
      have hlive := (run_registry finish ops s0 s rets hi (by omega) hrun x.1 x.2).1 hx
      rw [hreg] at hlive
      simp only [List.not_mem_nil, false_and, false_or] at hlive
      obtain ⟨pre, post, ejid, input, nbest, priority, hops, hk, hno⟩ :=
        live_id finish s0 hi ops (by omega) x.1 x.2 hlive
      rw [hc, Nat.zero_add] at hk
      obtain ⟨h, hh⟩ := Option.isSome_iff_exists.1 (hall pre ejid input nbest priority post hops)
      obtain ⟨mid, post2, rfl, _, hk2⟩ := firstCallback_split _ _ h hh
      rw [← hk] at hk2
      exact hno h (by simp) hk2
    · intro r hr
      show (s.future_get r.2).isSome = true
      obtain ⟨pre, ejid, input, nbest, priority, accepted, post, hops, hget⟩ :=
        rets_mem_split finish ops s0 s rets hrun r hr
      obtain ⟨fut, hget2, hrej, hacc, _⟩ := hpush pre ejid input nbest priority accepted post hops
      rw [hget] at hget2
      have hr2 : r = (numPushes pre + 1, fut) := Option.some.inj hget2
      subst hr2
      cases accepted with
      | false => rw [hrej rfl]; rfl
      | true =>
        obtain ⟨h, hh⟩ := Option.isSome_iff_exists.1 (hall pre ejid input nbest priority post hops)
        rw [(hacc rfl h hh).1]
        rfl

theorem stop_resolves_completed_witness :
    (TranslationService.init demoOptions).start.2 = some demoService ∧
    numPushes demoOps2 < 2 ^ 64 ∧
    (run demoFinish demoService demoOps2).map
        (fun p => (p.2, p.1.stop.2.scheduled_jobs_.keys, (p.1.stop.2.future_get 0).isSome,
          p.1.stop.2.future_get 1))
      = some ([(1, 0), (2, 1)], [2], true, none) ∧
    ∃ s rets v, run demoFinish demoService demoOps2 = some (s, rets) ∧ s.stop.2 = s ∧
      demoService.vocabs_.getLast? = some (some v) ∧
      (∀ k e, (k, e) ∈ s.stop.2.scheduled_jobs_ →
        (k, e.second) ∈ rets ∧ s.stop.2.future_get e.second = none) ∧
      (∀ r, r ∈ rets → s.stop.2.future_get r.2 = none →
        ∃ e, (r.1, e) ∈ s.stop.2.scheduled_jobs_ ∧ e.second = r.2) ∧
      (∀ pre ejid input nbest priority accepted post,
        demoOps2 = pre ++ Op.push ejid input nbest priority accepted :: post →
        ∃ fut, rets[numPushes pre]? = some (numPushes pre + 1, fut) ∧
          (accepted = false → s.stop.2.future_get fut =
            some { Job.create (numPushes pre + 1) ejid input nbest priority with
                   error := some "Could not push to Queue." }) ∧
          (accepted = true → ∀ h, firstCallback (numPushes pre + 1) post = some h →
            s.stop.2.future_get fut =
              some (demoFinish (Job.create (numPushes pre + 1) ejid input nbest priority) h
                      demoService.options_.right_left v) ∧
            s.stop.2.scheduled_jobs_.find (numPushes pre + 1) = none) ∧
          (accepted = true → firstCallback (numPushes pre + 1) post = none →
            s.stop.2.future_get fut = none ∧
            s.stop.2.scheduled_jobs_.find (numPushes pre + 1) =
              some { first := some (Job.create (numPushes pre + 1) ejid input nbest priority),
                     second := fut })) ∧
      ((∀ pre ejid input nbest priority post,
          demoOps2 = pre ++ Op.push ejid input nbest priority true :: post →
          (firstCallback (numPushes pre + 1) post).isSome = true) →
        s.stop.2.scheduled_jobs_ = [] ∧
        ∀ r, r ∈ rets → (s.stop.2.future_get r.2).isSome = true) :=
  ⟨by decide, by decide, by decide,
    stop_resolves_completed demoFinish demoOptions demoService (by decide) demoOps2 (by decide)⟩

/-- C13 does not hold on the code: in `push(7, "a")` on a started service the job is in
the queue before the registry has an entry for it. A `callback_` for its id in
that state finds no entry and returns without fulfilling anything; `push` then
creates the entry and returns a future that stays pending. A `callback_`
after the entry was created and before `entry->first = job` finds an entry
with a null job and dereferences it. Only a `callback_` after `push` has
returned fulfils the future. -/
theorem push_lost_completion_race :
    demoService.pushEnqueue 7 ['a'] 1 0 = some (demoEnqueued.1, demoEnqueued.2) ∧
    demoEnqueued.2 = Job.create 1 7 ['a'] 1 0 ∧
    demoEnqueued.1.jq_ = some { jobs := [Job.create 1 7 ['a'] 1 0] } ∧
    demoEnqueued.1.scheduled_jobs_.find 1 = none ∧
    demoEnqueued.1.callback_ demoFinish { lineNum := 1, text := ['x'] }
      = some demoEnqueued.1 ∧
    demoRegistered.1.scheduled_jobs_.find 1 = some { first := none, second := 0 } ∧
    demoRegistered.1.callback_ demoFinish { lineNum := 1, text := ['x'] } = none ∧
    TranslationService.pushReturn
        (TranslationService.pushSetJob demoRegistered.1 demoEnqueued.2) demoEnqueued.2
        demoRegistered.2 = some (demoPending, (1, 0)) ∧
    demoService.push 7 ['a'] 1 0 true = some (demoPending, (1, 0)) ∧
    demoPending.future_get 0 = none ∧
    (demoPending.callback_ demoFinish { lineNum := 1, text := ['x'] }).map
        (fun s => s.future_get 0)
      = some (some { Job.create 1 7 ['a'] 1 0 with translation := ['x'] }) := by
  decide

theorem Registry.keys_erase (r : Registry) (k : Nat) :
    (r.erase k).keys = r.keys.erase k := by
  induction r with
  | nil => rfl
  | cons a r ih =>
    rw [Registry.erase_cons]
    by_cases h : a.1 = k
    · simp [Registry.keys, h]
    · simp only [h, if_false, Registry.keys, List.map_cons] at ih ⊢
      rw [ih, List.erase_cons_tail (by simpa using h)]

theorem push_keys (s s1 : TranslationService) (ejid : Nat) (input : List Char)
    (nbest priority : Nat) (accepted : Bool) (r : Nat × Nat)
    (h : s.push ejid input nbest priority accepted = some (s1, r)) :
    r.1 = (s.job_ctr_ + 1) % 2 ^ 64 ∧ s1.job_ctr_ = (s.job_ctr_ + 1) % 2 ^ 64 ∧
    s1.scheduled_jobs_.keys =
      if accepted = true ∧ (s.job_ctr_ + 1) % 2 ^ 64 ∉ s.scheduled_jobs_.keys
      then s.scheduled_jobs_.keys ++ [(s.job_ctr_ + 1) % 2 ^ 64] else s.scheduled_jobs_.keys := by
  cases hq : s.jq_ with
  | none => simp [TranslationService.push, hq] at h
  | some q =>
    cases accepted with
    | false =>
      rw [push_rejected s q hq] at h
      simp only [Option.some.injEq, Prod.mk.injEq] at h
      obtain ⟨rfl, rfl⟩ := h
      simp
    | true =>
      by_cases hnew : (s.job_ctr_ + 1) % 2 ^ 64 ∈ s.scheduled_jobs_.keys
      · unfold TranslationService.push at h
        generalize (s.job_ctr_ + 1) % 2 ^ 64 = id at hnew h ⊢
        have hex : ∃ e, s.scheduled_jobs_.find id = some e := by
          cases hf : s.scheduled_jobs_.find id with
          | none => exact absurd hnew ((Registry.find_eq_none_iff _ _).1 hf)
          | some e => exact ⟨e, rfl⟩
        obtain ⟨e, he⟩ := hex
        simp only [hq, TranslationService.index, Job.create, he, Bool.true_eq_false,
          if_false, Option.map_eq_some', Prod.exists, Prod.mk.injEq] at h
        obtain ⟨s2, fut, hg, rfl, rfl⟩ := h
        simp only [TranslationService.get_future] at hg
        split at hg
        · split at hg
          · exact Option.noConfusion hg
          · simp only [Option.some.injEq, Prod.mk.injEq] at hg
            obtain ⟨rfl, _⟩ := hg
            simp [hnew, Registry.keys_setFirst]
        · exact Option.noConfusion hg
      · rw [push_accepted s q hq ejid input nbest priority hnew] at h
        simp only [Option.some.injEq, Prod.mk.injEq] at h
        obtain ⟨rfl, rfl⟩ := h
        rw [if_pos ⟨rfl, hnew⟩]
        exact ⟨rfl, rfl, by simp [Registry.keys]⟩

theorem push_isSome_congr (s : TranslationService) (ejid ejid2 : Nat) (input input2 : List Char)
    (nbest nbest2 priority priority2 : Nat) (accepted : Bool) :
    (s.push ejid input nbest priority accepted).isSome
      = (s.push ejid2 input2 nbest2 priority2 accepted).isSome := by
  cases hq : s.jq_ with
  | none => simp [TranslationService.push, hq]
  | some q =>
    cases accepted with
    | false => rw [push_rejected s q hq, push_rejected s q hq]; rfl
    | true =>
      by_cases hnew : (s.job_ctr_ + 1) % 2 ^ 64 ∈ s.scheduled_jobs_.keys
      · unfold TranslationService.push
        generalize (s.job_ctr_ + 1) % 2 ^ 64 = id at hnew ⊢
        cases hf : s.scheduled_jobs_.find id with
        | none => exact absurd hnew ((Registry.find_eq_none_iff _ _).1 hf)
        | some e =>
          simp only [hq, TranslationService.index, Job.create, hf, Bool.true_eq_false,
            if_false, TranslationService.get_future]
          cases hsh : s.shared[e.second]? with
          | none => rfl
          | some st =>
            cases hr : st.retrieved with
            | false => simp [hr]
            | true => simp [hr]
      · rw [push_accepted s q hq ejid input nbest priority hnew,
          push_accepted s q hq ejid2 input2 nbest2 priority2 hnew]
        rfl

/-- C14: the id that `push` returns and the keys of the registry after it do not depend
on the external id, the text, `nbest` or the priority: two calls on the same
service with the same answer of the queue return the same id and leave the
same keys (or both do not return). The keys that `callback_` leaves are
the keys before without the line number of the history, and every entry
left was there before; so for two services with the same keys and two
histories with the same line number the keys afterwards are the same,
whatever the jobs in the entries are. -/
theorem matching_by_internal_id (finish : Job → History → Bool → Vocab → Job) :
    (∀ (s : TranslationService) (ejid ejid2 : Nat) (input input2 : List Char)
        (nbest nbest2 priority priority2 : Nat) (accepted : Bool),
      (s.push ejid input nbest priority accepted).map
          (fun r => (r.2.1, r.1.scheduled_jobs_.keys))
        = (s.push ejid2 input2 nbest2 priority2 accepted).map
          (fun r => (r.2.1, r.1.scheduled_jobs_.keys))) ∧
    (∀ (s s1 : TranslationService) (h : History), s.callback_ finish h = some s1 →
      s1.scheduled_jobs_.keys = s.scheduled_jobs_.keys.erase h.lineNum ∧
      ∀ x, x ∈ s1.scheduled_jobs_ → x ∈ s.scheduled_jobs_) ∧
    (∀ (s t s1 t1 : TranslationService) (h h2 : History),
      s.scheduled_jobs_.keys = t.scheduled_jobs_.keys → h.lineNum = h2.lineNum →
      s.callback_ finish h = some s1 → t.callback_ finish h2 = some t1 →
      s1.scheduled_jobs_.keys = t1.scheduled_jobs_.keys) := by
  have hcb : ∀ (s s1 : TranslationService) (h : History), s.callback_ finish h = some s1 →
      s1.scheduled_jobs_.keys = s.scheduled_jobs_.keys.erase h.lineNum ∧
      ∀ x, x ∈ s1.scheduled_jobs_ → x ∈ s.scheduled_jobs_ := by
    intro s s1 h hc
    rcases callback_registry finish s s1 h hc with ⟨hnone, rfl⟩ | herase
    · refine ⟨?_, fun x hx => hx⟩
      rw [List.erase_of_not_mem ((Registry.find_eq_none_iff _ _).1 hnone)]
    · rw [herase]
      exact ⟨Registry.keys_erase _ _, fun x hx => (Registry.erase_sublist _ _).subset hx⟩
  refine ⟨?_, hcb, ?_⟩
  · intro s ejid ejid2 input input2 nbest nbest2 priority priority2 accepted
    have hsome := push_isSome_congr s ejid ejid2 input input2 nbest nbest2 priority priority2
      accepted
    cases h1 : s.push ejid input nbest priority accepted with
    | none =>
      rw [h1] at hsome
      cases h2 : s.push ejid2 input2 nbest2 priority2 accepted with
      | none => rfl
      | some r2 => rw [h2] at hsome; simp at hsome
    | some r1 =>
      rw [h1] at hsome
      cases h2 : s.push ejid2 input2 nbest2 priority2 accepted with
      | none => rw [h2] at hsome; simp at hsome
      | some r2 =>
        obtain ⟨a1, _, a3⟩ := push_keys s r1.1 ejid input nbest priority accepted r1.2 h1
        obtain ⟨b1, _, b3⟩ := push_keys s r2.1 ejid2 input2 nbest2 priority2 accepted r2.2 h2
        simp only [Option.map_some', Option.some.injEq, Prod.mk.injEq]
        exact ⟨a1.trans b1.symm, a3.trans b3.symm⟩
  · intro s t s1 t1 h h2 hkeys hline hs ht
    rw [(hcb s s1 h hs).1, (hcb t t1 h2 ht).1, hkeys, hline]

/-- C15: for a history whose line number is a key of `scheduled_jobs_`, `callback_` first
erases that entry under the lock, leaving every other entry, the counter, the
shared states and the record of `set_value` calls as they were; in the state
in which the promise is fulfilled the key is no longer in the registry; the
value is the job of the erased entry finished with the history, the right-left
option and the last vocabulary, and it is set on the promise of that entry. -/
theorem callback_removes_then_fulfils (finish : Job → History → Bool → Vocab → Job)
    (s : TranslationService) (h : History) (e : JobEntry) (j : Job) (v : Vocab)
    (st : SharedState)
    (hnd : s.scheduled_jobs_.keys.Nodup)
    (hf : s.scheduled_jobs_.find h.lineNum = some e) (hj : e.first = some j)
    (hv : s.vocabs_.getLast? = some (some v))
    (hp : s.shared[e.second]? = some st) (hst : st.value = none) :
    ∃ s1 s2, s.callbackLocked h = (s1, some e) ∧
      s1.scheduled_jobs_.find h.lineNum = none ∧
      (∀ x : Nat × JobEntry, x.1 ≠ h.lineNum →
        (x ∈ s1.scheduled_jobs_ ↔ x ∈ s.scheduled_jobs_)) ∧
      s1.job_ctr_ = s.job_ctr_ ∧ s1.shared = s.shared ∧ s1.fulfilled = s.fulfilled ∧
      TranslationService.callbackFulfil finish s1 h e
        = s1.set_value e.second (finish j h s.options_.right_left v) ∧
      TranslationService.callbackFulfil finish s1 h e = some s2 ∧
      s.callback_ finish h = some s2 ∧
      s2.scheduled_jobs_ = s1.scheduled_jobs_ ∧ s2.job_ctr_ = s.job_ctr_ ∧
      s2.fulfilled = s.fulfilled ++ [(e.second, finish j h s.options_.right_left v)] ∧
      s2.future_get e.second = some (finish j h s.options_.right_left v) := by
  have hlt : e.second < s.shared.length := (List.getElem?_eq_some_iff.1 hp).1
  have hcb := callback_present finish s h e j v st hf hj hv hp hst
  have hsteps := callback_eq_steps finish s h
  have hlock : s.callbackLocked h
      = ({ s with scheduled_jobs_ := s.scheduled_jobs_.erase h.lineNum }, some e) := by
    simp only [TranslationService.callbackLocked, hf]
  rw [hlock] at hsteps
  simp only at hsteps
  refine ⟨_, _, hlock, Registry.find_erase_self _ hnd _, ?_, rfl, rfl, rfl, ?_,
    hsteps ▸ hcb, hcb, rfl, rfl, rfl, ?_⟩
  · intro x hx
    rw [Registry.mem_erase_iff _ hnd]
    exact ⟨fun hm => hm.1, fun hm => ⟨hm, hx⟩⟩
  · simp only [TranslationService.callbackFulfil, hj, hv,
      TranslationService.isRight2LeftDecoder]
  · simp [TranslationService.future_get, hlt]

theorem callback_removes_then_fulfils_witness :
    demoPending.scheduled_jobs_.keys.Nodup ∧
    demoPending.scheduled_jobs_.find 1
      = some { first := some (Job.create 1 7 ['a'] 1 0), second := 0 } ∧
    demoPending.vocabs_.getLast?
      = some (some { addr := 1, batchIndex := 1, file := some "trg.spm" }) ∧
    demoPending.shared[0]? = some { value := none, retrieved := true } ∧
    ∃ s1 s2, demoPending.callbackLocked { lineNum := 1, text := ['x'] }
        = (s1, some { first := some (Job.create 1 7 ['a'] 1 0), second := 0 }) ∧
      s1.scheduled_jobs_.find 1 = none ∧
      (∀ x : Nat × JobEntry, x.1 ≠ 1 →
        (x ∈ s1.scheduled_jobs_ ↔ x ∈ demoPending.scheduled_jobs_)) ∧
      s1.job_ctr_ = demoPending.job_ctr_ ∧ s1.shared = demoPending.shared ∧
      s1.fulfilled = demoPending.fulfilled ∧
      TranslationService.callbackFulfil demoFinish s1 { lineNum := 1, text := ['x'] }
          { first := some (Job.create 1 7 ['a'] 1 0), second := 0 }
        = s1.set_value 0 (demoFinish (Job.create 1 7 ['a'] 1 0) { lineNum := 1, text := ['x'] }
            demoPending.options_.right_left { addr := 1, batchIndex := 1, file := some "trg.spm" }) ∧
      TranslationService.callbackFulfil demoFinish s1 { lineNum := 1, text := ['x'] }
          { first := some (Job.create 1 7 ['a'] 1 0), second := 0 } = some s2 ∧
      demoPending.callback_ demoFinish { lineNum := 1, text := ['x'] } = some s2 ∧
      s2.scheduled_jobs_ = s1.scheduled_jobs_ ∧ s2.job_ctr_ = demoPending.job_ctr_ ∧
      s2.fulfilled = demoPending.fulfilled ++
        [(0, demoFinish (Job.create 1 7 ['a'] 1 0) { lineNum := 1, text := ['x'] }
            demoPending.options_.right_left { addr := 1, batchIndex := 1, file := some "trg.spm" })] ∧
      s2.future_get 0 = some (demoFinish (Job.create 1 7 ['a'] 1 0)
        { lineNum := 1, text := ['x'] } demoPending.options_.right_left
        { addr := 1, batchIndex := 1, file := some "trg.spm" }) :=
  ⟨by decide, by decide, by decide, by decide,
    callback_removes_then_fulfils demoFinish demoPending { lineNum := 1, text := ['x'] }
      { first := some (Job.create 1 7 ['a'] 1 0), second := 0 } (Job.create 1 7 ['a'] 1 0)
      { addr := 1, batchIndex := 1, file := some "trg.spm" } { value := none, retrieved := true }
      (by decide) (by decide) rfl (by decide) (by decide) rfl⟩

theorem pushFlags_length (ops : List Op) : (pushFlags ops).length = numPushes ops := by
  induction ops with
  | nil => rfl
  | cons op ops ih =>
    cases op with
    | push a b c d acc => simp [pushFlags, numPushes, ih]
    | callback h => simpa [pushFlags, numPushes] using ih

theorem acceptedIds_sublist (rets : List (Nat × Nat)) (flags : List Bool)
    (h : rets.length ≤ flags.length) :
    List.Sublist (acceptedIds rets flags) (rets.map Prod.fst) := by
  have h1 : ((rets.zip flags).map fun x => x.1.1) = rets.map Prod.fst := by
    have := List.map_fst_zip rets flags h
    calc ((rets.zip flags).map fun x => x.1.1)
        = ((rets.zip flags).map Prod.fst).map Prod.fst := by simp
      _ = rets.map Prod.fst := by rw [this]
  rw [← h1]
  exact List.Sublist.map _ (List.filter_sublist _)

/-- C16: every `push` that returns has advanced `job_ctr_` by one (modulo `2 ^ 64`) and
returns the new value, whatever the queue answered. Hence on a started
service, after a sequence of calls with fewer than `2 ^ 64` pushes, the
counter and the number of ids handed out are the number of pushes, the ids
are strictly increasing, so that no id is handed out twice, and the ids of
the accepted jobs are a strictly increasing part of them; they need not be
consecutive, as for three pushes of which the second is rejected. -/
theorem push_counter_advances (finish : Job → History → Bool → Vocab → Job)
    (o : Options) (s0 : TranslationService)
    (hstart : (TranslationService.init o).start.2 = some s0)
    (ops : List Op) (hn : numPushes ops < 2 ^ 64) :
    (∀ (s s1 : TranslationService) (ejid : Nat) (input : List Char) (nbest priority : Nat)
        (accepted : Bool) (r : Nat × Nat),
      s.push ejid input nbest priority accepted = some (s1, r) →
      s1.job_ctr_ = (s.job_ctr_ + 1) % 2 ^ 64 ∧ r.1 = s1.job_ctr_) ∧
    (∃ s rets, run finish s0 ops = some (s, rets) ∧
      s.job_ctr_ = numPushes ops ∧ rets.length = numPushes ops ∧
      rets.map Prod.fst = List.range' 1 (numPushes ops) ∧
      (rets.map Prod.fst).Pairwise (fun a b => a < b) ∧
      List.Sublist (acceptedIds rets (pushFlags ops)) (rets.map Prod.fst) ∧
      (acceptedIds rets (pushFlags ops)).Pairwise (fun a b => a < b)) ∧
    (run demoFinish demoService demoOps3).map (fun r => acceptedIds r.2 (pushFlags demoOps3))
      = some [1, 3] := by
  refine ⟨?_, ?_, by decide⟩
  · intro s s1 ejid input nbest priority accepted r h
    obtain ⟨h1, h2, _⟩ := push_keys s s1 ejid input nbest priority accepted r h
    exact ⟨h2, h1.trans h2.symm⟩
  · obtain ⟨hi, hc, _⟩ := start_spec o _ s0 (Prod.ext rfl hstart)
    obtain ⟨s, rets, hrun, _, hctr, hids, _⟩ := run_total finish ops s0 hi (by omega)
    rw [hc] at hids
    have hlen := run_rets_length finish ops s0 s rets hrun
    have hpw : (rets.map Prod.fst).Pairwise (fun a b => a < b) := by
      rw [hids]
      exact List.pairwise_lt_range' 1 (numPushes ops)
    have hsub := acceptedIds_sublist rets (pushFlags ops)
      (by rw [pushFlags_length, hlen])
    exact ⟨s, rets, hrun, by omega, hlen, hids, hpw, hsub, hpw.sublist hsub⟩

theorem push_counter_advances_witness :
    (TranslationService.init demoOptions).start.2 = some demoService ∧
    numPushes demoOps3 < 2 ^ 64 ∧
    ((∀ (s s1 : TranslationService) (ejid : Nat) (input : List Char) (nbest priority : Nat)
        (accepted : Bool) (r : Nat × Nat),
      s.push ejid input nbest priority accepted = some (s1, r) →
      s1.job_ctr_ = (s.job_ctr_ + 1) % 2 ^ 64 ∧ r.1 = s1.job_ctr_) ∧
    (∃ s rets, run demoFinish demoService demoOps3 = some (s, rets) ∧
      s.job_ctr_ = numPushes demoOps3 ∧ rets.length = numPushes demoOps3 ∧
      rets.map Prod.fst = List.range' 1 (numPushes demoOps3) ∧
      (rets.map Prod.fst).Pairwise (fun a b => a < b) ∧
      List.Sublist (acceptedIds rets (pushFlags demoOps3)) (rets.map Prod.fst) ∧
      (acceptedIds rets (pushFlags demoOps3)).Pairwise (fun a b => a < b)) ∧
    (run demoFinish demoService demoOps3).map (fun r => acceptedIds r.2 (pushFlags demoOps3))
      = some [1, 3]) :=
  ⟨by decide, by decide,
    push_counter_advances demoFinish demoOptions demoService (by decide) demoOps3 (by decide)⟩

/-- C17: when the text is not empty and does not end in a newline and both loops of
`translate` have run, at least one job was pushed, the text written to `obuf`
ends with the newline written after the translation of the last job, and
`pop_back` removes exactly that newline: the result is the output of the
jobs before the last followed by the translation of the last job. On the
empty text `translate` pushes nothing, leaves the service as it was and
returns the empty string. -/
theorem translate_pop_back_safe (finish : Job → History → Bool → Vocab → Job)
    (accepted : Nat → Bool) (workers : Nat → List History)
    (s s1 : TranslationService) (src : List Char) (ftrans : List Nat) (jobs : List Job)
    (hsrc : src ≠ []) (hnl : src.getLast? ≠ some '\n')
    (hsub : TranslationService.submitLoop finish accepted workers (src.length + 1) s src 0 []
      = some (s1, ftrans))
    (hcol : TranslationService.collect s1 ftrans = some jobs) :
    (∃ js last, jobs = js ++ [last] ∧
      1 ≤ ftrans.length ∧ ftrans.length = (getlines src).length ∧
      TranslationService.obuf jobs = TranslationService.obuf js ++ last.translation ++ ['\n'] ∧
      (TranslationService.obuf jobs).getLast? = some '\n' ∧
      TranslationService.pop_back (TranslationService.obuf jobs)
        = some (TranslationService.obuf js ++ last.translation) ∧
      TranslationService.translate finish accepted workers s src
        = some (s1, TranslationService.obuf js ++ last.translation)) ∧
    TranslationService.submitLoop finish accepted workers ([] : List Char).length.succ s [] 0 []
      = some (s, []) ∧
    TranslationService.translate finish accepted workers s [] = some (s, []) := by
  obtain ⟨rets, hrun, hft⟩ := (submitLoop_iff finish accepted workers (src.length + 1) s s1 src 0
    [] ftrans (Nat.lt_succ_self _)).1 hsub
  have hflen : ftrans.length = (getlines src).length := by
    have h2 := run_rets_length finish _ s s1 rets hrun
    rw [numPushes_translateOps] at h2
    simp [hft, h2]
  have hlen : jobs.length = ftrans.length := by
    have h1 := congrArg List.length ((collect_eq_some_iff s1 ftrans jobs).1 hcol)
    simpa using h1.symm
  have hpos : 1 ≤ (getlines src).length :=
    Nat.pos_of_ne_zero (fun h0 => getlines_ne_nil src hsrc (List.length_eq_zero.1 h0))
  have hne : jobs ≠ [] := by
    intro hnil
    rw [hnil] at hlen
    simp only [List.length_nil] at hlen
    omega
  obtain ⟨js, last, rfl⟩ := (List.eq_nil_or_concat jobs).resolve_left hne
  rw [List.concat_eq_append] at hcol hne ⊢
  have hobuf : TranslationService.obuf (js ++ [last])
      = TranslationService.obuf js ++ last.translation ++ ['\n'] := by
    rw [obuf_concat, List.append_assoc]
  have hpop : TranslationService.pop_back (TranslationService.obuf (js ++ [last]))
      = some (TranslationService.obuf js ++ last.translation) := by
    rw [hobuf]
    simp [TranslationService.pop_back]
  refine ⟨⟨js, last, rfl, by omega, hflen, hobuf, obuf_getLast _ hne, hpop, ?_⟩, ?_, ?_⟩
  · simp only [TranslationService.translate, hsub, Option.some_bind, hcol,
      TranslationService.adjust]
    rw [if_pos ⟨hsrc, hnl⟩, hpop]
    rfl
  · simp [TranslationService.submitLoop, getline]
  · simp [TranslationService.translate, TranslationService.submitLoop, getline,
      TranslationService.collect, TranslationService.adjust, TranslationService.obuf]

theorem translate_pop_back_safe_witness :
    demoTextOpen ≠ [] ∧ demoTextOpen.getLast? ≠ some '\n' ∧
    TranslationService.submitLoop demoFinish (fun _ => true) demoWorkersOpen
      (demoTextOpen.length + 1) demoService demoTextOpen 0 []
        = some (demoSubmitted.1, demoSubmitted.2) ∧
    TranslationService.collect demoSubmitted.1 demoSubmitted.2
      = some [{ Job.create 1 0 ['A'] 1 0 with translation := ['t'] },
              { Job.create 2 1 ['B'] 1 0 with translation := ['u'] }] ∧
    ((∃ js last, [{ Job.create 1 0 ['A'] 1 0 with translation := ['t'] },
                  { Job.create 2 1 ['B'] 1 0 with translation := ['u'] }] = js ++ [last] ∧
      1 ≤ demoSubmitted.2.length ∧ demoSubmitted.2.length = (getlines demoTextOpen).length ∧
      TranslationService.obuf [{ Job.create 1 0 ['A'] 1 0 with translation := ['t'] },
                               { Job.create 2 1 ['B'] 1 0 with translation := ['u'] }]
        = TranslationService.obuf js ++ last.translation ++ ['\n'] ∧
      (TranslationService.obuf [{ Job.create 1 0 ['A'] 1 0 with translation := ['t'] },
                                { Job.create 2 1 ['B'] 1 0 with translation := ['u'] }]).getLast?
        = some '\n' ∧
      TranslationService.pop_back
          (TranslationService.obuf [{ Job.create 1 0 ['A'] 1 0 with translation := ['t'] },
                                    { Job.create 2 1 ['B'] 1 0 with translation := ['u'] }])
        = some (TranslationService.obuf js ++ last.translation) ∧
      TranslationService.translate demoFinish (fun _ => true) demoWorkersOpen demoService
          demoTextOpen
        = some (demoSubmitted.1, TranslationService.obuf js ++ last.translation)) ∧
    TranslationService.submitLoop demoFinish (fun _ => true) demoWorkersOpen
        ([] : List Char).length.succ demoService [] 0 [] = some (demoService, []) ∧
    TranslationService.translate demoFinish (fun _ => true) demoWorkersOpen demoService []
      = some (demoService, [])) :=
  ⟨by decide, by decide, by decide, by decide,
    translate_pop_back_safe demoFinish (fun _ => true) demoWorkersOpen demoService
      demoSubmitted.1 demoTextOpen demoSubmitted.2 _ (by decide) (by decide) (by decide)
      (by decide)⟩

end server

/-! ## Claims on the validator -/

namespace Validator

theorem updateStalled_better {F : Type} (lt : F → F → Bool) (keepBest : Bool)
    (v : ValidatorBase F) (val : F)
    (h : strictlyBetter lt v.lowerIsBetter_ val v.lastBest_ = true) :
    updateStalled lt keepBest v val = ({ v with stalled_ := 0, lastBest_ := val }, keepBest) := by
  unfold updateStalled strictlyBetter at *
  cases hl : v.lowerIsBetter_ <;> simp [hl] at h ⊢ <;> simp [h]

theorem updateStalled_not_better {F : Type} (lt : F → F → Bool) (keepBest : Bool)
    (v : ValidatorBase F) (val : F)
    (h : strictlyBetter lt v.lowerIsBetter_ val v.lastBest_ = false) :
    updateStalled lt keepBest v val
      = ({ v with stalled_ := (v.stalled_ + 1) % 2 ^ 64 }, false) := by
  unfold updateStalled strictlyBetter at *
  cases hl : v.lowerIsBetter_ <;> simp [hl] at h ⊢ <;> simp [h]

theorem validateAll_lower {F : Type} (lt : F → F → Bool) (keepBest : Bool) (vals : List F) :
    ∀ v : ValidatorBase F,
      (validateAll lt keepBest v vals).lowerIsBetter_ = v.lowerIsBetter_ := by
  induction vals with
  | nil => intro v; rfl
  | cons val vals ih =>
    intro v
    show (validateAll lt keepBest (updateStalled lt keepBest v val).1 vals).lowerIsBetter_ = _
    rw [ih]
    cases hb : strictlyBetter lt v.lowerIsBetter_ val v.lastBest_
    · rw [updateStalled_not_better lt keepBest v val hb]
    · rw [updateStalled_better lt keepBest v val hb]

theorem validateAll_best {F : Type} (lt : F → F → Bool) (keepBest : Bool) (vals : List F) :
    ∀ v : ValidatorBase F,
      (validateAll lt keepBest v vals).lastBest_ = bestOf lt v.lowerIsBetter_ v.lastBest_ vals := by
  induction vals with
  | nil => intro v; rfl
  | cons val vals ih =>
    intro v
    show (validateAll lt keepBest (updateStalled lt keepBest v val).1 vals).lastBest_
      = bestOf lt v.lowerIsBetter_
          (if strictlyBetter lt v.lowerIsBetter_ val v.lastBest_ then val else v.lastBest_) vals
    rw [ih]
    cases hb : strictlyBetter lt v.lowerIsBetter_ val v.lastBest_
    · rw [updateStalled_not_better lt keepBest v val hb]
      simp
    · rw [updateStalled_better lt keepBest v val hb]
      simp

theorem validateAll_append {F : Type} (lt : F → F → Bool) (keepBest : Bool)
    (v : ValidatorBase F) (a b : List F) :
    validateAll lt keepBest v (a ++ b) = validateAll lt keepBest (validateAll lt keepBest v a) b := by
  simp [validateAll, List.foldl_append]

theorem bestOf_append {F : Type} (lt : F → F → Bool) (lower : Bool) (start : F) (a b : List F) :
    bestOf lt lower start (a ++ b) = bestOf lt lower (bestOf lt lower start a) b := by
  simp [bestOf, List.foldl_append]

/-- While no value is strictly better than the best so far, the best stays and the
counter goes up by one for each value. -/
theorem validateAll_stalled {F : Type} (lt : F → F → Bool) (keepBest : Bool) (post : List F) :
    ∀ v : ValidatorBase F, v.stalled_ < 2 ^ 64 →
      (∀ post1 w post2, post = post1 ++ w :: post2 →
        strictlyBetter lt v.lowerIsBetter_ w (bestOf lt v.lowerIsBetter_ v.lastBest_ post1)
          = false) →
      validateAll lt keepBest v post
        = { v with stalled_ := (v.stalled_ + post.length) % 2 ^ 64 } := by
  induction post with
  | nil =>
    intro v hv _
    simp only [validateAll, List.foldl_nil, List.length_nil, Nat.add_zero,
      Nat.mod_eq_of_lt hv]
  | cons w post ih =>
    intro v hv hno
    have hw : strictlyBetter lt v.lowerIsBetter_ w v.lastBest_ = false := hno [] w post rfl
    have hstep := updateStalled_not_better lt keepBest v w hw
    show validateAll lt keepBest (updateStalled lt keepBest v w).1 post = _
    rw [hstep]
    have hno2 : ∀ post1 w2 post2, post = post1 ++ w2 :: post2 →
        strictlyBetter lt v.lowerIsBetter_ w2 (bestOf lt v.lowerIsBetter_ v.lastBest_ post1)
          = false := by
      intro post1 w2 post2 hp
      have := hno (w :: post1) w2 post2 (by rw [hp]; rfl)
      simpa [bestOf, hw] using this
    rw [ih { v with stalled_ := (v.stalled_ + 1) % 2 ^ 64 } (Nat.mod_lt _ (by norm_num)) hno2]
    simp only [List.length_cons]
    congr 1
    omega

theorem strictlyBetter_irrefl {F : Type} (lt : F → F → Bool) (lower : Bool)
    (hirr : ∀ a, lt a a = false) (a : F) : strictlyBetter lt lower a a = false := by
  cases lower <;> simp [strictlyBetter, hirr]

theorem strictlyBetter_trans {F : Type} (lt : F → F → Bool) (lower : Bool)
    (htrans : ∀ a b c, lt a b = true → lt b c = true → lt a c = true) (a b c : F)
    (h1 : strictlyBetter lt lower a b = true) (h2 : strictlyBetter lt lower b c = true) :
    strictlyBetter lt lower a c = true := by
  cases lower
  · simp only [strictlyBetter, Bool.false_eq_true, if_false] at h1 h2 ⊢
    exact htrans c b a h2 h1
  · simp only [strictlyBetter, if_true] at h1 h2 ⊢
    exact htrans a b c h1 h2

theorem bestOf_not_better {F : Type} (lt : F → F → Bool) (lower : Bool)
    (hirr : ∀ a, lt a a = false)
    (htrans : ∀ a b c, lt a b = true → lt b c = true → lt a c = true) (vals : List F) :
    ∀ (start : F) (seen : List F),
      (∀ w, w ∈ seen → strictlyBetter lt lower w start = false) →
      ∀ w, w ∈ seen ++ vals → strictlyBetter lt lower w (bestOf lt lower start vals) = false := by
  induction vals with
  | nil =>
    intro start seen hq w hw
    exact hq w (by simpa using hw)
  | cons val vals ih =>
    intro start seen hq w hw
    have hw2 : w ∈ (seen ++ [val]) ++ vals := by simpa using hw
    have key : ∀ x, x ∈ seen ++ [val] → strictlyBetter lt lower x
        (if strictlyBetter lt lower val start = true then val else start) = false := by
      intro x hx
      rcases List.mem_append.1 hx with hx | hx
      · split_ifs with hb
        · cases hxv : strictlyBetter lt lower x val
          · rfl
          · have := strictlyBetter_trans lt lower htrans x val start hxv hb
            rw [hq x hx] at this
            exact absurd this (by simp)
        · exact hq x hx
      · simp only [List.mem_singleton] at hx
        subst hx
        split_ifs with hb
        · exact strictlyBetter_irrefl lt lower hirr x
        · simpa using hb
    exact ih _ (seen ++ [val]) key w hw2

theorem bestOf_mem {F : Type} (lt : F → F → Bool) (lower : Bool) (vals : List F) :
    ∀ start : F, bestOf lt lower start vals ∈ start :: vals := by
  induction vals with
  | nil => intro start; simp [bestOf]
  | cons val vals ih =>
    intro start
    have := ih (if strictlyBetter lt lower val start then val else start)
    show bestOf lt lower (if strictlyBetter lt lower val start then val else start) vals ∈ _
    rcases List.mem_cons.1 this with h | h
    · rw [h]
      split_ifs
      · simp
      · simp
    · exact List.mem_cons_of_mem _ (List.mem_cons_of_mem _ h)

/-- C18: `updateStalled(val)` sets `stalled_` to 0 and `lastBest_` to `val` exactly when
`val` is strictly better than `lastBest_`; otherwise, a tie included, it keeps
`lastBest_` and adds one to `stalled_`. Hence, when `<` is irreflexive and
transitive, after fewer than `2 ^ 64` validations `lastBest_` is the best of
the initial value and the values seen, no seen value being strictly better,
and `stalled()` is the number of values after the last one that was strictly
better than the best before it (all values when there is none). -/
theorem updateStalled_tracks_best {F : Type} (lt : F → F → Bool) (fmax flowest : F)
    (lower keepBest : Bool) (hirr : ∀ a, lt a a = false)
    (htrans : ∀ a b c, lt a b = true → lt b c = true → lt a c = true)
    (vals : List F) (hlen : vals.length < 2 ^ 64) :
    (∀ (v : ValidatorBase F) (val : F),
      (strictlyBetter lt v.lowerIsBetter_ val v.lastBest_ = true →
        updateStalled lt keepBest v val
          = ({ v with stalled_ := 0, lastBest_ := val }, keepBest)) ∧
      (strictlyBetter lt v.lowerIsBetter_ val v.lastBest_ = false →
        updateStalled lt keepBest v val
          = ({ v with stalled_ := (v.stalled_ + 1) % 2 ^ 64 }, false))) ∧
    (validateAll lt keepBest (ValidatorBase.init fmax flowest lower) vals).lastBest_
      = bestOf lt lower (if lower then fmax else flowest) vals ∧
    (validateAll lt keepBest (ValidatorBase.init fmax flowest lower) vals).lastBest_
      ∈ (if lower then fmax else flowest) :: vals ∧
    (∀ w, w ∈ (if lower then fmax else flowest) :: vals →
      strictlyBetter lt lower w
        (validateAll lt keepBest (ValidatorBase.init fmax flowest lower) vals).lastBest_
        = false) ∧
    (∀ pre val post, vals = pre ++ val :: post →
      strictlyBetter lt lower val (bestOf lt lower (if lower then fmax else flowest) pre) = true →
      (∀ post1 w post2, post = post1 ++ w :: post2 →
        strictlyBetter lt lower w
          (bestOf lt lower (if lower then fmax else flowest) (pre ++ val :: post1)) = false) →
      (validateAll lt keepBest (ValidatorBase.init fmax flowest lower) vals).stalled
          = post.length ∧
      (validateAll lt keepBest (ValidatorBase.init fmax flowest lower) vals).lastBest_ = val) ∧
    ((∀ pre w post, vals = pre ++ w :: post →
        strictlyBetter lt lower w (bestOf lt lower (if lower then fmax else flowest) pre)
          = false) →
      (validateAll lt keepBest (ValidatorBase.init fmax flowest lower) vals).stalled
          = vals.length ∧
      (validateAll lt keepBest (ValidatorBase.init fmax flowest lower) vals).lastBest_
          = (if lower then fmax else flowest)) := by
  have hbest := validateAll_best lt keepBest vals (ValidatorBase.init fmax flowest lower)
  have hbest2 : (validateAll lt keepBest (ValidatorBase.init fmax flowest lower) vals).lastBest_
      = bestOf lt lower (if lower then fmax else flowest) vals := hbest
  refine ⟨fun v val => ⟨updateStalled_better lt keepBest v val,
    updateStalled_not_better lt keepBest v val⟩, hbest2, ?_, ?_, ?_, ?_⟩
  · rw [hbest2]
    exact bestOf_mem lt lower vals _
  · intro w hw
    rw [hbest2]
    have := bestOf_not_better lt lower hirr htrans vals (if lower then fmax else flowest)
      [if lower then fmax else flowest]
      (by intro x hx; simp only [List.mem_singleton] at hx; subst hx
          exact strictlyBetter_irrefl lt lower hirr _) w
    exact this (by simpa using hw)
  · intro pre val post hvals hb hno
    subst hvals
    have hsplit : pre ++ val :: post = pre ++ ([val] ++ post) := by simp
    rw [hsplit, validateAll_append, validateAll_append]
    have hl1 := validateAll_lower lt keepBest pre (ValidatorBase.init fmax flowest lower)
    have hb1 := validateAll_best lt keepBest pre (ValidatorBase.init fmax flowest lower)
    have hl1b : (validateAll lt keepBest (ValidatorBase.init fmax flowest lower) pre).lowerIsBetter_
        = lower := hl1
    have hb1b : (validateAll lt keepBest (ValidatorBase.init fmax flowest lower) pre).lastBest_
        = bestOf lt lower (if lower then fmax else flowest) pre := hb1
    have hstep : validateAll lt keepBest
        (validateAll lt keepBest (ValidatorBase.init fmax flowest lower) pre) [val]
        = { lowerIsBetter_ := lower, lastBest_ := val, stalled_ := 0 } := by
      show (updateStalled lt keepBest _ val).1 = _
      rw [updateStalled_better lt keepBest _ val (by rw [hl1b, hb1b]; exact hb)]
      simp [hl1b]
    rw [hstep]
    rw [validateAll_stalled lt keepBest post _ (by norm_num) (by
      intro post1 w post2 hp
      have := hno post1 w post2 hp
      have hone : bestOf lt lower (bestOf lt lower (if lower then fmax else flowest) pre) [val]
          = val := by
        show (if strictlyBetter lt lower val
          (bestOf lt lower (if lower then fmax else flowest) pre) = true then val else _) = val
        rw [if_pos hb]
      rw [show pre ++ val :: post1 = (pre ++ [val]) ++ post1 by simp, bestOf_append,
        bestOf_append, hone] at this
      exact this)]
    simp only [List.length_append, List.length_cons] at hlen
    constructor
    · show (0 + post.length) % 2 ^ 64 = post.length
      rw [Nat.zero_add, Nat.mod_eq_of_lt (by omega)]
    · rfl
  · intro hno
    rw [validateAll_stalled lt keepBest vals _ (by simp [ValidatorBase.init]) (by
      intro post1 w post2 hp
      exact hno post1 w post2 hp)]
    constructor
    · show (0 + vals.length) % 2 ^ 64 = vals.length
      rw [Nat.zero_add, Nat.mod_eq_of_lt hlen]
    · rfl

theorem updateStalled_tracks_best_witness :
    (∀ a, demoLt a a = false) ∧
    (∀ a b c, demoLt a b = true → demoLt b c = true → demoLt a c = true) ∧
    demoVals.length < 2 ^ 64 ∧
    validateAll demoLt false (ValidatorBase.init (1000 : Int) (-1000 : Int) true) demoVals
      = { lowerIsBetter_ := true, lastBest_ := 3, stalled_ := 2 } ∧
    ((∀ (v : ValidatorBase Int) (val : Int),
      (strictlyBetter demoLt v.lowerIsBetter_ val v.lastBest_ = true →
        updateStalled demoLt false v val
          = ({ v with stalled_ := 0, lastBest_ := val }, false)) ∧
      (strictlyBetter demoLt v.lowerIsBetter_ val v.lastBest_ = false →
        updateStalled demoLt false v val
          = ({ v with stalled_ := (v.stalled_ + 1) % 2 ^ 64 }, false))) ∧
    (validateAll demoLt false (ValidatorBase.init (1000 : Int) (-1000 : Int) true) demoVals).lastBest_
      = bestOf demoLt true (if true then (1000 : Int) else (-1000 : Int)) demoVals ∧
    (validateAll demoLt false (ValidatorBase.init (1000 : Int) (-1000 : Int) true) demoVals).lastBest_
      ∈ (if true then (1000 : Int) else (-1000 : Int)) :: demoVals ∧
    (∀ w, w ∈ (if true then (1000 : Int) else (-1000 : Int)) :: demoVals →
      strictlyBetter demoLt true w
        (validateAll demoLt false (ValidatorBase.init (1000 : Int) (-1000 : Int) true) demoVals).lastBest_
        = false) ∧
    (∀ pre val post, demoVals = pre ++ val :: post →
      strictlyBetter demoLt true val (bestOf demoLt true (if true then (1000 : Int) else (-1000 : Int)) pre) = true →
      (∀ post1 w post2, post = post1 ++ w :: post2 →
        strictlyBetter demoLt true w
          (bestOf demoLt true (if true then (1000 : Int) else (-1000 : Int)) (pre ++ val :: post1)) = false) →
      (validateAll demoLt false (ValidatorBase.init (1000 : Int) (-1000 : Int) true) demoVals).stalled
          = post.length ∧
      (validateAll demoLt false (ValidatorBase.init (1000 : Int) (-1000 : Int) true) demoVals).lastBest_ = val) ∧
    ((∀ pre w post, demoVals = pre ++ w :: post →
        strictlyBetter demoLt true w (bestOf demoLt true (if true then (1000 : Int) else (-1000 : Int)) pre)
          = false) →
      (validateAll demoLt false (ValidatorBase.init (1000 : Int) (-1000 : Int) true) demoVals).stalled
          = demoVals.length ∧
      (validateAll demoLt false (ValidatorBase.init (1000 : Int) (-1000 : Int) true) demoVals).lastBest_
          = (if true then (1000 : Int) else (-1000 : Int)))) :=
  ⟨fun a => by simp [demoLt],
    fun a b c h1 h2 => by simp only [demoLt, decide_eq_true_eq] at h1 h2 ⊢; omega,
    by decide, by decide,
    updateStalled_tracks_best demoLt (1000 : Int) (-1000 : Int) true false
      (fun a => by simp [demoLt])
      (fun a b c h1 h2 => by simp only [demoLt, decide_eq_true_eq] at h1 h2 ⊢; omega)
      demoVals (by decide)⟩

end Validator

namespace server
end server

/-! ## Claims on the nodes of the integer product -/

namespace cpu
namespace integer

theorem Shape.set_last (sh : Shape) (v : Int) (res : Shape) (h : Shape.set sh (-1) v = some res) :
    sh ≠ [] ∧ res = sh.dropLast ++ [v] ∧ res.length = sh.length := by
  unfold Shape.set at h
  simp only [show ¬ (0 : Int) ≤ -1 by omega, if_false] at h
  split_ifs at h with hlen
  simp only [Option.some.injEq] at h
  have hne : sh ≠ [] := by
    intro h0
    rw [h0] at hlen
    simp at hlen
  have hidx : ((sh.length : Int) + -1).toNat = sh.length - 1 := by omega
  refine ⟨hne, ?_, by rw [← h]; simp⟩
  rw [← h, hidx]
  obtain ⟨l, x, rfl⟩ := (List.eq_nil_or_concat sh).resolve_left hne
  simp [List.concat_eq_append, List.set_append]

theorem Shape.dim_last (sh : Shape) (d : Int) (h : Shape.dim sh (-1) = some d) :
    sh.getLast? = some d := by
  unfold Shape.dim at h
  simp only [show ¬ (0 : Int) ≤ -1 by omega, if_false] at h
  split_ifs at h with hlen
  have hidx : ((sh.length : Int) + -1).toNat = sh.length - 1 := by omega
  rw [hidx] at h
  rw [List.getLast?_eq_getElem?]
  exact h

theorem dimCheck_some (x : Node) (i : Int) (y : Node) (j : Int) (u : Unit)
    (h : dimCheck x i y j = some u) : ∃ d, x.shape.dim i = some d ∧ y.shape.dim j = some d := by
  unfold dimCheck at h
  cases hx : x.shape.dim i with
  | none => simp [hx] at h
  | some dx =>
    cases hy : y.shape.dim j with
    | none => simp [hx, hy] at h
    | some dy =>
      simp only [hx, hy, Option.some_bind] at h
      split_ifs at h with hne
      have hxy : dx = dy := by simpa using hne
      exact ⟨dx, rfl, by rw [hxy]⟩

theorem newShape_some (a b : Expr) (shape : Shape) (h : newShape a b = some shape) :
    ∃ na nb bl, a = some na ∧ b = some nb ∧ nb.shape.getLast? = some bl ∧
      nb.shape.dim (-1) = some bl ∧ na.shape ≠ [] ∧
      shape = na.shape.dropLast ++ [bl] ∧ shape.length = na.shape.length := by
  unfold newShape at h
  cases a with
  | none => simp at h
  | some na =>
    cases b with
    | none => simp at h
    | some nb =>
      cases hd : nb.shape.dim (-1) with
      | none => simp [hd] at h
      | some bl =>
        simp only [Option.some_bind, hd] at h
        obtain ⟨h1, h2, h3⟩ := Shape.set_last na.shape bl shape h
        exact ⟨na, nb, bl, rfl, rfl, Shape.dim_last _ _ hd, hd, h1, h2, h3⟩

theorem dimCheck_ne (x : Node) (i : Int) (y : Node) (j : Int)
    (h : x.shape.dim i ≠ y.shape.dim j) : dimCheck x i y j = none := by
  cases hc : dimCheck x i y j with
  | none => rfl
  | some u =>
    obtain ⟨d, h1, h2⟩ := dimCheck_some x i y j u hc
    exact absurd (h1.trans h2.symm) h

theorem DotNodeOp_some {F : Type} (debug : Bool) (a aq b bq : Expr) (scalar : F)
    (node : IntNodeOp F) (h : DotNodeOp debug a aq b bq scalar = some node) :
    ∃ na nb shape u, a = some na ∧ b = some nb ∧ newShape a b = some shape ∧
      dimCheck na (-1) nb (-2) = some u ∧ node.shape = shape ∧ node.scalar_ = scalar ∧
      node.children = [a, aq, b, bq] := by
  unfold DotNodeOp at h
  cases hs : newShape a b with
  | none => simp [hs] at h
  | some shape =>
    simp only [hs, Option.some_bind, List.length_cons, List.length_nil, ne_eq,
      not_true_eq_false, if_false] at h
    cases hn : nullCheck [a, aq, b, bq] with
    | none => simp [hn] at h
    | some u0 =>
      cases a with
      | none => simp [hn] at h
      | some na =>
        cases b with
        | none => simp [hn] at h
        | some nb =>
          cases hal : alignCheck debug nb with
          | none => simp [hn, hal] at h
          | some u1 =>
            cases hd : dimCheck na (-1) nb (-2) with
            | none => simp [hn, hal, hd] at h
            | some u =>
              simp only [hn, hal, hd, Option.some_bind, Option.some.injEq] at h
              subst h
              exact ⟨na, nb, shape, u, rfl, rfl, rfl, hd, rfl, rfl, rfl⟩

theorem AffineNodeOp_some {F : Type} [DecidableEq F] (one : F) (debug : Bool)
    (a aq b bq bias : Expr) (scalar : F) (a_old bias_old b_raw : Expr)
    (node : IntNodeOp F)
    (h : AffineNodeOp one debug a aq b bq bias scalar a_old bias_old b_raw = some node) :
    ∃ na nb nbias shape u u2, a = some na ∧ b = some nb ∧ bias = some nbias ∧
      newShape a b = some shape ∧ scalar = one ∧
      dimCheck na (-1) nb (-2) = some u ∧ dimCheck nb (-1) nbias (-1) = some u2 ∧
      node.shape = shape ∧ node.scalar_ = scalar := by
  unfold AffineNodeOp at h
  cases hs : newShape a b with
  | none => simp [hs] at h
  | some shape =>
    simp only [hs, Option.some_bind, List.length_cons, List.length_nil, ne_eq,
      not_true_eq_false, if_false] at h
    cases hn : nullCheck [a, aq, b, bq, bias, a_old, bias_old, b_raw] with
    | none => simp [hn] at h
    | some u0 =>
      by_cases hsc : scalar = one
      · subst hsc
        cases a with
        | none => simp [hn] at h
        | some na =>
          cases b with
          | none => simp [hn] at h
          | some nb =>
            cases bias with
            | none => simp [hn] at h
            | some nbias =>
              cases hal : alignCheck debug nb with
              | none => simp [hn, hal] at h
              | some u1 =>
                cases hd : dimCheck na (-1) nb (-2) with
                | none => simp [hn, hal, hd] at h
                | some u =>
                  cases hd2 : dimCheck nb (-1) nbias (-1) with
                  | none => simp [hn, hal, hd, hd2] at h
                  | some u2 =>
                    simp only [hn, hal, hd, hd2, Option.some_bind, not_true_eq_false,
                      if_false, Option.some.injEq] at h
                    subst h
                    exact ⟨na, nb, nbias, shape, u, u2, rfl, rfl, rfl, rfl, rfl, hd, hd2, rfl,
                      rfl⟩
      · simp [hn, hsc] at h

theorem replaced_last (sh : Shape) (bl : Int) (i : Nat) (hi : i + 1 < sh.length) :
    (sh.dropLast ++ [bl])[i]? = sh[i]? := by
  have h1 : i < sh.dropLast.length := by
    rw [List.length_dropLast]
    omega
  rw [List.getElem?_append_left h1, List.dropLast_eq_take, List.getElem?_take_of_lt (by omega)]

theorem Shape.dim_last_ne (sh : Shape) (d : Int) (h : Shape.dim sh (-1) = some d) : sh ≠ [] := by
  intro h0
  rw [h0] at h
  simp [Shape.dim] at h

theorem Shape.set_last_some (sh : Shape) (v : Int) (hne : sh ≠ []) :
    Shape.set sh (-1) v = some (sh.dropLast ++ [v]) := by
  have hpos : 0 < sh.length := List.length_pos.2 hne
  have hlen : (0 : Int) ≤ (sh.length : Int) + -1 := by omega
  have hidx : ((sh.length : Int) + -1).toNat = sh.length - 1 := by omega
  unfold Shape.set
  simp only [show ¬ (0 : Int) ≤ -1 by omega, if_false, hlen, if_true, hidx]
  obtain ⟨l, x, rfl⟩ := (List.eq_nil_or_concat sh).resolve_left hne
  simp [List.concat_eq_append, List.set_append]

theorem newShape_ok (na nb : Node) (d bl : Int) (ha : na.shape.dim (-1) = some d)
    (hb : nb.shape.dim (-1) = some bl) :
    newShape (some na) (some nb) = some (na.shape.dropLast ++ [bl]) := by
  simp only [newShape, Option.some_bind, hb]
  exact Shape.set_last_some _ _ (Shape.dim_last_ne _ _ ha)

theorem alignCheck_ok (debug : Bool) (nb : Node) (bl : Int) (hb : nb.shape.dim (-1) = some bl)
    (hal : debug = true → bl % 8 = 0) : alignCheck debug nb = some () := by
  simp only [alignCheck, hb, Option.some_bind]
  cases debug with
  | false => simp
  | true => simp [hal rfl]

theorem dimCheck_ok (x : Node) (i : Int) (y : Node) (j : Int) (d : Int)
    (hx : x.shape.dim i = some d) (hy : y.shape.dim j = some d) : dimCheck x i y j = some () := by
  simp [dimCheck, hx, hy]

theorem DotNodeOp_ok {F : Type} (debug : Bool) (na naq nb nbq : Node) (scalar : F) (d bl : Int)
    (ha : na.shape.dim (-1) = some d) (hb2 : nb.shape.dim (-2) = some d)
    (hb : nb.shape.dim (-1) = some bl) (hal : debug = true → bl % 8 = 0) :
    DotNodeOp debug (some na) (some naq) (some nb) (some nbq) scalar
      = some { children := [some na, some naq, some nb, some nbq],
               shape := na.shape.dropLast ++ [bl], scalar_ := scalar } := by
  simp [DotNodeOp, newShape_ok na nb d bl ha hb, nullCheck, alignCheck_ok debug nb bl hb hal,
    dimCheck_ok na (-1) nb (-2) d ha hb2]

theorem AffineNodeOp_ok {F : Type} [DecidableEq F] (one : F) (debug : Bool)
    (na naq nb nbq nbias nold nbold nraw : Node) (d bl : Int)
    (ha : na.shape.dim (-1) = some d) (hb2 : nb.shape.dim (-2) = some d)
    (hb : nb.shape.dim (-1) = some bl) (hbias : nbias.shape.dim (-1) = some bl)
    (hal : debug = true → bl % 8 = 0) :
    AffineNodeOp one debug (some na) (some naq) (some nb) (some nbq) (some nbias) one
        (some nold) (some nbold) (some nraw)
      = some { children := [some na, some naq, some nb, some nbq, some nbias, some nold,
                            some nbold, some nraw],
               shape := na.shape.dropLast ++ [bl], scalar_ := one } := by
  simp [AffineNodeOp, newShape_ok na nb d bl ha hb, nullCheck, alignCheck_ok debug nb bl hb hal,
    dimCheck_ok na (-1) nb (-2) d ha hb2, dimCheck_ok nb (-1) nbias (-1) bl hb hbias]

theorem alignCheck_some (debug : Bool) (nb : Node) (u : Unit)
    (h : alignCheck debug nb = some u) :
    ∃ bl, nb.shape.dim (-1) = some bl ∧ (debug = true → bl % 8 = 0) := by
  unfold alignCheck at h
  cases hd : nb.shape.dim (-1) with
  | none => simp [hd] at h
  | some bl =>
    refine ⟨bl, rfl, fun hdb => ?_⟩
    subst hdb
    simp only [hd, Option.some_bind] at h
    by_contra hne
    simp [hne] at h

theorem DotNodeOp_checks {F : Type} (debug : Bool) (a aq b bq : Expr) (scalar : F)
    (node : IntNodeOp F) (h : DotNodeOp debug a aq b bq scalar = some node) :
    (∃ naq, aq = some naq) ∧ (∃ nbq, bq = some nbq) ∧
    (∀ nb bl, b = some nb → nb.shape.dim (-1) = some bl → debug = true → bl % 8 = 0) ∧
    node.children = [a, aq, b, bq] ∧ node.scalar_ = scalar := by
  unfold DotNodeOp at h
  cases hs : newShape a b with
  | none => simp [hs] at h
  | some shape =>
    simp only [hs, Option.some_bind, List.length_cons, List.length_nil, ne_eq,
      not_true_eq_false, if_false] at h
    cases hn : nullCheck [a, aq, b, bq] with
    | none => simp [hn] at h
    | some u0 =>
      cases a with
      | none => simp [hn] at h
      | some na =>
        cases b with
        | none => simp [hn] at h
        | some nb =>
          cases hal : alignCheck debug nb with
          | none => simp [hn, hal] at h
          | some u1 =>
            cases hd : dimCheck na (-1) nb (-2) with
            | none => simp [hn, hal, hd] at h
            | some u =>
              simp only [hn, hal, hd, Option.some_bind, Option.some.injEq] at h
              subst h
              obtain ⟨bl, hbl, hmod⟩ := alignCheck_some debug nb u1 hal
              cases aq with
              | none => simp [nullCheck] at hn
              | some naq =>
                cases bq with
                | none => simp [nullCheck] at hn
                | some nbq =>
                  refine ⟨⟨naq, rfl⟩, ⟨nbq, rfl⟩, ?_, rfl, rfl⟩
                  intro nb2 bl2 hb2 hd2 hdb
                  simp only [Option.some.injEq] at hb2
                  subst hb2
                  rw [hbl] at hd2
                  simp only [Option.some.injEq] at hd2
                  subst hd2
                  exact hmod hdb

theorem AffineNodeOp_checks {F : Type} [DecidableEq F] (one : F) (debug : Bool)
    (a aq b bq bias : Expr) (scalar : F) (a_old bias_old b_raw : Expr)
    (node : IntNodeOp F)
    (h : AffineNodeOp one debug a aq b bq bias scalar a_old bias_old b_raw = some node) :
    (∃ naq, aq = some naq) ∧ (∃ nbq, bq = some nbq) ∧ (∃ nold, a_old = some nold) ∧
    (∃ nbold, bias_old = some nbold) ∧ (∃ nraw, b_raw = some nraw) ∧
    (∀ nb bl, b = some nb → nb.shape.dim (-1) = some bl → debug = true → bl % 8 = 0) ∧
    node.children = [a, aq, b, bq, bias, a_old, bias_old, b_raw] ∧ node.scalar_ = scalar := by
  unfold AffineNodeOp at h
  cases hs : newShape a b with
  | none => simp [hs] at h
  | some shape =>
    simp only [hs, Option.some_bind, List.length_cons, List.length_nil, ne_eq,
      not_true_eq_false, if_false] at h
    cases hn : nullCheck [a, aq, b, bq, bias, a_old, bias_old, b_raw] with
    | none => simp [hn] at h
    | some u0 =>
      by_cases hsc : scalar = one
      · subst hsc
        cases a with
        | none => simp [hn] at h
        | some na =>
          cases b with
          | none => simp [hn] at h
          | some nb =>
            cases bias with
            | none => simp [hn] at h
            | some nbias =>
              cases hal : alignCheck debug nb with
              | none => simp [hn, hal] at h
              | some u1 =>
                cases hd : dimCheck na (-1) nb (-2) with
                | none => simp [hn, hal, hd] at h
                | some u =>
                  cases hd2 : dimCheck nb (-1) nbias (-1) with
                  | none => simp [hn, hal, hd, hd2] at h
                  | some u2 =>
                    simp only [hn, hal, hd, hd2, Option.some_bind, not_true_eq_false,
                      if_false, Option.some.injEq] at h
                    subst h
                    obtain ⟨bl, hbl, hmod⟩ := alignCheck_some debug nb u1 hal
                    simp only [nullCheck, List.all_cons, List.all_nil, Bool.and_true,
                      Bool.and_eq_true, Option.isSome_some, true_and, Bool.true_and] at hn
                    split_ifs at hn with hall
                    obtain ⟨h1, h2, h3, h4, h5⟩ := hall
                    refine ⟨Option.isSome_iff_exists.1 h1, Option.isSome_iff_exists.1 h2,
                      Option.isSome_iff_exists.1 h3, Option.isSome_iff_exists.1 h4,
                      Option.isSome_iff_exists.1 h5, ?_, rfl, rfl⟩
                    intro nb2 bl2 hb2 hd2 hdb
                    simp only [Option.some.injEq] at hb2
                    subst hb2
                    rw [hbl] at hd2
                    simp only [Option.some.injEq] at hd2
                    subst hd2
                    exact hmod hdb
      · simp [hn, hsc] at h

/-- C19: the constructor of `DotNodeOp` aborts when the last dimension of `a` differs
from the second-to-last dimension of `b`; the constructor of `AffineNodeOp`
aborts in that case too, and when the last dimension of `b` differs from the
last dimension of the bias, and when `scalar` is not `1`. When either
constructor returns, no child is null, these dimensions agree, the
assertion on the alignment holds where assertions are compiled in, and the
shape of the node is the shape of `a` with its last dimension replaced by
the last dimension of `b`: same number of dimensions, all dimensions but the
last unchanged. And the constructors do return such a node: when no child is
null, the dimensions agree (for `AffineNodeOp` also `scalar` is `1`) and the
assertion on the alignment passes, the node is built with these children,
this scalar and that shape. -/
theorem int_node_shape {F : Type} [DecidableEq F] (one : F) (debug : Bool) :
    (∀ (na nb : Node) (aq bq : Expr) (scalar : F),
      na.shape.dim (-1) ≠ nb.shape.dim (-2) →
      DotNodeOp debug (some na) aq (some nb) bq scalar = none) ∧
    (∀ (a aq b bq : Expr) (scalar : F) (node : IntNodeOp F),
      DotNodeOp debug a aq b bq scalar = some node →
      ∃ na naq nb nbq d bl, a = some na ∧ aq = some naq ∧ b = some nb ∧ bq = some nbq ∧
        na.shape.getLast? = some d ∧ nb.shape.dim (-2) = some d ∧
        nb.shape.getLast? = some bl ∧ (debug = true → bl % 8 = 0) ∧
        node.children = [a, aq, b, bq] ∧ node.scalar_ = scalar ∧
        node.shape = na.shape.dropLast ++ [bl] ∧ node.shape.length = na.shape.length ∧
        node.shape.getLast? = some bl ∧
        ∀ i, i + 1 < na.shape.length → node.shape[i]? = na.shape[i]?) ∧
    (∀ (na naq nb nbq : Node) (scalar : F) (d bl : Int),
      na.shape.dim (-1) = some d → nb.shape.dim (-2) = some d →
      nb.shape.dim (-1) = some bl → (debug = true → bl % 8 = 0) →
      DotNodeOp debug (some na) (some naq) (some nb) (some nbq) scalar
        = some { children := [some na, some naq, some nb, some nbq],
                 shape := na.shape.dropLast ++ [bl], scalar_ := scalar }) ∧
    (∀ (na nb nbias : Node) (aq bq a_old bias_old b_raw : Expr) (scalar : F),
      (na.shape.dim (-1) ≠ nb.shape.dim (-2) ∨ nb.shape.dim (-1) ≠ nbias.shape.dim (-1)
        ∨ scalar ≠ one) →
      AffineNodeOp one debug (some na) aq (some nb) bq (some nbias) scalar a_old bias_old b_raw
        = none) ∧
    (∀ (a aq b bq bias : Expr) (scalar : F) (a_old bias_old b_raw : Expr) (node : IntNodeOp F),
      AffineNodeOp one debug a aq b bq bias scalar a_old bias_old b_raw = some node →
      ∃ na naq nb nbq nbias nold nbold nraw d bl, a = some na ∧ aq = some naq ∧ b = some nb ∧
        bq = some nbq ∧ bias = some nbias ∧ a_old = some nold ∧ bias_old = some nbold ∧
        b_raw = some nraw ∧ scalar = one ∧
        na.shape.getLast? = some d ∧ nb.shape.dim (-2) = some d ∧
        nb.shape.getLast? = some bl ∧ nbias.shape.getLast? = some bl ∧
        (debug = true → bl % 8 = 0) ∧
        node.children = [a, aq, b, bq, bias, a_old, bias_old, b_raw] ∧ node.scalar_ = scalar ∧
        node.shape = na.shape.dropLast ++ [bl] ∧ node.shape.length = na.shape.length ∧
        node.shape.getLast? = some bl ∧
        ∀ i, i + 1 < na.shape.length → node.shape[i]? = na.shape[i]?) ∧
    (∀ (na naq nb nbq nbias nold nbold nraw : Node) (d bl : Int),
      na.shape.dim (-1) = some d → nb.shape.dim (-2) = some d →
      nb.shape.dim (-1) = some bl → nbias.shape.dim (-1) = some bl →
      (debug = true → bl % 8 = 0) →
      AffineNodeOp one debug (some na) (some naq) (some nb) (some nbq) (some nbias) one
          (some nold) (some nbold) (some nraw)
        = some { children := [some na, some naq, some nb, some nbq, some nbias, some nold,
                              some nbold, some nraw],
                 shape := na.shape.dropLast ++ [bl], scalar_ := one }) := by
  refine ⟨?_, ?_, ?_, ?_, ?_, ?_⟩
  · intro na nb aq bq scalar hne
    cases h : DotNodeOp debug (some na) aq (some nb) bq scalar with
    | none => rfl
    | some node =>
      obtain ⟨na2, nb2, shape, u, ha, hb, _, hd, _⟩ := DotNodeOp_some debug _ _ _ _ _ node h
      simp only [Option.some.injEq] at ha hb
      subst ha
      subst hb
      obtain ⟨d, h1, h2⟩ := dimCheck_some _ _ _ _ u hd
      exact absurd (h1.trans h2.symm) hne
  · intro a aq b bq scalar node h
    obtain ⟨na, nb, shape, u, ha, hb, hs, hd, hshape, _, _⟩ := DotNodeOp_some debug _ _ _ _ _ node h
    obtain ⟨na2, nb2, bl, ha2, hb2, hbl, hbd, hne, hsh, hlen⟩ := newShape_some a b shape hs
    rw [ha] at ha2
    rw [hb] at hb2
    simp only [Option.some.injEq] at ha2 hb2
    subst ha2
    subst hb2
    obtain ⟨d, h1, h2⟩ := dimCheck_some _ _ _ _ u hd
    obtain ⟨⟨naq, haq⟩, ⟨nbq, hbq⟩, hal, hch, hsc⟩ := DotNodeOp_checks debug _ _ _ _ _ node h
    refine ⟨na, naq, nb, nbq, d, bl, ha, haq, hb, hbq, Shape.dim_last _ _ h1, h2, hbl,
      hal nb bl hb hbd, hch, hsc, by rw [hshape, hsh],
      by rw [hshape, hlen], by rw [hshape, hsh]; simp, ?_⟩
    intro i hi
    rw [hshape, hsh]
    exact replaced_last _ _ i hi
  · intro na naq nb nbq scalar d bl ha hb2 hb hal
    exact DotNodeOp_ok debug na naq nb nbq scalar d bl ha hb2 hb hal
  · intro na nb nbias aq bq a_old bias_old b_raw scalar hne
    cases h : AffineNodeOp one debug (some na) aq (some nb) bq (some nbias) scalar a_old bias_old
        b_raw with
    | none => rfl
    | some node =>
      obtain ⟨na2, nb2, nbias2, shape, u, u2, ha, hb, hbias, _, hsc, hd, hd2, _⟩ :=
        AffineNodeOp_some one debug _ _ _ _ _ _ _ _ _ node h
      simp only [Option.some.injEq] at ha hb hbias
      subst ha
      subst hb
      subst hbias
      obtain ⟨d, h1, h2⟩ := dimCheck_some _ _ _ _ u hd
      obtain ⟨d2, h3, h4⟩ := dimCheck_some _ _ _ _ u2 hd2
      rcases hne with hne | hne | hne
      · exact absurd (h1.trans h2.symm) hne
      · exact absurd (h3.trans h4.symm) hne
      · exact absurd hsc hne
  · intro a aq b bq bias scalar a_old bias_old b_raw node h
    obtain ⟨na, nb, nbias, shape, u, u2, ha, hb, hbias, hs, hsc, hd, hd2, hshape, _⟩ :=
      AffineNodeOp_some one debug _ _ _ _ _ _ _ _ _ node h
    obtain ⟨na2, nb2, bl, ha2, hb2, hbl, hbd, hne, hsh, hlen⟩ := newShape_some a b shape hs
    rw [ha] at ha2
    rw [hb] at hb2
    simp only [Option.some.injEq] at ha2 hb2
    subst ha2
    subst hb2
    obtain ⟨d, h1, h2⟩ := dimCheck_some _ _ _ _ u hd
    obtain ⟨d2, h3, h4⟩ := dimCheck_some _ _ _ _ u2 hd2
    have hd2bl : d2 = bl := by
      rw [hbd] at h3
      exact (Option.some.inj h3).symm
    subst hd2bl
    obtain ⟨⟨naq, haq⟩, ⟨nbq, hbq⟩, ⟨nold, hold⟩, ⟨nbold, hbold⟩, ⟨nraw, hraw⟩, hal, hch, hsc2⟩ :=
      AffineNodeOp_checks one debug _ _ _ _ _ _ _ _ _ node h
    refine ⟨na, naq, nb, nbq, nbias, nold, nbold, nraw, d, d2, ha, haq, hb, hbq, hbias, hold,
      hbold, hraw, hsc, Shape.dim_last _ _ h1, h2, hbl,
      Shape.dim_last _ _ h4, hal nb d2 hb hbd, hch, hsc2, by rw [hshape, hsh],
      by rw [hshape, hlen], by rw [hshape, hsh]; simp, ?_⟩
    intro i hi
    rw [hshape, hsh]
    exact replaced_last _ _ i hi
  · intro na naq nb nbq nbias nold nbold nraw d bl ha hb2 hb hbias hal
    exact AffineNodeOp_ok one debug na naq nb nbq nbias nold nbold nraw d bl ha hb2 hb hbias hal

theorem int_node_shape_witness :
    demoNodeA.shape.dim (-1) = some 3 ∧ demoNodeB.shape.dim (-2) = some 3 ∧
    demoNodeB.shape.dim (-1) = some 8 ∧ demoNodeBias.shape.dim (-1) = some 8 ∧
    DotNodeOp true (some demoNodeA) (some demoNodeQ) (some demoNodeB) (some demoNodeQ) (1 : Int)
      = some { children := [some demoNodeA, some demoNodeQ, some demoNodeB, some demoNodeQ],
               shape := [2, 8], scalar_ := 1 } ∧
    AffineNodeOp (1 : Int) true (some demoNodeA) (some demoNodeQ) (some demoNodeB)
        (some demoNodeQ) (some demoNodeBias) 1 (some demoNodeA) (some demoNodeBias)
        (some demoNodeB)
      = some { children := [some demoNodeA, some demoNodeQ, some demoNodeB, some demoNodeQ,
                            some demoNodeBias, some demoNodeA, some demoNodeBias,
                            some demoNodeB],
               shape := [2, 8], scalar_ := 1 } ∧
    DotNodeOp true (some demoNodeB) (some demoNodeQ) (some demoNodeB) (some demoNodeQ) (1 : Int)
      = none ∧
    AffineNodeOp (1 : Int) true (some demoNodeA) (some demoNodeQ) (some demoNodeB)
        (some demoNodeQ) (some demoNodeBias) 2 (some demoNodeA) (some demoNodeBias)
        (some demoNodeB) = none :=
  ⟨by decide, by decide, by decide, by decide,
    (int_node_shape (1 : Int) true).2.2.1 demoNodeA demoNodeQ demoNodeB demoNodeQ 1 3 8
      (by decide) (by decide) (by decide) (by decide),
    (int_node_shape (1 : Int) true).2.2.2.2.2 demoNodeA demoNodeQ demoNodeB demoNodeQ
      demoNodeBias demoNodeA demoNodeBias demoNodeB 3 8
      (by decide) (by decide) (by decide) (by decide) (by decide),
    (int_node_shape (1 : Int) true).1 demoNodeB demoNodeB (some demoNodeQ) (some demoNodeQ) 1
      (by decide),
    (int_node_shape (1 : Int) true).2.2.2.1 demoNodeA demoNodeB demoNodeBias (some demoNodeQ)
      (some demoNodeQ) (some demoNodeA) (some demoNodeBias) (some demoNodeB) 2
      (Or.inr (Or.inr (by decide)))⟩

end integer
end cpu

namespace server
end server

/-! ## Claims on `SaturateMult` -/

namespace cpu
namespace integer

theorem wrap32_eq (x : Int) (h1 : -2 ^ 31 ≤ x) (h2 : x < 2 ^ 31) : wrap32 x = x := by
  unfold wrap32
  omega

theorem product_bounds (a : Nat) (b : Int) (ha : a < 256) (hb1 : -32768 ≤ b) (hb2 : b ≤ 32767) :
    -8355840 ≤ (a : Int) * b ∧ (a : Int) * b ≤ 8355585 := by
  have ha0 : (0 : Int) ≤ a := Int.ofNat_nonneg a
  have ha1 : (a : Int) ≤ 255 := by omega
  constructor
  · have h1 : (a : Int) * (-32768) ≤ (a : Int) * b := Int.mul_le_mul_of_nonneg_left hb1 ha0
    have h2 : (255 : Int) * (-32768) ≤ (a : Int) * (-32768) := by omega
    omega
  · have h1 : (a : Int) * b ≤ (a : Int) * 32767 := Int.mul_le_mul_of_nonneg_left hb2 ha0
    have h2 : (a : Int) * 32767 ≤ 255 * 32767 := by omega
    omega

theorem getD_bounds_A (A : List Nat) (hA : ∀ a, a ∈ A → a < 256) (i : Nat) : A.getD i 0 < 256 := by
  rw [List.getD_eq_getElem?_getD]
  cases h : A[i]? with
  | none => simp
  | some a => exact hA a (List.getElem?_mem h)

theorem getD_bounds_B (B : List Int) (hB : ∀ b, b ∈ B → -32768 ≤ b ∧ b ≤ 32767) (i : Nat) :
    -32768 ≤ B.getD i 0 ∧ B.getD i 0 ≤ 32767 := by
  rw [List.getD_eq_getElem?_getD]
  cases h : B[i]? with
  | none => simp
  | some b => exact hB b (List.getElem?_mem h)

theorem clampedSum_succ (A : List Nat) (B : List Int) (width B_cols r c m : Nat) :
    clampedSum A B width B_cols r c (m + 1)
      = clampedSum A B width B_cols r c m + min (pairSum A B width B_cols r c m) 32767 := by
  simp [clampedSum, List.range_succ]

/-- The state of the loop over `k` after `k` iterations. -/
theorem saturate_loop (A : List Nat) (B : List Int) (width B_cols r c : Nat)
    (hA : ∀ a, a ∈ A → a < 256) (hB : ∀ b, b ∈ B → -32768 ≤ b ∧ b ≤ 32767)
    (hiA : r * width + width < 2 ^ 64) (hc : c < B_cols) (hiB : width * B_cols < 2 ^ 64)
    (hov : ∀ m, m ≤ width / 2 →
      -2 ^ 31 ≤ clampedSum A B width B_cols r c m ∧ clampedSum A B width B_cols r c m < 2 ^ 31)
    (k : Nat) (hk : k ≤ width) :
    (List.range k).foldl (saturateStep A B width B_cols r c) (0, 0)
      = (clampedSum A B width B_cols r c (k / 2),
         if k % 2 = 0 then 0
         else (A.getD (r * width + (k - 1)) 0 : Nat) * B.getD ((k - 1) * B_cols + c) 0) := by
  induction k with
  | zero => simp [clampedSum]
  | succ k ih =>
    have hk1 : k < width := hk
    rw [List.range_succ, List.foldl_append, ih (Nat.le_of_lt hk1)]
    have hidxA : (r * width + k) % 2 ^ 64 = r * width + k := Nat.mod_eq_of_lt (by omega)
    have hkB : (k + 1) * B_cols ≤ width * B_cols := Nat.mul_le_mul_right _ hk1
    rw [Nat.succ_mul] at hkB
    have hidxB : (k * B_cols + c) % 2 ^ 64 = k * B_cols + c := Nat.mod_eq_of_lt (by omega)
    have hpar : ((k + 1) % 2 ^ 64) % 2 = (k + 1) % 2 := by omega
    have hpk := product_bounds (A.getD (r * width + k) 0) (B.getD (k * B_cols + c) 0)
      (getD_bounds_A A hA _) (getD_bounds_B B hB _).1 (getD_bounds_B B hB _).2
    simp only [List.foldl_cons, List.foldl_nil, saturateStep, hidxA, hidxB, hpar]
    rcases Nat.even_or_odd' k with ⟨j, hj | hj⟩
    · have h1 : k % 2 = 0 := by omega
      have h2 : (k + 1) % 2 = 1 := by omega
      have h3 : (k + 1) / 2 = k / 2 := by omega
      have hw := wrap32_eq ((A.getD (r * width + k) 0 : Nat) * B.getD (k * B_cols + c) 0)
        (by omega) (by omega)
      simp only [h1, h2, h3, if_true, Nat.add_sub_cancel, one_ne_zero, if_false, zero_add, hw]
    · have h1 : k % 2 = 1 := by omega
      have h2 : (k + 1) % 2 = 0 := by omega
      have h3 : (k + 1) / 2 = k / 2 + 1 := by omega
      have h4 : k / 2 = j := by omega
      have hpk0 := product_bounds (A.getD (r * width + (k - 1)) 0)
        (B.getD ((k - 1) * B_cols + c) 0)
        (getD_bounds_A A hA _) (getD_bounds_B B hB _).1 (getD_bounds_B B hB _).2
      have hpair : pairSum A B width B_cols r c j
          = (A.getD (r * width + (k - 1)) 0 : Nat) * B.getD ((k - 1) * B_cols + c) 0
            + (A.getD (r * width + k) 0 : Nat) * B.getD (k * B_cols + c) 0 := by
        unfold pairSum
        rw [show k - 1 = 2 * j by omega, show k = 2 * j + 1 by omega]
      have hov1 := hov (k / 2 + 1) (by omega)
      have hw := wrap32_eq ((A.getD (r * width + k) 0 : Nat) * B.getD (k * B_cols + c) 0)
        (by omega) (by omega)
      have hw2 := wrap32_eq ((A.getD (r * width + (k - 1)) 0 : Nat)
          * B.getD ((k - 1) * B_cols + c) 0
        + (A.getD (r * width + k) 0 : Nat) * B.getD (k * B_cols + c) 0) (by omega) (by omega)
      simp only [h1, h2, h3, one_ne_zero, if_false, if_true, hw, hw2]
      rw [clampedSum_succ, h4, hpair]
      rw [h4, clampedSum_succ, hpair] at hov1
      have hmin : ∀ x : Int, (if x > 32767 then 32767 else x) = min x 32767 := by
        intro x
        split_ifs with hx
        · exact (min_eq_right (le_of_lt hx)).symm
        · exact (min_eq_left (not_lt.1 hx)).symm
      rw [hmin, wrap32_eq _ hov1.1 hov1.2]

theorem saturateDot_eq (A : List Nat) (B : List Int) (width B_cols r c : Nat)
    (hA : ∀ a, a ∈ A → a < 256) (hB : ∀ b, b ∈ B → -32768 ≤ b ∧ b ≤ 32767)
    (hiA : r * width + width < 2 ^ 64) (hc : c < B_cols) (hiB : width * B_cols < 2 ^ 64)
    (hov : ∀ m, m ≤ width / 2 →
      -2 ^ 31 ≤ clampedSum A B width B_cols r c m ∧ clampedSum A B width B_cols r c m < 2 ^ 31) :
    saturateDot A B width B_cols r c = clampedSum A B width B_cols r c (width / 2) := by
  unfold saturateDot
  rw [saturate_loop A B width B_cols r c hA hB hiA hc hiB hov width (Nat.le_refl _)]

/-- The loop over `c` for one row `r`: the first `n` cells of the row hold their values,
all other cells are as before. -/
theorem write_row (f : Nat → Int) (B_cols r : Nat) (n : Nat) :
    ∀ (C : List Int), n ≤ B_cols → r * B_cols + B_cols ≤ C.length → C.length < 2 ^ 64 →
      ((List.range n).foldl (fun C2 c => List.set C2 ((r * B_cols + c) % 2 ^ 64) (f c)) C).length
        = C.length ∧
      (∀ c, c < n →
        ((List.range n).foldl (fun C2 c => List.set C2 ((r * B_cols + c) % 2 ^ 64) (f c)) C)[
          r * B_cols + c]? = some (f c)) ∧
      (∀ i, (i < r * B_cols ∨ r * B_cols + n ≤ i) →
        ((List.range n).foldl (fun C2 c => List.set C2 ((r * B_cols + c) % 2 ^ 64) (f c)) C)[i]?
          = C[i]?) := by
  induction n with
  | zero =>
    intro C _ _ _
    exact ⟨rfl, fun c hc => absurd hc (Nat.not_lt_zero c), fun i _ => rfl⟩
  | succ n ih =>
    intro C hn hlen hsz
    obtain ⟨h1, h2, h3⟩ := ih C (Nat.le_of_succ_le hn) hlen hsz
    have hidx : (r * B_cols + n) % 2 ^ 64 = r * B_cols + n := Nat.mod_eq_of_lt (by omega)
    rw [List.range_succ, List.foldl_append]
    simp only [List.foldl_cons, List.foldl_nil, hidx]
    refine ⟨by rw [List.length_set, h1], ?_, ?_⟩
    · intro c hc
      by_cases hcn : c = n
      · subst hcn
        rw [List.getElem?_set_self (by rw [h1]; omega)]
      · rw [List.getElem?_set_ne (by omega)]
        exact h2 c (by omega)
    · intro i hi
      rw [List.getElem?_set_ne (by omega)]
      exact h3 i (by omega)

theorem write_rows (g : Nat → Nat → Int) (B_cols : Nat) (R : Nat) :
    ∀ (C : List Int), R * B_cols ≤ C.length → C.length < 2 ^ 64 →
      ((List.range R).foldl (fun C1 r =>
        (List.range B_cols).foldl (fun C2 c =>
          List.set C2 ((r * B_cols + c) % 2 ^ 64) (g r c)) C1) C).length = C.length ∧
      (∀ r c, r < R → c < B_cols →
        ((List.range R).foldl (fun C1 r =>
          (List.range B_cols).foldl (fun C2 c =>
            List.set C2 ((r * B_cols + c) % 2 ^ 64) (g r c)) C1) C)[r * B_cols + c]?
          = some (g r c)) ∧
      (∀ i, R * B_cols ≤ i →
        ((List.range R).foldl (fun C1 r =>
          (List.range B_cols).foldl (fun C2 c =>
            List.set C2 ((r * B_cols + c) % 2 ^ 64) (g r c)) C1) C)[i]? = C[i]?) := by
  induction R with
  | zero =>
    intro C _ _
    exact ⟨rfl, fun r c hr => absurd hr (Nat.not_lt_zero r), fun i _ => rfl⟩
  | succ R ih =>
    intro C hlen hsz
    have hmul : (R + 1) * B_cols = R * B_cols + B_cols := Nat.succ_mul R B_cols
    obtain ⟨h1, h2, h3⟩ := ih C (by omega) hsz
    rw [List.range_succ, List.foldl_append]
    simp only [List.foldl_cons, List.foldl_nil]
    obtain ⟨k1, k2, k3⟩ := write_row (g R) B_cols R B_cols _ (Nat.le_refl _)
      (by rw [h1]; omega) (by rw [h1]; exact hsz)
    refine ⟨by rw [k1, h1], ?_, ?_⟩
    · intro r c hr hc
      by_cases hrR : r = R
      · subst hrR
        exact k2 c hc
      · have hlt : r < R := by omega
        have hle : (r + 1) * B_cols ≤ R * B_cols := Nat.mul_le_mul_right _ hlt
        rw [Nat.succ_mul] at hle
        rw [k3 (r * B_cols + c) (Or.inl (by omega))]
        exact h2 r c hlt hc
    · intro i hi
      rw [k3 i (Or.inr (by omega))]
      exact h3 i (by omega)

/-- C20: for an `A_rows x width` matrix `A` of `uint8_t`, a `width x B_cols` matrix `B` of
`int16_t` and a buffer `C` of at least `A_rows * B_cols` cells, when no partial
sum of the pair sums bounded above by `32767` leaves the range of `int32_t`,
`SaturateMult` stores in `C[r * B_cols + c]` the sum over `j < width / 2` of
`min(A[r][2j] * B[2j][c] + A[r][2j+1] * B[2j+1][c], 32767)`; a pair sum is not
bounded below, and for odd `width` the last product is in no pair sum. The
other cells of `C` and its length are unchanged. -/
theorem SaturateMult_spec (A : List Nat) (B : List Int) (C : List Int)
    (A_rows width B_cols : Nat)
    (hA : ∀ a, a ∈ A → a < 256) (hB : ∀ b, b ∈ B → -32768 ≤ b ∧ b ≤ 32767)
    (hlA : A.length = A_rows * width) (hlB : B.length = width * B_cols)
    (hlC : A_rows * B_cols ≤ C.length)
    (hsA : A.length < 2 ^ 64) (hsB : B.length < 2 ^ 64) (hsC : C.length < 2 ^ 64)
    (hov : ∀ r, r < A_rows → ∀ c, c < B_cols → ∀ m, m ≤ width / 2 →
      -2 ^ 31 ≤ clampedSum A B width B_cols r c m ∧ clampedSum A B width B_cols r c m < 2 ^ 31) :
    (SaturateMult A B C A_rows width B_cols).length = C.length ∧
    (∀ r c, r < A_rows → c < B_cols →
      (SaturateMult A B C A_rows width B_cols)[r * B_cols + c]?
        = some (((List.range (width / 2)).map fun j =>
            min ((A.getD (r * width + 2 * j) 0 : Nat) * B.getD (2 * j * B_cols + c) 0
                + (A.getD (r * width + (2 * j + 1)) 0 : Nat)
                  * B.getD ((2 * j + 1) * B_cols + c) 0) 32767).sum)) ∧
    (∀ i, A_rows * B_cols ≤ i → (SaturateMult A B C A_rows width B_cols)[i]? = C[i]?) := by
  obtain ⟨h1, h2, h3⟩ := write_rows (saturateDot A B width B_cols) B_cols A_rows C hlC hsC
  refine ⟨h1, ?_, h3⟩
  intro r c hr hc
  have hmulA : (r + 1) * width ≤ A_rows * width := Nat.mul_le_mul_right _ hr
  rw [Nat.succ_mul] at hmulA
  have h4 : (SaturateMult A B C A_rows width B_cols)[r * B_cols + c]?
      = some (saturateDot A B width B_cols r c) := h2 r c hr hc
  rw [h4, saturateDot_eq A B width B_cols r c hA hB (by omega) hc (by omega)
    (fun m hm => hov r hr c hc m hm)]
  rfl

theorem SaturateMult_spec_witness :
    (∀ a, a ∈ demoA → a < 256) ∧ (∀ b, b ∈ demoB → -32768 ≤ b ∧ b ≤ 32767) ∧
    demoA.length = 2 * 3 ∧ demoB.length = 3 * 2 ∧ 2 * 2 ≤ demoC.length ∧
    demoA.length < 2 ^ 64 ∧ demoB.length < 2 ^ 64 ∧ demoC.length < 2 ^ 64 ∧
    (∀ r, r < 2 → ∀ c, c < 2 → ∀ m, m ≤ 3 / 2 →
      -2 ^ 31 ≤ clampedSum demoA demoB 3 2 r c m ∧ clampedSum demoA demoB 3 2 r c m < 2 ^ 31) ∧
    SaturateMult demoA demoB demoC 2 3 2 = [32767, -16711680, 32767, -294912] ∧
    ((SaturateMult demoA demoB demoC 2 3 2).length = demoC.length ∧
    (∀ r c, r < 2 → c < 2 →
      (SaturateMult demoA demoB demoC 2 3 2)[r * 2 + c]?
        = some (((List.range (3 / 2)).map fun j =>
            min ((demoA.getD (r * 3 + 2 * j) 0 : Nat) * demoB.getD (2 * j * 2 + c) 0
                + (demoA.getD (r * 3 + (2 * j + 1)) 0 : Nat)
                  * demoB.getD ((2 * j + 1) * 2 + c) 0) 32767).sum)) ∧
    (∀ i, 2 * 2 ≤ i → (SaturateMult demoA demoB demoC 2 3 2)[i]? = demoC[i]?)) :=
  ⟨by decide, by decide, by decide, by decide, by decide, by decide, by decide, by decide,
    by decide, by decide,
    SaturateMult_spec demoA demoB demoC 2 3 2 (by decide) (by decide) (by decide) (by decide)
      (by decide) (by decide) (by decide) (by decide) (by decide)⟩

end integer
end cpu

namespace server
end server
end marian
